import Mathlib

/-!
# cNBT: the NBT binary codec (`nbt_parsing.c`)

A shallow embedding of the binary decoder `nbt_parse` and the binary encoder
`nbt_dump_binary`, followed by theorems about them.

Conventions of the embedding.

* A byte is a natural number below 256; a memory region is a `List Nat`, so the
  C pair `(*memory, *length)` is one list and `*length` is its length.
* A C string is the list of its bytes before the terminating NUL.
* Fixed-width integers are `Int` (signed) or `Nat` (unsigned, and the raw bit
  patterns of `float` and `double`, which the codec only moves around).
* The platform is the usual one: 64-bit `size_t`, 32-bit `int`, two's
  complement wrap-around for `int` arithmetic, `malloc` answering `NULL`
  exactly for requests above `PTRDIFF_MAX`, and `assert` compiled out
  (`NDEBUG`); every `assert` that matters is followed in the source by the
  explicit test the embedding keeps.
* `errno` is threaded as the error value of the result: the parser clears it
  on entry, only ever sets it when it is still `NBT_OK`, and tests it after
  every reader, which is what the `Except` monad does.
* A C execution whose behaviour is undefined yields `Failure.undefined`, which
  is neither a success nor a reported error.
-/

namespace CNBT

/-! ## Status codes and type tags -/

/-- The status codes used by the sources (`nbt_status` of `nbt.h`). -/
inductive nbt_status where
  | NBT_OK
  | NBT_ERR
  | NBT_EMEM
  | NBT_EIO
  | NBT_EZ
  deriving DecidableEq, Repr

open nbt_status

/-- How a call can end without a value: `errno` was set to a status, the C
behaviour is undefined, or the recursion budget of the embedding ran out. -/
inductive Failure where
  | errno (s : nbt_status)
  | undefined
  | out_of_fuel
  deriving DecidableEq, Repr

/-- Modelled from the spec: the enum `nbt_type` of `nbt.h`, which is not among
the sources; the values are the wire type bytes of spec section 6, and
`TAG_INVALID` is the value 0 of the End terminator. -/
abbrev nbt_type := Nat

abbrev TAG_INVALID : nbt_type := 0
abbrev TAG_BYTE : nbt_type := 1
abbrev TAG_SHORT : nbt_type := 2
abbrev TAG_INT : nbt_type := 3
abbrev TAG_LONG : nbt_type := 4
abbrev TAG_FLOAT : nbt_type := 5
abbrev TAG_DOUBLE : nbt_type := 6
abbrev TAG_BYTE_ARRAY : nbt_type := 7
abbrev TAG_STRING : nbt_type := 8
abbrev TAG_LIST : nbt_type := 9
abbrev TAG_COMPOUND : nbt_type := 10
abbrev TAG_INT_ARRAY : nbt_type := 11
abbrev TAG_LONG_ARRAY : nbt_type := 12

/-! ## The tag tree -/

/-- The node of `nbt.h`: a name that may be `NULL`, and the member of the
payload union selected by the type tag. Each constructor is one value of
`node->type` together with the union member in use; the children of a list or
compound are the entries of the intrusive `struct tag_list`, in order. -/
inductive nbt_node where
  | tag_byte (name : Option (List Nat)) (v : Int)
  | tag_short (name : Option (List Nat)) (v : Int)
  | tag_int (name : Option (List Nat)) (v : Int)
  | tag_long (name : Option (List Nat)) (v : Int)
  | tag_float (name : Option (List Nat)) (bits : Nat)
  | tag_double (name : Option (List Nat)) (bits : Nat)
  | tag_byte_array (name : Option (List Nat)) (data : List Nat) (length : Int)
  | tag_string (name : Option (List Nat)) (s : List Nat)
  | tag_list (name : Option (List Nat)) (type : nbt_type) (list : List nbt_node)
  | tag_compound (name : Option (List Nat)) (list : List nbt_node)
  | tag_int_array (name : Option (List Nat)) (data : List Int) (length : Int)
  | tag_long_array (name : Option (List Nat)) (data : List Int) (length : Int)

namespace nbt_node

/-- The field `node->type`. -/
def type : nbt_node → nbt_type
  | tag_byte _ _ => TAG_BYTE
  | tag_short _ _ => TAG_SHORT
  | tag_int _ _ => TAG_INT
  | tag_long _ _ => TAG_LONG
  | tag_float _ _ => TAG_FLOAT
  | tag_double _ _ => TAG_DOUBLE
  | tag_byte_array _ _ _ => TAG_BYTE_ARRAY
  | tag_string _ _ => TAG_STRING
  | tag_list _ _ _ => TAG_LIST
  | tag_compound _ _ => TAG_COMPOUND
  | tag_int_array _ _ _ => TAG_INT_ARRAY
  | tag_long_array _ _ _ => TAG_LONG_ARRAY

/-- The field `node->name`. -/
def name : nbt_node → Option (List Nat)
  | tag_byte n _ => n
  | tag_short n _ => n
  | tag_int n _ => n
  | tag_long n _ => n
  | tag_float n _ => n
  | tag_double n _ => n
  | tag_byte_array n _ _ => n
  | tag_string n _ => n
  | tag_list n _ _ => n
  | tag_compound n _ => n
  | tag_int_array n _ _ => n
  | tag_long_array n _ _ => n

end nbt_node

/-! ## Bytes and integers -/

/-- The value of an integer object from its bytes in memory order, on the
little-endian host. -/
def le_value : List Nat → Nat
  | [] => 0
  | b :: bs => b + 256 * le_value bs

/-- The `k` bytes of the object holding `n`, in memory order. -/
def le_bytes : Nat → Nat → List Nat
  | 0, _ => []
  | k + 1, n => n % 256 :: le_bytes k (n / 256)

/-- The function `swap_bytes`: reverse the bytes of an object in place. -/
def swap_bytes (s : List Nat) : List Nat :=
  s.reverse

/-- The function `be2ne` (and `ne2be`, the same function): on the little-endian
host it is `swap_bytes`. -/
def be2ne (s : List Nat) : List Nat :=
  swap_bytes s

/-- Two's complement reading of an unsigned value of `bits` bits. -/
def to_signed (bits : Nat) (n : Nat) : Int :=
  if n < 2 ^ (bits - 1) then (n : Int) else (n : Int) - 2 ^ bits

/-- The bit pattern of a signed value in an object of `bits` bits. -/
def to_unsigned (bits : Nat) (v : Int) : Nat :=
  (v % 2 ^ bits).toNat

/-- The library function `ntohl` (and `htonl`) on the little-endian host: the
32-bit value with its four bytes reversed. -/
def ntohl (u : Nat) : Nat :=
  le_value (swap_bytes (le_bytes 4 u))

/-- Conversion of an `int` expression to `int`: wrap-around to 32 bits. -/
def wrap_int32 (v : Int) : Int :=
  to_signed 32 (to_unsigned 32 v)

/-- Conversion of an `int64_t` expression to `int64_t`: wrap-around to 64 bits. -/
def wrap_int64 (v : Int) : Int :=
  to_signed 64 (to_unsigned 64 v)

/-- Conversion of an `int` to `size_t`. -/
def to_size_t (v : Int) : Nat :=
  to_unsigned 64 v

/-- The macro `ntohll` applied to an `int64_t`: the low word is
`(uint32_t)((x << 32) >> 32)`, the high word `(uint32_t)(x >> 32)`, and the
result is the `uint64_t`
`((uint64_t)ntohl(low) << 32) | ntohl(high)`. -/
def ntohll (x : Int) : Nat :=
  let low : Nat := to_unsigned 32 (wrap_int64 (x * 2 ^ 32) / 2 ^ 32)
  let high : Nat := to_unsigned 32 (x / 2 ^ 32)
  ((ntohl low <<< 32) % 2 ^ 64) ||| ntohl high

/-- Whether `malloc` answers `NULL` for a request of `n` bytes: exactly when the
request exceeds `PTRDIFF_MAX`. -/
def malloc_fails (n : Nat) : Bool :=
  decide (2 ^ 63 ≤ n)

/-- The bytes of an ASCII string literal of the source. -/
def c_string (s : String) : List Nat :=
  s.data.map Char.toNat

/-- The length of a C string: the bytes before the first NUL. -/
def strlen (s : List Nat) : Nat :=
  (s.takeWhile (fun b => b != 0)).length

/-! ## The decoder -/

/-- The function `memscan`: copy `n` bytes to the destination and return the
advanced source. -/
def memscan (n : Nat) (src : List Nat) : List Nat × List Nat :=
  (src.take n, src.drop n)

/-- The function `swapped_memscan`: `memscan`, then `be2ne` on the
destination. -/
def swapped_memscan (n : Nat) (src : List Nat) : List Nat × List Nat :=
  (be2ne (memscan n src).1, (memscan n src).2)

/-- The macro `READ_GENERIC`: when fewer than `n` bytes remain take the
`on_failure` branch (`none`), otherwise scan `n` bytes into the destination
and advance. -/
def READ_GENERIC (n : Nat) (scanner : Nat → List Nat → List Nat × List Nat)
    (mem : List Nat) : Option (List Nat × List Nat) :=
  if mem.length < n then none else some (scanner n mem)

/-- The function `read_string`: the buffer returned holds the bytes read, and
the terminating NUL the source adds is left implicit. -/
def read_string (mem : List Nat) : Except Failure (List Nat × List Nat) :=
  match READ_GENERIC 2 swapped_memscan mem with
  | none => .error (.errno NBT_ERR)
  | some (dest, mem1) =>
    let string_length : Int := to_signed 16 (le_value dest)
    if string_length < 0 then .error (.errno NBT_ERR)
    else if mem1.length < to_size_t string_length then .error (.errno NBT_ERR)
    else if malloc_fails (to_size_t (string_length + 1)) then .error (.errno NBT_EMEM)
    else
      match READ_GENERIC (to_size_t string_length) memscan mem1 with
      | none => .error (.errno NBT_ERR)
      | some (ret, mem2) => .ok (ret, mem2)

/-- The function `read_byte_array`: the bytes and the length field. -/
def read_byte_array (mem : List Nat) : Except Failure ((List Nat × Int) × List Nat) :=
  match READ_GENERIC 4 swapped_memscan mem with
  | none => .error (.errno NBT_ERR)
  | some (dest, mem1) =>
    let length : Int := to_signed 32 (le_value dest)
    if length < 0 then .error (.errno NBT_ERR)
    else if malloc_fails (to_size_t length) then .error (.errno NBT_EMEM)
    else
      match READ_GENERIC (to_size_t length) memscan mem1 with
      | none => .error (.errno NBT_ERR)
      | some (data, mem2) => .ok ((data, length), mem2)

/-- Cut a byte sequence into `n` consecutive objects of `k` bytes. -/
def chunks (k : Nat) : Nat → List Nat → List (List Nat)
  | 0, _ => []
  | n + 1, bs => bs.take k :: chunks k n (bs.drop k)

/-- The function `read_int_array`. The allocation size `4*ret.length` is
computed in `int`, the number of bytes copied in `size_t`; copying more than
was allocated is undefined behaviour. Each element is then passed through
`ntohl`. -/
def read_int_array (mem : List Nat) : Except Failure ((List Int × Int) × List Nat) :=
  match READ_GENERIC 4 swapped_memscan mem with
  | none => .error (.errno NBT_ERR)
  | some (dest, mem1) =>
    let length : Int := to_signed 32 (le_value dest)
    if length < 0 then .error (.errno NBT_ERR)
    else if malloc_fails (to_size_t (wrap_int32 (4 * length))) then
      .error (.errno NBT_EMEM)
    else
      match READ_GENERIC (4 * to_size_t length) memscan mem1 with
      | none => .error (.errno NBT_ERR)
      | some (raw, mem2) =>
        if to_size_t (wrap_int32 (4 * length)) < 4 * to_size_t length then
          .error .undefined
        else
          .ok (((chunks 4 length.toNat raw).map
                  (fun c => to_signed 32 (ntohl (le_value c))), length), mem2)

/-- The function `read_long_array`, like `read_int_array` with 8-byte elements
passed through `ntohll`. -/
def read_long_array (mem : List Nat) : Except Failure ((List Int × Int) × List Nat) :=
  match READ_GENERIC 4 swapped_memscan mem with
  | none => .error (.errno NBT_ERR)
  | some (dest, mem1) =>
    let length : Int := to_signed 32 (le_value dest)
    if length < 0 then .error (.errno NBT_ERR)
    else if malloc_fails (to_size_t (wrap_int32 (8 * length))) then
      .error (.errno NBT_EMEM)
    else
      match READ_GENERIC (8 * to_size_t length) memscan mem1 with
      | none => .error (.errno NBT_ERR)
      | some (raw, mem2) =>
        if to_size_t (wrap_int32 (8 * length)) < 8 * to_size_t length then
          .error .undefined
        else
          .ok (((chunks 8 length.toNat raw).map
                  (fun c => to_signed 64 (ntohll (to_signed 64 (le_value c)))), length), mem2)

/-- The loop of `list_is_homogenous` over the entries, `type` being the type
found so far; `none` is the early `return TAG_INVALID`. -/
def list_is_homogenous_loop (type : nbt_type) : List nbt_node → Option nbt_type
  | [] => some type
  | cur :: rest =>
    if cur.type = TAG_INVALID then none
    else
      let type1 := if type = TAG_INVALID then cur.type else type
      if type1 ≠ cur.type then none else list_is_homogenous_loop type1 rest

/-- The function `list_is_homogenous`: the common type of the children, the
declared type for an empty list, `TAG_INVALID` when two children differ. -/
def list_is_homogenous (type : nbt_type) (list : List nbt_node) : nbt_type :=
  match list_is_homogenous_loop TAG_INVALID list with
  | none => TAG_INVALID
  | some ty => if ty = TAG_INVALID then type else ty

/-- The `for` loop of `read_list`: `elems` calls of the element parser, each
result added at the tail. -/
def read_list_elems (p : List Nat → Except Failure (nbt_node × List Nat)) :
    Nat → List Nat → Except Failure (List nbt_node × List Nat)
  | 0, mem => .ok ([], mem)
  | n + 1, mem =>
    match p mem with
    | .error e => .error e
    | .ok (nd, mem1) =>
      match read_list_elems p n mem1 with
      | .error e => .error e
      | .ok (rest, mem2) => .ok (nd :: rest, mem2)

/-- The function `read_list`, over the parser `p` of one unnamed element of
the given type. It returns the list type and the children. When one of the
two header reads fails, `parse_error` hands the still uninitialised `ret.list`
to `nbt_free_list`: undefined behaviour. A count that is not positive runs
the loop zero times. -/
def read_list (p : nbt_type → List Nat → Except Failure (nbt_node × List Nat))
    (mem : List Nat) : Except Failure ((nbt_type × List nbt_node) × List Nat) :=
  match READ_GENERIC 1 swapped_memscan mem with
  | none => .error .undefined
  | some (dest1, mem1) =>
    match READ_GENERIC 4 swapped_memscan mem1 with
    | none => .error .undefined
    | some (dest2, mem2) =>
      let type : nbt_type := le_value dest1
      let elems : Int := to_signed 32 (le_value dest2)
      match read_list_elems (p type) elems.toNat mem2 with
      | .error e => .error e
      | .ok (list, mem3) =>
        let ret_type :=
          if type = TAG_INVALID ∧ elems ≠ 0 then list_is_homogenous type list else type
        .ok ((ret_type, list), mem3)

/-- The `for(;;)` loop of `read_compound`; `k` bounds the number of
iterations. -/
def read_compound_loop
    (p : nbt_type → Option (List Nat) → List Nat → Except Failure (nbt_node × List Nat)) :
    Nat → List Nat → Except Failure (List nbt_node × List Nat)
  | 0, _ => .error .out_of_fuel
  | k + 1, mem =>
    match READ_GENERIC 1 swapped_memscan mem with
    | none => .error (.errno NBT_ERR)
    | some (dest, mem1) =>
      let type : nbt_type := le_value dest
      if type = 0 then .ok ([], mem1)
      else
        match read_string mem1 with
        | .error e => .error e
        | .ok (name, mem2) =>
          match p type (some name) mem2 with
          | .error e => .error e
          | .ok (nd, mem3) =>
            match read_compound_loop p k mem3 with
            | .error e => .error e
            | .ok (rest, mem4) => .ok (nd :: rest, mem4)

/-- The function `read_compound`. Every iteration consumes a byte, so one more
iteration than there are bytes is never reached. -/
def read_compound
    (p : nbt_type → Option (List Nat) → List Nat → Except Failure (nbt_node × List Nat))
    (mem : List Nat) : Except Failure (List nbt_node × List Nat) :=
  read_compound_loop p (mem.length + 1) mem

/-- The macro `COPY_INTO_PAYLOAD` for a payload member of `n` bytes: the bit
pattern read. -/
def COPY_INTO_PAYLOAD (n : Nat) (mem : List Nat) : Except Failure (Nat × List Nat) :=
  match READ_GENERIC n swapped_memscan mem with
  | none => .error (.errno NBT_ERR)
  | some (dest, mem1) => .ok (le_value dest, mem1)

/-- The function `parse_unnamed_tag`; the first argument bounds the nesting
depth. -/
def parse_unnamed_tag :
    Nat → nbt_type → Option (List Nat) → List Nat → Except Failure (nbt_node × List Nat)
  | 0, _, _, _ => .error .out_of_fuel
  | fuel + 1, type, name, mem =>
    match type with
    | 1 => (COPY_INTO_PAYLOAD 1 mem).map
        (fun r => (nbt_node.tag_byte name (to_signed 8 r.1), r.2))
    | 2 => (COPY_INTO_PAYLOAD 2 mem).map
        (fun r => (nbt_node.tag_short name (to_signed 16 r.1), r.2))
    | 3 => (COPY_INTO_PAYLOAD 4 mem).map
        (fun r => (nbt_node.tag_int name (to_signed 32 r.1), r.2))
    | 4 => (COPY_INTO_PAYLOAD 8 mem).map
        (fun r => (nbt_node.tag_long name (to_signed 64 r.1), r.2))
    | 5 => (COPY_INTO_PAYLOAD 4 mem).map
        (fun r => (nbt_node.tag_float name r.1, r.2))
    | 6 => (COPY_INTO_PAYLOAD 8 mem).map
        (fun r => (nbt_node.tag_double name r.1, r.2))
    | 7 => (read_byte_array mem).map
        (fun r => (nbt_node.tag_byte_array name r.1.1 r.1.2, r.2))
    | 8 => (read_string mem).map
        (fun r => (nbt_node.tag_string name r.1, r.2))
    | 9 => (read_list (fun ty => parse_unnamed_tag fuel ty none) mem).map
        (fun r =>
          let list_type :=
            if r.1.1 = TAG_INVALID ∧ r.1.2.length = 0 then
              (if name = some (c_string "TileEntities") ∨ name = some (c_string "Entities")
               then TAG_COMPOUND else TAG_COMPOUND)
            else r.1.1
          (nbt_node.tag_list name list_type r.1.2, r.2))
    | 10 => (read_compound (parse_unnamed_tag fuel) mem).map
        (fun r => (nbt_node.tag_compound name r.1, r.2))
    | 11 => (read_int_array mem).map
        (fun r => (nbt_node.tag_int_array name r.1.1 r.1.2, r.2))
    | 12 => (read_long_array mem).map
        (fun r => (nbt_node.tag_long_array name r.1.1 r.1.2, r.2))
    | _ => .error (.errno NBT_ERR)

/-- The function `nbt_parse`. No node is nested deeper than the buffer is
long. Bytes after the document are ignored. -/
def nbt_parse (mem : List Nat) : Except Failure nbt_node :=
  match READ_GENERIC 1 memscan mem with
  | none => .error (.errno NBT_ERR)
  | some (dest, mem1) =>
    match read_string mem1 with
    | .error e => .error e
    | .ok (name, mem2) =>
      (parse_unnamed_tag (mem.length + 1) (le_value dest) (some name) mem2).map (fun r => r.1)

/-! ## The encoder -/

/-- The macro `DUMP_NUM` for a number of `n` bytes with bit pattern `x`: the
bytes appended. -/
def DUMP_NUM (n : Nat) (x : Nat) : List Nat :=
  be2ne (le_bytes n x)

/-- The function `dump_string_binary`: the bytes appended to the buffer. -/
def dump_string_binary (name : List Nat) : Except Failure (List Nat) :=
  let len := strlen name
  if len > 32767 then .error (.errno NBT_ERR)
  else .ok (be2ne (le_bytes 2 (to_unsigned 16 len)) ++ name.take len)

/-- The library call `buffer_append(b, ptr, len)` under `CHECKED_APPEND`: the
`len` bytes at `ptr` are appended. A request no allocation can satisfy is
`NBT_EMEM`; reading more bytes than the object at `ptr` holds is undefined
behaviour. -/
def CHECKED_APPEND (ptr : List Nat) (len : Nat) : Except Failure (List Nat) :=
  if malloc_fails len then .error (.errno NBT_EMEM)
  else if ptr.length < len then .error .undefined
  else .ok (ptr.take len)

/-- The function `dump_byte_array_binary`. -/
def dump_byte_array_binary (data : List Nat) (length : Int) : Except Failure (List Nat) :=
  match CHECKED_APPEND data (to_size_t length) with
  | .error e => .error e
  | .ok bytes => .ok (be2ne (le_bytes 4 (to_unsigned 32 length)) ++ bytes)

/-- The function `dump_int_array_binary`. The temporary `be_data` has
`4*ia.length` bytes, computed in `int`; the loop fills `ia.length` elements with
`htonl` of the data, and `4*ia.length` bytes of it are appended. Writing past
the allocation, or reading data or temporary bytes that were never written, is
undefined behaviour. -/
def dump_int_array_binary (data : List Int) (length : Int) : Except Failure (List Nat) :=
  let size := to_size_t (wrap_int32 (4 * length))
  if malloc_fails size then .error (.errno NBT_EMEM)
  else if size ≠ 4 * length.toNat then .error .undefined
  else if data.length < length.toNat then .error .undefined
  else
    let be_data := ((data.take length.toNat).map
      (fun v => le_bytes 4 (ntohl (to_unsigned 32 v)))).flatten
    match CHECKED_APPEND be_data size with
    | .error e => .error e
    | .ok bytes => .ok (be2ne (le_bytes 4 (to_unsigned 32 length)) ++ bytes)

/-- The function `dump_long_array_binary`, like `dump_int_array_binary` with
8-byte elements passed through `ntohll`. -/
def dump_long_array_binary (data : List Int) (length : Int) : Except Failure (List Nat) :=
  let size := to_size_t (wrap_int32 (8 * length))
  if malloc_fails size then .error (.errno NBT_EMEM)
  else if size ≠ 8 * length.toNat then .error .undefined
  else if data.length < length.toNat then .error .undefined
  else
    let be_data := ((data.take length.toNat).map
      (fun v => le_bytes 8 (ntohll v))).flatten
    match CHECKED_APPEND be_data size with
    | .error e => .error e
    | .ok bytes => .ok (be2ne (le_bytes 4 (to_unsigned 32 length)) ++ bytes)

/-- The function `dump_list_binary`, given the result `body` of its loop over
the entries (`__dump_binary(entry->data, false, b)` for each). -/
def dump_list_binary (type : nbt_type) (list : List nbt_node)
    (body : Except Failure (List Nat)) : Except Failure (List Nat) :=
  let ty := list_is_homogenous type list
  let len := list.length
  if len > 2147483647 then .error (.errno NBT_ERR)
  else if ty = TAG_INVALID then .error (.errno NBT_ERR)
  else
    match body with
    | .error e => .error e
    | .ok bytes =>
      .ok (be2ne (le_bytes 1 (to_unsigned 8 ty)) ++ be2ne (le_bytes 4 (to_unsigned 32 len))
            ++ bytes)

/-- The function `dump_compound_binary`, given the result `body` of its loop
over the entries (`__dump_binary(entry->data, true, b)` for each); the
terminator `TAG_End` follows. -/
def dump_compound_binary (body : Except Failure (List Nat)) : Except Failure (List Nat) :=
  match body with
  | .error e => .error e
  | .ok bytes => .ok (bytes ++ [0])

/-- The type byte and the name that `__dump_binary` writes before the
payload. -/
def dump_header (tree : nbt_node) (dump_type : Bool) : Except Failure (List Nat) :=
  let type_byte := if dump_type then le_bytes 1 (to_unsigned 8 tree.type) else []
  match tree.name with
  | none => .ok type_byte
  | some name =>
    match dump_string_binary name with
    | .error e => .error e
    | .ok bytes => .ok (type_byte ++ bytes)

mutual

/-- The payload part of `__dump_binary`: the chain of tests on `tree->type`. -/
def dump_payload : nbt_node → Except Failure (List Nat)
  | .tag_byte _ v => .ok (DUMP_NUM 1 (to_unsigned 8 v))
  | .tag_short _ v => .ok (DUMP_NUM 2 (to_unsigned 16 v))
  | .tag_int _ v => .ok (DUMP_NUM 4 (to_unsigned 32 v))
  | .tag_long _ v => .ok (DUMP_NUM 8 (to_unsigned 64 v))
  | .tag_float _ bits => .ok (DUMP_NUM 4 bits)
  | .tag_double _ bits => .ok (DUMP_NUM 8 bits)
  | .tag_byte_array _ data length => dump_byte_array_binary data length
  | .tag_string _ s => dump_string_binary s
  | .tag_list _ type list => dump_list_binary type list (dump_entries list false)
  | .tag_compound _ list => dump_compound_binary (dump_entries list true)
  | .tag_int_array _ data length => dump_int_array_binary data length
  | .tag_long_array _ data length => dump_long_array_binary data length

/-- The loop shared by `dump_list_binary` and `dump_compound_binary`: dump each
entry in order, stopping at the first error. -/
def dump_entries : List nbt_node → Bool → Except Failure (List Nat)
  | [], _ => .ok []
  | entry :: rest, dump_type =>
    match dump_header entry dump_type with
    | .error e => .error e
    | .ok h =>
      match dump_payload entry with
      | .error e => .error e
      | .ok p =>
        match dump_entries rest dump_type with
        | .error e => .error e
        | .ok bytes => .ok (h ++ p ++ bytes)

end

/-- The function `__dump_binary`: the bytes appended to the buffer. -/
def __dump_binary (tree : nbt_node) (dump_type : Bool) : Except Failure (List Nat) :=
  match dump_header tree dump_type with
  | .error e => .error e
  | .ok h =>
    match dump_payload tree with
    | .error e => .error e
    | .ok p => .ok (h ++ p)

/-- The function `nbt_dump_binary`: the buffer returned, when `errno` is left
at `NBT_OK`. -/
def nbt_dump_binary (tree : Option nbt_node) : Except Failure (List Nat) :=
  match tree with
  | none => .ok []
  | some t => __dump_binary t true

/-- A call that fails the way the sources report failure: no value, and `errno`
left at `NBT_ERR` or `NBT_EMEM`. -/
def reports_error {α : Type} : Except Failure α → Bool
  | .error (.errno NBT_ERR) => true
  | .error (.errno NBT_EMEM) => true
  | _ => false

/-! ## The data model of well-formed trees -/

/-- A C string that fits the wire: no byte is NUL (it would end the string),
every byte is a byte, and there are at most 32767 of them. -/
def string_ok (s : List Nat) : Bool :=
  s.all (fun b => decide (0 < b ∧ b < 256)) && decide (s.length ≤ 32767)

/-- The rule on names: the root and compound members carry a name, list
elements carry none. -/
def name_ok (named : Bool) (name : Option (List Nat)) : Bool :=
  match named, name with
  | true, some n => string_ok n
  | false, none => true
  | _, _ => false

mutual

/-- A tree that follows the data model: names present exactly where the wire
has them, every value inside the range of its C type, strings within the wire
limit, arrays with a non-negative length field that counts their elements,
and lists whose declared kind is one of the twelve kinds and is the kind of
every child. -/
def follows_data_model (named : Bool) : nbt_node → Bool
  | .tag_byte n v => name_ok named n && decide (-128 ≤ v ∧ v < 128)
  | .tag_short n v => name_ok named n && decide (-32768 ≤ v ∧ v < 32768)
  | .tag_int n v => name_ok named n && decide (-2147483648 ≤ v ∧ v < 2147483648)
  | .tag_long n v =>
    name_ok named n && decide (-9223372036854775808 ≤ v ∧ v < 9223372036854775808)
  | .tag_float n bits => name_ok named n && decide (bits < 4294967296)
  | .tag_double n bits => name_ok named n && decide (bits < 18446744073709551616)
  | .tag_byte_array n data length =>
    name_ok named n && decide (0 ≤ length ∧ length < 2147483648)
      && decide ((data.length : Int) = length) && data.all (fun b => decide (b < 256))
  | .tag_string n s => name_ok named n && string_ok s
  | .tag_list n type list =>
    name_ok named n && decide (1 ≤ type ∧ type ≤ 12) && entries_follow false (some type) list
  | .tag_compound n list => name_ok named n && entries_follow true none list
  | .tag_int_array n data length =>
    name_ok named n && decide (0 ≤ length ∧ length < 2147483648)
      && decide ((data.length : Int) = length)
      && data.all (fun v => decide (-2147483648 ≤ v ∧ v < 2147483648))
  | .tag_long_array n data length =>
    name_ok named n && decide (0 ≤ length ∧ length < 2147483648)
      && decide ((data.length : Int) = length)
      && data.all (fun v => decide (-9223372036854775808 ≤ v ∧ v < 9223372036854775808))

/-- Every entry follows the data model and, for the children of a list, has
the declared kind. -/
def entries_follow (named : Bool) (kind : Option nbt_type) : List nbt_node → Bool
  | [] => true
  | entry :: rest =>
    (match kind with
      | none => true
      | some k => decide (entry.type = k))
      && follows_data_model named entry && entries_follow named kind rest

end

mutual

/-- The size limits of the encoder: a list has at most `INT_MAX` children, and
the byte size of an array of `int` or `int64_t` fits an `int`. -/
def within_limits : nbt_node → Bool
  | .tag_list _ _ list => decide (list.length ≤ 2147483647) && entries_within_limits list
  | .tag_compound _ list => entries_within_limits list
  | .tag_int_array _ _ length => decide (length < 536870912)
  | .tag_long_array _ _ length => decide (length < 268435456)
  | _ => true

/-- Every entry is within the size limits. -/
def entries_within_limits : List nbt_node → Bool
  | [] => true
  | entry :: rest => within_limits entry && entries_within_limits rest

end

/-! ## The ASCII dumper

The text of a conversion is what `vsnprintf` produces for it. Two conversions
get an argument of another type than they name, and are taken as the platform
passes them: `%u` for a byte promoted to `int`, which is not negative, and `%d`
for an `int64_t`, of which the low 32 bits are read as an `int`. The text of
`%f` is a parameter. -/

/-- The decimal digits of `n`, most significant first, as characters; `fuel`
bounds their number. -/
def decimal_digits : Nat → Nat → List Nat
  | 0, _ => []
  | fuel + 1, n => if n < 10 then [48 + n] else decimal_digits fuel (n / 10) ++ [48 + n % 10]

/-- The text of the conversion `%u`. -/
def printf_u (n : Nat) : List Nat :=
  decimal_digits (n + 1) n

/-- The text of the conversions `%d`, `%i` and `PRIi64`: signed decimal. -/
def printf_d (v : Int) : List Nat :=
  if v < 0 then 45 :: printf_u (-v).toNat else printf_u v.toNat

/-- The function `bprintf`, for the text that `vsnprintf` produces from the
format and the arguments: the bytes appended to the buffer. The length of the
text, with the terminator counted in, is held in the `int` named `siz`; a text
too long for it leaves `buffer_append` with a length that is not that of the
text, which is undefined behaviour. -/
def bprintf (text : List Nat) : Except Failure (List Nat) :=
  if text.length ≥ 2147483647 then .error .undefined else .ok text

/-- One statement after another, each appending to the buffer. -/
def then_append (first second : Except Failure (List Nat)) : Except Failure (List Nat) :=
  match first with
  | .error e => .error e
  | .ok a =>
    match second with
    | .error e => .error e
    | .ok b => .ok (a ++ b)

/-- The function `indent`: four spaces per level. -/
def indent (amount : Nat) : Except Failure (List Nat) :=
  bprintf (List.replicate (amount * 4) 32)

/-- The macro `SAFE_NAME` under the conversion `%s`: the name up to its
terminator, or the text `<null>` for a node without a name. -/
def SAFE_NAME (name : Option (List Nat)) : List Nat :=
  match name with
  | some n => n.take (strlen n)
  | none => c_string "<null>"

/-- The loop of `dump_byte_array`, `dump_int_array` and `dump_long_array`: one
`bprintf` for each element text. -/
def dump_array_elements : List (List Nat) → Except Failure (List Nat)
  | [] => .ok []
  | t :: rest => then_append (bprintf (t ++ c_string " ")) (dump_array_elements rest)

/-- The function `dump_byte_array`. Reading an element that the data does not
hold is undefined behaviour. -/
def dump_byte_array (data : List Nat) (length : Int) : Except Failure (List Nat) :=
  if data.length < length.toNat then .error .undefined
  else
    then_append (bprintf (c_string "[ "))
      (then_append (dump_array_elements ((data.take length.toNat).map printf_u))
        (bprintf (c_string "]")))

/-- The function `dump_int_array`. -/
def dump_int_array (data : List Int) (length : Int) : Except Failure (List Nat) :=
  if data.length < length.toNat then .error .undefined
  else
    then_append (bprintf (c_string "[ "))
      (then_append (dump_array_elements ((data.take length.toNat).map printf_d))
        (bprintf (c_string "]")))

/-- The function `dump_long_array`: its conversion is `%d`, and its argument
an `int64_t`. -/
def dump_long_array (data : List Int) (length : Int) : Except Failure (List Nat) :=
  if data.length < length.toNat then .error .undefined
  else
    then_append (bprintf (c_string "[ "))
      (then_append
        (dump_array_elements ((data.take length.toNat).map (fun v => printf_d (wrap_int32 v))))
        (bprintf (c_string "]")))

/-- The line of a node that is written by one call of `bprintf`: the kind, the
name between quotes, and the text of the value. -/
def scalar_line (kind : String) (name : Option (List Nat)) (value : List Nat) : List Nat :=
  c_string kind ++ c_string "(\"" ++ SAFE_NAME name ++ c_string "\"): " ++ value ++ [10]

/-- The opening of a node that is written by several calls: the kind, the name
between quotes, and what the format puts after them. -/
def opening (kind : String) (name : Option (List Nat)) (tail : List Nat) : List Nat :=
  c_string kind ++ c_string "(\"" ++ SAFE_NAME name ++ c_string "\")" ++ tail

mutual

/-- The function `__nbt_dump_ascii`, over the texts of `%f` for a `float` and
for a `double` given by their bit patterns: the bytes appended. A string
payload is never `NULL` in a tree of the embedding, and a type is always one of
the twelve, so the two `return NBT_ERR` are not reached. -/
def __nbt_dump_ascii (float_text double_text : Nat → List Nat) :
    nbt_node → Nat → Except Failure (List Nat)
  | .tag_byte n v, ident =>
    then_append (indent ident) (bprintf (scalar_line "TAG_Byte" n (printf_d v)))
  | .tag_short n v, ident =>
    then_append (indent ident) (bprintf (scalar_line "TAG_Short" n (printf_d v)))
  | .tag_int n v, ident =>
    then_append (indent ident) (bprintf (scalar_line "TAG_Int" n (printf_d v)))
  | .tag_long n v, ident =>
    then_append (indent ident) (bprintf (scalar_line "TAG_Long" n (printf_d v)))
  | .tag_float n bits, ident =>
    then_append (indent ident) (bprintf (scalar_line "TAG_Float" n (float_text bits)))
  | .tag_double n bits, ident =>
    then_append (indent ident) (bprintf (scalar_line "TAG_Double" n (double_text bits)))
  | .tag_byte_array n data length, ident =>
    then_append (indent ident)
      (then_append (bprintf (opening "TAG_Byte_Array" n (c_string ": ")))
        (then_append (dump_byte_array data length) (bprintf [10])))
  | .tag_string n s, ident =>
    then_append (indent ident) (bprintf (scalar_line "TAG_String" n (s.take (strlen s))))
  | .tag_list n _ list, ident =>
    then_append (indent ident)
      (then_append (bprintf (opening "TAG_List" n [10]))
        (then_append (indent ident)
          (then_append (bprintf (c_string "\x7b" ++ [10]))
            (then_append (dump_list_contents_ascii float_text double_text list (ident + 1))
              (then_append (indent ident) (bprintf (c_string "\x7d" ++ [10])))))))
  | .tag_compound n list, ident =>
    then_append (indent ident)
      (then_append (bprintf (opening "TAG_Compound" n [10]))
        (then_append (indent ident)
          (then_append (bprintf (c_string "\x7b" ++ [10]))
            (then_append (dump_list_contents_ascii float_text double_text list (ident + 1))
              (then_append (indent ident) (bprintf (c_string "\x7d" ++ [10])))))))
  | .tag_int_array n data length, ident =>
    then_append (indent ident)
      (then_append (bprintf (opening "TAG_Int_Array" n (c_string ": ")))
        (then_append (dump_int_array data length) (bprintf [10])))
  | .tag_long_array n data length, ident =>
    then_append (indent ident)
      (then_append (bprintf (opening "TAG_Long_Array" n (c_string ": ")))
        (then_append (dump_long_array data length) (bprintf [10])))

/-- The function `dump_list_contents_ascii`. -/
def dump_list_contents_ascii (float_text double_text : Nat → List Nat) :
    List nbt_node → Nat → Except Failure (List Nat)
  | [], _ => .ok []
  | entry :: rest, ident =>
    then_append (__nbt_dump_ascii float_text double_text entry ident)
      (dump_list_contents_ascii float_text double_text rest ident)

end

/-- The function `nbt_dump_ascii`: the string returned, without its
terminator. For no tree it is the empty string in an allocation of one byte. -/
def nbt_dump_ascii (float_text double_text : Nat → List Nat) (tree : Option nbt_node) :
    Except Failure (List Nat) :=
  match tree with
  | none => if malloc_fails 1 then .error (.errno NBT_EMEM) else .ok []
  | some t =>
    match __nbt_dump_ascii float_text double_text t 0 with
    | .error (.errno _) => .error (.errno NBT_EMEM)
    | .error e => .error e
    | .ok text =>
      if malloc_fails (text.length + 1) then .error (.errno NBT_EMEM) else .ok text

/-! ## The region container (`mcr.c`)

The file behind a descriptor is a list of bytes with a position. The system
calls are those of Linux: `lseek` refuses a negative offset and leaves the
position where it was, `read` hands out the bytes between the position and the
end of the file, `write` stores the bytes at the position, neither transfers
more than `MAX_RW_COUNT` bytes in one call, and both fail on a descriptor
opened without the matching access. -/

/-- The values the sources assign to `errno`: a status of the NBT codec, or one
of the codes of `errno.h`. -/
inductive errno_value where
  | nbt (s : nbt_status)
  | EINVAL
  | EPERM
  | EFBIG
  deriving DecidableEq, Repr

abbrev O_RDONLY : Nat := 0
abbrev O_WRONLY : Nat := 1
abbrev O_RDWR : Nat := 2
abbrev O_CREAT : Nat := 64
abbrev O_EXCL : Nat := 128
abbrev O_TRUNC : Nat := 512
abbrev O_APPEND : Nat := 1024

/-- The macro `MCR_HEADER_SIZE`. -/
abbrev MCR_HEADER_SIZE : Nat := 8192

/-- The struct `MCRChunk`: two `uint32_t` fields and the pointer `data`, which is
`NULL` or points to the bytes stored so far in its allocation. -/
structure MCRChunk where
  timestamp : Nat
  len : Nat
  data : Option (List Nat)
  deriving DecidableEq, Repr

/-- The open file behind the descriptor `fd`: its bytes, the position, and the
access mode it was opened with. -/
structure file_desc where
  bytes : List Nat
  pos : Nat
  access : Nat
  deriving DecidableEq, Repr

/-- The struct `MCR`. -/
structure MCR where
  fd : file_desc
  readonly : Bool
  last_timestamp : Nat
  chunk : Nat → Nat → MCRChunk

/-- The array `chunk` as `calloc` leaves it. -/
def calloc_chunk : Nat → Nat → MCRChunk :=
  fun _ _ => { timestamp := 0, len := 0, data := none }

/-- Assignment to `chunk[x][z]`. -/
def set_chunk (chunk : Nat → Nat → MCRChunk) (x z : Nat) (c : MCRChunk) :
    Nat → Nat → MCRChunk :=
  fun x1 z1 => if x1 = x ∧ z1 = z then c else chunk x1 z1

/-- Assignment to one entry of an array of `uint32_t`. -/
def set_entry (table : Nat → Nat) (i v : Nat) : Nat → Nat :=
  fun j => if j = i then v else table j

/-- The system call `open(path, mode, 0666)`, the file at `path` being `file`
(`none` when there is none): the descriptor, or `none` for -1. -/
def sys_open (file : Option (List Nat)) (mode : Nat) : Option file_desc :=
  match file with
  | none =>
    if mode &&& O_CREAT ≠ 0 then some { bytes := [], pos := 0, access := mode % 4 } else none
  | some bytes =>
    if mode &&& O_CREAT ≠ 0 ∧ mode &&& O_EXCL ≠ 0 then none
    else if mode &&& O_TRUNC ≠ 0 ∧ mode % 4 ≠ O_RDONLY then
      some { bytes := [], pos := 0, access := mode % 4 }
    else some { bytes := bytes, pos := 0, access := mode % 4 }

/-- The system call `lseek(fd, offset, SEEK_SET)`, whose result the sources do
not look at. -/
def sys_lseek (fd : file_desc) (offset : Int) : file_desc :=
  if offset < 0 then fd else { fd with pos := offset.toNat }

/-- The most bytes that one call of `read` or `write` transfers on Linux,
`0x7ffff000`: a longer request is cut to this many bytes. -/
abbrev MAX_RW_COUNT : Nat := 2147479552

/-- The system call `read(fd, buf, n)`: the bytes stored in the buffer, their
number being the result, or `none` for -1. No more than `MAX_RW_COUNT` bytes
are read. -/
def sys_read (fd : file_desc) (n : Nat) : file_desc × Option (List Nat) :=
  if fd.access = O_WRONLY then (fd, none)
  else
    ({ fd with pos := fd.pos + ((fd.bytes.drop fd.pos).take (min n MAX_RW_COUNT)).length },
      some ((fd.bytes.drop fd.pos).take (min n MAX_RW_COUNT)))

/-- The system call `write(fd, buf, n)` for the `n` bytes `buf`: the file
afterwards and the result, the number of bytes written, or `none` for -1. No
more than `MAX_RW_COUNT` bytes are written. A position past the end leaves a
hole of zero bytes. -/
def sys_write (fd : file_desc) (buf : List Nat) : Option (file_desc × Nat) :=
  if fd.access = O_RDONLY then none
  else
    some ({ fd with
      bytes := fd.bytes.take fd.pos ++ List.replicate (fd.pos - fd.bytes.length) 0
        ++ buf.take (min buf.length MAX_RW_COUNT)
        ++ fd.bytes.drop (fd.pos + min buf.length MAX_RW_COUNT)
      pos := fd.pos + min buf.length MAX_RW_COUNT }, min buf.length MAX_RW_COUNT)

/-- The local `offset` of `_mcr_read_chunk`: `(b[0] << 16) | (b[1] << 8) | b[2]`,
for the bytes at `b`. -/
def chunk_offset (b : List Nat) : Nat :=
  (b.getD 0 0 <<< 16) ||| (b.getD 1 0 <<< 8) ||| b.getD 2 0

/-- The local `nsect` of `_mcr_read_chunk`: `b[3]`. -/
def chunk_nsect (b : List Nat) : Nat :=
  b.getD 3 0

/-- The two reads of `_mcr_read_chunk`, the length and the data, on the file as
`lseek` left it: the file afterwards, the fields `len` and `data` of the slot,
and the result. A short read of the length leaves the bytes that were read in
`len`; the data may be one byte short of `len`. -/
def read_chunk_data (fd1 : file_desc) : file_desc × (Nat × Option (List Nat)) × Int :=
  match sys_read fd1 4 with
  | (fd2, none) => (fd2, (0, none), -1)
  | (fd2, some lb) =>
    if lb.length ≠ 4 then (fd2, (le_value lb, none), -1)
    else
      let len := (ntohl (le_value lb) + 1) % 2 ^ 32
      match sys_read fd2 len with
      | (fd3, none) => (fd3, (len, none), -1)
      | (fd3, some data) =>
        if data.length < (len + 2 ^ 32 - 1) % 2 ^ 32 then (fd3, (len, none), -1)
        else (fd3, (len, some data), 0)

/-- The function `_mcr_read_chunk`: the container afterwards and the result.
The expression `*(uint32_t*)b+4096` is the location entry at `b`, read as a
`uint32_t` of the host, plus 4096. The product `offset*4096` is an `int`, taken
with wrap-around. -/
def _mcr_read_chunk (mcr : MCR) (x z : Nat) (header : List Nat) : MCR × Int :=
  let b := header.drop (4 * ((x % 32) + (z % 32) * 32))
  let offset : Nat := chunk_offset b
  let nsect : Nat := chunk_nsect b
  if offset = 0 ∧ nsect = 0 then
    ({ mcr with chunk := set_chunk mcr.chunk x z { timestamp := 0, len := 0, data := none } }, 0)
  else
    let timestamp := ntohl ((le_value (b.take 4) + 4096) % 2 ^ 32)
    let last_timestamp :=
      if mcr.last_timestamp < timestamp then timestamp else mcr.last_timestamp
    let r := read_chunk_data (sys_lseek mcr.fd (wrap_int32 (offset * 4096)))
    ({ fd := r.1, readonly := mcr.readonly, last_timestamp := last_timestamp,
       chunk := set_chunk mcr.chunk x z
         { timestamp := timestamp, len := r.2.1.1, data := r.2.1.2 } }, r.2.2)

/-- The order in which the loops of `mcr_open` and `mcr_close` visit the slots:
`x` outer, `z` inner. -/
def slot_order : List (Nat × Nat) :=
  (List.range 32).flatMap (fun x => (List.range 32).map (fun z => (x, z)))

/-- The loop of `mcr_open` over the slots; a failing `_mcr_read_chunk` is only
reported on `stderr`. -/
def mcr_open_chunks (header : List Nat) : List (Nat × Nat) → MCR → MCR
  | [], mcr => mcr
  | (x, z) :: rest, mcr => mcr_open_chunks header rest (_mcr_read_chunk mcr x z header).1

/-- The function `mcr_open`, the file at `path` being `file`: the container
returned (`none` for `NULL`) and the value it assigns to `errno`, if any. -/
def mcr_open (file : Option (List Nat)) (mode : Nat) : Option MCR × Option errno_value :=
  if mode &&& O_APPEND ≠ 0 then (none, some .EINVAL)
  else
    match sys_open file mode with
    | none => (none, none)
    | some fd =>
      let fd1 : file_desc := { fd with pos := fd.bytes.length }
      if fd.bytes.length = 0 ∧ mode &&& O_CREAT ≠ 0
          ∧ (mode &&& O_RDWR ≠ 0 ∨ mode &&& O_WRONLY ≠ 0) then
        (some { fd := fd1, readonly := false, last_timestamp := 1, chunk := calloc_chunk },
          none)
      else
        match sys_read (sys_lseek fd1 0) MCR_HEADER_SIZE with
        | (_, none) => (none, none)
        | (fd2, some header) =>
          if header.length ≠ MCR_HEADER_SIZE then (none, none)
          else
            (some (mcr_open_chunks header slot_order
              { fd := fd2, readonly := decide (mode = O_RDONLY), last_timestamp := 0,
                chunk := calloc_chunk }), none)

/-- The local state of the loop of `mcr_close`: the file and the two tables. -/
structure close_state where
  fd : file_desc
  chunkLoc : Nat → Nat
  chunkTime : Nat → Nat

/-- How the loop of `mcr_close` is left early: through `goto err`, with the
value given to `errno` if any and the file as it is then, or because a byte of
the allocation that was never stored would be written. -/
inductive close_abort where
  | err (errno : Option errno_value) (fd : file_desc)
  | undefined

/-- The expression `(chunk->len+4+4096) / 4096` of `mcr_close`, computed in
`uint32_t`. -/
def chunkLenBlocks (len : Nat) : Nat :=
  ((len + 4 + 4096) % 2 ^ 32) / 4096

/-- The expression `4096-((chunk->len+4)%4096)` of `mcr_close`. -/
def fill (len : Nat) : Nat :=
  4096 - ((len + 4) % 2 ^ 32) % 4096

/-- The loop of `mcr_close` over the slots. Each call of `write` is followed by
the comparison of its result with the number of bytes asked for, and `goto err`
when they differ. -/
def mcr_close_chunks (chunk : Nat → Nat → MCRChunk) :
    List (Nat × Nat) → close_state → Except close_abort close_state
  | [], st => .ok st
  | (x, z) :: rest, st =>
    match (chunk x z).data with
    | none => mcr_close_chunks chunk rest st
    | some data =>
      let chunkOffsetBlocks := st.fd.pos / 4096
      if chunkLenBlocks (chunk x z).len > 255 then .error (.err (some .EFBIG) st.fd)
      else
        match sys_write st.fd (le_bytes 4 (ntohl (chunk x z).len)) with
        | none => .error (.err none st.fd)
        | some (fd1, n1) =>
          if n1 ≠ 4 then .error (.err none fd1)
          else if data.length < (chunk x z).len then .error .undefined
          else
            match sys_write fd1 (data.take (chunk x z).len) with
            | none => .error (.err none fd1)
            | some (fd2, n2) =>
              if (chunk x z).len ≠ n2 then .error (.err none fd2)
              else
                match sys_write fd2 (List.replicate (fill (chunk x z).len) 0) with
                | none => .error (.err none fd2)
                | some (fd3, n3) =>
                  if n3 ≠ fill (chunk x z).len then .error (.err none fd3)
                  else
                    mcr_close_chunks chunk rest
                      { fd := fd3
                        chunkLoc := set_entry st.chunkLoc (x + z * 32)
                          (((chunkOffsetBlocks <<< 8) ||| chunkLenBlocks (chunk x z).len)
                            % 2 ^ 32)
                        chunkTime := set_entry st.chunkTime (x + z * 32)
                          (chunk x z).timestamp }

/-- The 4096 bytes of a table of 1024 `uint32_t` after `htonl` on each entry. -/
def table_bytes (table : Nat → Nat) : List Nat :=
  (List.range 1024).flatMap (fun i => le_bytes 4 (ntohl (table i)))

/-- What `mcr_close` leaves: its result, the value it assigns to `errno` if
any, and the bytes of the file. -/
structure close_result where
  ret : Int
  errno : Option errno_value
  file : List Nat
  deriving DecidableEq, Repr

/-- The function `mcr_close`. -/
def mcr_close (mcr : MCR) : Except Failure close_result :=
  if mcr.readonly then .ok { ret := 0, errno := none, file := mcr.fd.bytes }
  else
    match mcr_close_chunks mcr.chunk slot_order
        { fd := sys_lseek mcr.fd 8192, chunkLoc := fun _ => 0, chunkTime := fun _ => 0 } with
    | .error .undefined => .error .undefined
    | .error (.err e fd) => .ok { ret := -1, errno := e, file := fd.bytes }
    | .ok st =>
      match sys_write (sys_lseek st.fd 0) (table_bytes st.chunkLoc) with
      | none => .ok { ret := -1, errno := none, file := st.fd.bytes }
      | some (fd1, n1) =>
        if n1 ≠ 4096 then .ok { ret := -1, errno := none, file := fd1.bytes }
        else
          match sys_write fd1 (table_bytes st.chunkTime) with
          | none => .ok { ret := -1, errno := none, file := fd1.bytes }
          | some (fd2, n2) =>
            if n2 ≠ 4096 then .ok { ret := -1, errno := none, file := fd2.bytes }
            else .ok { ret := 0, errno := none, file := fd2.bytes }

/-- The function `mcr_chunk_get`, over the function `nbt_parse_compressed` of
`nbt_loading.c`, which is not among the sources: `none` is the `NULL` returned
with `errno` at `NBT_OK` for a slot without data. Passing on a byte of the
allocation that was never stored is undefined. -/
def mcr_chunk_get (nbt_parse_compressed : List Nat → Except Failure nbt_node)
    (mcr : MCR) (x z : Nat) : Except Failure (Option nbt_node) :=
  match (mcr.chunk x z).data with
  | none => .ok none
  | some data =>
    if data.length < (mcr.chunk x z).len then .error .undefined
    else
      (nbt_parse_compressed
        ((data.drop 1).take (((mcr.chunk x z).len + 2 ^ 32 - 1) % 2 ^ 32))).map some

/-- What `mcr_chunk_set` leaves: its result, the value it assigns to `errno` if
any, and the container. -/
structure set_result where
  ret : Int
  errno : Option errno_value
  mcr : MCR

/-- The function `mcr_chunk_set`, over the function `nbt_dump_compressed` of
`nbt_loading.c` applied with `STRAT_INFLATE`, which is not among the sources
and stands for the buffer it returns. The length is stored in a `uint32_t`
before the allocation; copying more than was allocated is undefined. -/
def mcr_chunk_set (nbt_dump_compressed : nbt_node → List Nat)
    (mcr : MCR) (x z : Nat) (root : Option nbt_node) : Except Failure set_result :=
  if mcr.readonly then .ok { ret := -1, errno := some .EPERM, mcr := mcr }
  else
    match root with
    | none =>
      .ok { ret := 0, errno := none,
            mcr := { mcr with
              chunk := set_chunk mcr.chunk x z { timestamp := 0, len := 0, data := none } } }
    | some tree =>
      if (nbt_dump_compressed tree).length + 1 ≥ 2 ^ 32 then .error .undefined
      else
        .ok { ret := 0, errno := none,
              mcr := { mcr with
                chunk := set_chunk mcr.chunk x z
                  { timestamp := mcr.last_timestamp
                    len := ((nbt_dump_compressed tree).length + 1) % 2 ^ 32
                    data := some (2 :: nbt_dump_compressed tree) } } }

/-! ## The layout of a region file, in the words of the specification

Two tables of 1024 big-endian 32-bit entries, indexed by `x + 32 * z`: the
locations from byte 0, the timestamps from byte 4096. A location is a 24-bit
sector offset followed by an 8-bit sector count. -/

/-- The value of a sequence of bytes read most significant byte first. -/
def be_value (b : List Nat) : Nat :=
  le_value b.reverse

/-- The `k` low-order bytes of `n`, most significant first. -/
def be_bytes (k n : Nat) : List Nat :=
  (le_bytes k n).reverse

/-- The location entry of slot `(x, z)`: the 4 bytes at offset `4 * (x + 32 * z)`
of the file. -/
def location_entry (file : List Nat) (x z : Nat) : List Nat :=
  (file.drop (4 * (x + 32 * z))).take 4

/-- The timestamp entry of slot `(x, z)`: the 4 bytes at offset
`4096 + 4 * (x + 32 * z)` of the file. -/
def timestamp_entry (file : List Nat) (x z : Nat) : List Nat :=
  (file.drop (4096 + 4 * (x + 32 * z))).take 4

/-- The 24-bit sector offset of a location entry. -/
def sector_offset (entry : List Nat) : Nat :=
  be_value (entry.take 3)

/-- The 8-bit sector count of a location entry. -/
def sector_count (entry : List Nat) : Nat :=
  be_value ((entry.drop 3).take 1)

/-! ## The positions of the file during `mcr_close`

What the three calls of `write` in the loop add up to, slot by slot. -/

/-- The number of bytes that `mcr_close` writes for a slot: none when it holds
no data, and otherwise the 4 bytes of the length, the `len` bytes of the data
and the filling. -/
def close_span (c : MCRChunk) : Nat :=
  match c.data with
  | none => 0
  | some _ => 4 + c.len + fill c.len

/-- The number of sectors that `mcr_close` counts for a slot: none when it holds
no data, and otherwise its `chunkLenBlocks`. -/
def slot_sectors (c : MCRChunk) : Nat :=
  match c.data with
  | none => 0
  | some _ => chunkLenBlocks c.len

/-- The position of the file when the loop of `mcr_close`, started at `start`
on the slots `l`, reaches slot `t`: the start and what was written for the
slots before `t`. -/
def write_position (chunk : Nat → Nat → MCRChunk) (l : List (Nat × Nat)) (start : Nat)
    (t : Nat × Nat) : Nat :=
  start + ((l.takeWhile (fun s => decide (s ≠ t))).map (fun s => close_span (chunk s.1 s.2))).sum

/-- The bytes that the three calls of `write` in the loop of `mcr_close` transfer
for a slot of length `len` whose data are `data`: the length after `htonl`, the
first `len` bytes of the data, and the filling. -/
def slot_bytes (len : Nat) (data : List Nat) : List Nat :=
  le_bytes 4 (ntohl len) ++ (data.take len ++ List.replicate (fill len) 0)

/-! ## Arithmetic of the byte representations -/

theorem le_bytes_length (k n : Nat) : (le_bytes k n).length = k := by
  induction k generalizing n with
  | zero => rfl
  | succ k ih => simp [le_bytes, ih]

theorem le_value_le_bytes (k n : Nat) : le_value (le_bytes k n) = n % 256 ^ k := by
  induction k generalizing n with
  | zero => simp [le_bytes, le_value, Nat.mod_one]
  | succ k ih =>
    simp only [le_bytes, le_value, ih]
    rw [pow_succ, Nat.mul_comm (256 ^ k) 256, Nat.mod_mul]

theorem to_signed_to_unsigned_8 (v : Int) (h1 : -128 ≤ v) (h2 : v < 128) :
    to_signed 8 (to_unsigned 8 v) = v := by
  simp only [to_signed, to_unsigned]
  norm_num
  split <;> omega

theorem to_signed_to_unsigned_16 (v : Int) (h1 : -32768 ≤ v) (h2 : v < 32768) :
    to_signed 16 (to_unsigned 16 v) = v := by
  simp only [to_signed, to_unsigned]
  norm_num
  split <;> omega

theorem to_signed_to_unsigned_32 (v : Int) (h1 : -2147483648 ≤ v) (h2 : v < 2147483648) :
    to_signed 32 (to_unsigned 32 v) = v := by
  simp only [to_signed, to_unsigned]
  norm_num
  split <;> omega

theorem to_signed_to_unsigned_64 (v : Int) (h1 : -9223372036854775808 ≤ v)
    (h2 : v < 9223372036854775808) : to_signed 64 (to_unsigned 64 v) = v := by
  simp only [to_signed, to_unsigned]
  norm_num
  split <;> omega

theorem to_unsigned_lt_8 (v : Int) : to_unsigned 8 v < 256 := by
  simp only [to_unsigned]; norm_num; omega

theorem to_unsigned_lt_16 (v : Int) : to_unsigned 16 v < 65536 := by
  simp only [to_unsigned]; norm_num; omega

theorem to_unsigned_lt_32 (v : Int) : to_unsigned 32 v < 4294967296 := by
  simp only [to_unsigned]; norm_num; omega

theorem to_unsigned_lt_64 (v : Int) : to_unsigned 64 v < 18446744073709551616 := by
  simp only [to_unsigned]; norm_num; omega

/-- Reading back, with either scanner, `n` bytes that are followed by `rest`. -/
theorem READ_GENERIC_memscan_append (bs rest : List Nat) :
    READ_GENERIC bs.length memscan (bs ++ rest) = some (bs, rest) := by
  simp [READ_GENERIC, memscan]

theorem READ_GENERIC_swapped_append (bs rest : List Nat) :
    READ_GENERIC bs.length swapped_memscan (bs ++ rest) = some (be2ne bs, rest) := by
  simp [READ_GENERIC, swapped_memscan, memscan]

theorem be2ne_be2ne (bs : List Nat) : be2ne (be2ne bs) = bs := by
  simp [be2ne, swap_bytes]

theorem be2ne_length (bs : List Nat) : (be2ne bs).length = bs.length := by
  simp [be2ne, swap_bytes]

theorem DUMP_NUM_length (n x : Nat) : (DUMP_NUM n x).length = n := by
  simp [DUMP_NUM, be2ne_length, le_bytes_length]

/-- A number written by `DUMP_NUM` is read back by `COPY_INTO_PAYLOAD`. -/
theorem COPY_INTO_PAYLOAD_DUMP_NUM (n x : Nat) (rest : List Nat) (hx : x < 256 ^ n) :
    COPY_INTO_PAYLOAD n (DUMP_NUM n x ++ rest) = .ok (x, rest) := by
  have h := READ_GENERIC_swapped_append (DUMP_NUM n x) rest
  rw [DUMP_NUM_length] at h
  simp only [COPY_INTO_PAYLOAD, h]
  simp [DUMP_NUM, be2ne_be2ne, le_value_le_bytes, Nat.mod_eq_of_lt hx]

/-! ## The two worked examples of the specification -/

/-- C2: the bytes `01 00 01 41 05` decode to the Byte node named "A" with
value 5, and the encoder turns that node back into the same five bytes. -/
theorem byte_A_example :
    nbt_parse [0x01, 0x00, 0x01, 0x41, 0x05]
        = .ok (nbt_node.tag_byte (some (c_string "A")) 5)
      ∧ nbt_dump_binary (some (nbt_node.tag_byte (some (c_string "A")) 5))
        = .ok [0x01, 0x00, 0x01, 0x41, 0x05] := by
  constructor <;> rfl

/-- C3: the Compound named "" whose only member is the Int named "x" with
value -1 is encoded as the twelve bytes `0A 00 00 03 00 01 78 FF FF FF FF 00`. -/
theorem compound_x_example :
    nbt_dump_binary
        (some (nbt_node.tag_compound (some (c_string ""))
          [nbt_node.tag_int (some (c_string "x")) (-1)]))
      = .ok [0x0A, 0x00, 0x00, 0x03, 0x00, 0x01, 0x78, 0xFF, 0xFF, 0xFF, 0xFF, 0x00] := by
  rfl

/-! ## Strings and lists in the encoder -/

theorem to_unsigned_16_natCast (n : Nat) (h : n ≤ 32767) : to_unsigned 16 (n : Int) = n := by
  simp only [to_unsigned]; norm_num; omega

theorem strlen_eq_length (s : List Nat) (h : ∀ b ∈ s, b ≠ 0) : strlen s = s.length := by
  have : s.takeWhile (fun b => b != 0) = s := by
    rw [List.takeWhile_eq_self_iff]
    intro b hb
    simpa using h b hb
  simp [strlen, this]

theorem dump_string_binary_ok (s : List Nat) (h : strlen s ≤ 32767) :
    dump_string_binary s = .ok ([strlen s / 256, strlen s % 256] ++ s.take (strlen s)) := by
  have h1 : ¬ (strlen s > 32767) := by omega
  have h2 : strlen s / 256 % 256 = strlen s / 256 := by omega
  simp [dump_string_binary, h1, to_unsigned_16_natCast _ h, le_bytes, be2ne, swap_bytes, h2]

theorem dump_string_binary_error (s : List Nat) (h : 32767 < strlen s) :
    dump_string_binary s = .error (.errno NBT_ERR) := by
  simp [dump_string_binary, h]

theorem dump_header_error (tree : nbt_node) (dump_type : Bool) (e : Failure)
    (h : dump_header tree dump_type = .error e) : e = .errno NBT_ERR := by
  unfold dump_header at h
  cases hn : tree.name with
  | none => simp [hn] at h
  | some name =>
    simp only [hn] at h
    by_cases hl : 32767 < strlen name
    · rw [dump_string_binary_error name hl] at h
      simpa using h.symm
    · rw [dump_string_binary_ok name (by omega)] at h
      simp at h

/-- C10: the encoder rejects a string exactly when its length exceeds 32767,
and otherwise writes the two big-endian length bytes, then the bytes of the
string, and nothing else; the same holds for the name and the payload of a
String node. -/
theorem string_length_limit (s n : List Nat) :
    ((∃ e, dump_string_binary s = .error e) ↔ 32767 < strlen s)
      ∧ (32767 < strlen s → dump_string_binary s = .error (.errno NBT_ERR))
      ∧ (strlen s ≤ 32767 →
          dump_string_binary s = .ok ([strlen s / 256, strlen s % 256] ++ s.take (strlen s)))
      ∧ ((∀ b ∈ s, b ≠ 0) → s.length ≤ 32767 →
          dump_string_binary s = .ok ([s.length / 256, s.length % 256] ++ s))
      ∧ ((∃ e, nbt_dump_binary (some (nbt_node.tag_string (some n) s)) = .error e)
          ↔ (32767 < strlen n ∨ 32767 < strlen s))
      ∧ (strlen n ≤ 32767 → strlen s ≤ 32767 →
          nbt_dump_binary (some (nbt_node.tag_string (some n) s))
            = .ok ([TAG_STRING] ++ ([strlen n / 256, strlen n % 256] ++ n.take (strlen n))
                ++ ([strlen s / 256, strlen s % 256] ++ s.take (strlen s)))) := by
  have node_ok : strlen n ≤ 32767 → strlen s ≤ 32767 →
      nbt_dump_binary (some (nbt_node.tag_string (some n) s))
        = .ok ([TAG_STRING] ++ ([strlen n / 256, strlen n % 256] ++ n.take (strlen n))
            ++ ([strlen s / 256, strlen s % 256] ++ s.take (strlen s))) := by
    intro hn hs
    simp [nbt_dump_binary, __dump_binary, dump_header, dump_payload, nbt_node.name,
      nbt_node.type, dump_string_binary_ok n hn, dump_string_binary_ok s hs, le_bytes,
      to_unsigned]
  refine ⟨?_, dump_string_binary_error s, dump_string_binary_ok s, ?_, ?_, node_ok⟩
  · constructor
    · rintro ⟨e, he⟩
      by_contra hc
      rw [dump_string_binary_ok s (by omega)] at he
      simp at he
    · intro h
      exact ⟨_, dump_string_binary_error s h⟩
  · intro h0 hl
    have := dump_string_binary_ok s (by rw [strlen_eq_length s h0]; exact hl)
    rw [strlen_eq_length s h0] at this
    simpa using this
  · constructor
    · rintro ⟨e, he⟩
      by_contra hc
      rw [node_ok (by omega) (by omega)] at he
      simp at he
    · rintro (h | h)
      · exact ⟨.errno NBT_ERR, by
          simp [nbt_dump_binary, __dump_binary, dump_header, nbt_node.name,
            dump_string_binary_error n h]⟩
      · by_cases hn : 32767 < strlen n
        · exact ⟨.errno NBT_ERR, by
            simp [nbt_dump_binary, __dump_binary, dump_header, nbt_node.name,
              dump_string_binary_error n hn]⟩
        · exact ⟨.errno NBT_ERR, by
            simp [nbt_dump_binary, __dump_binary, dump_header, dump_payload, nbt_node.name,
              dump_string_binary_ok n (by omega), dump_string_binary_error s h]⟩

/-- C10, at a concrete string: "x" is written as `00 01 78`. -/
theorem string_length_limit_witness :
    dump_string_binary (c_string "x") = .ok [0x00, 0x01, 0x78] :=
  (string_length_limit (c_string "x") []).2.2.1 (by decide)

theorem list_is_homogenous_loop_some (list : List nbt_node) :
    ∀ (ty r : nbt_type), list_is_homogenous_loop ty list = some r →
      (∀ c ∈ list, c.type = r) ∧ (ty ≠ TAG_INVALID → r = ty) := by
  induction list with
  | nil =>
    intro ty r h
    simp [list_is_homogenous_loop] at h
    simp [h]
  | cons cur rest ih =>
    intro ty r h
    simp only [list_is_homogenous_loop] at h
    by_cases hc : cur.type = TAG_INVALID
    · simp [hc] at h
    · rw [if_neg hc] at h
      by_cases h1 : (if ty = TAG_INVALID then cur.type else ty) = cur.type
      · rw [h1] at h
        simp only [ne_eq, not_true_eq_false, if_false] at h
        obtain ⟨ha, hb⟩ := ih _ _ h
        have hr : r = cur.type := hb hc
        refine ⟨?_, ?_⟩
        · intro c hcm
          rcases List.mem_cons.mp hcm with rfl | hm
          · exact hr.symm
          · exact ha c hm
        · intro hty
          rw [if_neg hty] at h1
          rw [hr, h1]
      · simp [h1] at h

theorem list_is_homogenous_invalid (type : nbt_type) (list : List nbt_node)
    (h : ∃ a ∈ list, ∃ b ∈ list, a.type ≠ b.type) :
    list_is_homogenous type list = TAG_INVALID := by
  obtain ⟨a, ha, b, hb, hab⟩ := h
  unfold list_is_homogenous
  cases hl : list_is_homogenous_loop TAG_INVALID list with
  | none => rfl
  | some r =>
    have := (list_is_homogenous_loop_some list _ _ hl).1
    exact absurd ((this a ha).trans (this b hb).symm) hab

theorem dump_list_binary_error (type : nbt_type) (list : List nbt_node)
    (body : Except Failure (List Nat)) (h : list_is_homogenous type list = TAG_INVALID) :
    dump_list_binary type list body = .error (.errno NBT_ERR) := by
  unfold dump_list_binary
  simp only [h]
  split <;> simp

theorem dump_binary_list_error (name : Option (List Nat)) (type : nbt_type)
    (list : List nbt_node) (dump_type : Bool)
    (h : list_is_homogenous type list = TAG_INVALID) :
    __dump_binary (nbt_node.tag_list name type list) dump_type = .error (.errno NBT_ERR) := by
  unfold __dump_binary
  cases hh : dump_header (nbt_node.tag_list name type list) dump_type with
  | error e => simp [dump_header_error _ _ _ hh]
  | ok bytes => simp [dump_payload, dump_list_binary_error type list _ h]

/-- C9: a List with two children of different kinds is not encoded, the
encoder reports `NBT_ERR`, whether the list is the root or nested; and an
empty List whose declared kind is still `TAG_INVALID` is rejected in the same
way instead of being given a kind. -/
theorem list_homogeneity_enforced (name : Option (List Nat)) (type : nbt_type)
    (list : List nbt_node) (dump_type : Bool) :
    ((∃ a ∈ list, ∃ b ∈ list, a.type ≠ b.type) →
        __dump_binary (nbt_node.tag_list name type list) dump_type = .error (.errno NBT_ERR)
        ∧ nbt_dump_binary (some (nbt_node.tag_list name type list))
            = .error (.errno NBT_ERR))
      ∧ __dump_binary (nbt_node.tag_list name TAG_INVALID []) dump_type
          = .error (.errno NBT_ERR)
      ∧ nbt_dump_binary (some (nbt_node.tag_list name TAG_INVALID []))
          = .error (.errno NBT_ERR) := by
  have hempty : list_is_homogenous TAG_INVALID [] = TAG_INVALID := by
    simp [list_is_homogenous, list_is_homogenous_loop]
  refine ⟨fun h => ⟨?_, ?_⟩, ?_, ?_⟩
  · exact dump_binary_list_error name type list dump_type (list_is_homogenous_invalid type list h)
  · exact dump_binary_list_error name type list true (list_is_homogenous_invalid type list h)
  · exact dump_binary_list_error name _ [] dump_type hempty
  · exact dump_binary_list_error name _ [] true hempty

/-- C9, at the list of one Byte and one Short. -/
theorem list_homogeneity_enforced_witness :
    nbt_dump_binary (some (nbt_node.tag_list (some (c_string "l")) TAG_BYTE
        [nbt_node.tag_byte none 1, nbt_node.tag_short none 2]))
      = .error (.errno NBT_ERR) :=
  ((list_homogeneity_enforced (some (c_string "l")) TAG_BYTE
      [nbt_node.tag_byte none 1, nbt_node.tag_short none 2] true).1
    ⟨nbt_node.tag_byte none 1, by simp, nbt_node.tag_short none 2, by simp,
      by simp [nbt_node.type]⟩).2

/-! ## Lists in the decoder -/

theorem READ_GENERIC_one (scanner : Nat → List Nat → List Nat × List Nat)
    (hs : scanner = memscan ∨ scanner = swapped_memscan) (t : Nat) (rest : List Nat) :
    READ_GENERIC 1 scanner (t :: rest) = some ([t], rest) := by
  rcases hs with rfl | rfl <;> simp [READ_GENERIC, swapped_memscan, memscan, be2ne, swap_bytes]

theorem READ_GENERIC_two (b0 b1 : Nat) (rest : List Nat) :
    READ_GENERIC 2 swapped_memscan (b0 :: b1 :: rest) = some (be2ne [b0, b1], rest) := by
  simp [READ_GENERIC, swapped_memscan, memscan]

theorem READ_GENERIC_four (b0 b1 b2 b3 : Nat) (rest : List Nat) :
    READ_GENERIC 4 swapped_memscan (b0 :: b1 :: b2 :: b3 :: rest)
      = some (be2ne [b0, b1, b2, b3], rest) := by
  simp [READ_GENERIC, swapped_memscan, memscan]

theorem le_value_singleton (t : Nat) : le_value [t] = t := by
  simp [le_value]

theorem parse_unnamed_tag_unknown (fuel : Nat) (type : nbt_type) (name : Option (List Nat))
    (mem : List Nat) (h : ¬ (1 ≤ type ∧ type ≤ 12)) :
    parse_unnamed_tag (fuel + 1) type name mem = .error (.errno NBT_ERR) := by
  unfold parse_unnamed_tag
  split
  all_goals first | rfl | exact absurd (by decide) h

/-- The `TAG_LIST` case of `parse_unnamed_tag`. -/
theorem parse_unnamed_tag_list (fuel : Nat) (name : Option (List Nat)) (mem : List Nat) :
    parse_unnamed_tag (fuel + 1) TAG_LIST name mem
      = (read_list (fun ty => parse_unnamed_tag fuel ty none) mem).map
          (fun r =>
            (nbt_node.tag_list name
              (if r.1.1 = TAG_INVALID ∧ r.1.2.length = 0 then TAG_COMPOUND else r.1.1)
              r.1.2, r.2)) := by
  show Except.map _ _ = Except.map _ _
  simp only [ite_self]

/-- The `TAG_COMPOUND` case of `parse_unnamed_tag`. -/
theorem parse_unnamed_tag_compound (fuel : Nat) (name : Option (List Nat)) (mem : List Nat) :
    parse_unnamed_tag (fuel + 1) TAG_COMPOUND name mem
      = (read_compound (parse_unnamed_tag fuel) mem).map
          (fun r => (nbt_node.tag_compound name r.1, r.2)) := rfl

/-- The header of a list payload: the kind byte and the four count bytes. -/
theorem read_list_header (p : nbt_type → List Nat → Except Failure (nbt_node × List Nat))
    (t b0 b1 b2 b3 : Nat) (rest : List Nat) :
    read_list p (t :: b0 :: b1 :: b2 :: b3 :: rest)
      = match read_list_elems (p t) (to_signed 32 (le_value (be2ne [b0, b1, b2, b3]))).toNat
            rest with
        | .error e => .error e
        | .ok (list, mem3) =>
          .ok ((if t = TAG_INVALID ∧ to_signed 32 (le_value (be2ne [b0, b1, b2, b3])) ≠ 0
                then list_is_homogenous t list else t, list), mem3) := by
  simp only [read_list, READ_GENERIC_one _ (Or.inr rfl), READ_GENERIC_four, le_value_singleton]

/-- C7: a list payload that declares kind 0 and count 0 decodes, under every
name and under no name, to the List of declared kind Compound without
children, and the bytes after the five header bytes are left unread; the same
at the root of a document. -/
theorem empty_list_defaults_to_compound (fuel : Nat) (name : Option (List Nat))
    (rest : List Nat) :
    parse_unnamed_tag (fuel + 1) TAG_LIST name (0 :: 0 :: 0 :: 0 :: 0 :: rest)
        = .ok (nbt_node.tag_list name TAG_COMPOUND [], rest)
      ∧ (∀ (mem n : List Nat), read_string mem = .ok (n, 0 :: 0 :: 0 :: 0 :: 0 :: rest) →
          nbt_parse (TAG_LIST :: mem) = .ok (nbt_node.tag_list (some n) TAG_COMPOUND [])) := by
  have key : ∀ (fuel : Nat) (name : Option (List Nat)),
      parse_unnamed_tag (fuel + 1) TAG_LIST name (0 :: 0 :: 0 :: 0 :: 0 :: rest)
        = .ok (nbt_node.tag_list name TAG_COMPOUND [], rest) := by
    intro fuel name
    have hz : to_signed 32 (le_value (be2ne [0, 0, 0, 0])) = 0 := by decide
    simp [parse_unnamed_tag_list, read_list_header, hz, read_list_elems, Except.map]
  refine ⟨key fuel name, ?_⟩
  intro mem n h
  simp [nbt_parse, READ_GENERIC_one _ (Or.inl rfl), h, le_value_singleton, key, Except.map]

/-- C7, at the root list named "TileEntities". -/
theorem empty_list_defaults_to_compound_witness :
    nbt_parse (TAG_LIST :: ([0, 12] ++ c_string "TileEntities" ++ [0, 0, 0, 0, 0]))
      = .ok (nbt_node.tag_list (some (c_string "TileEntities")) TAG_COMPOUND []) :=
  (empty_list_defaults_to_compound 0 none []).2
    ([0, 12] ++ c_string "TileEntities" ++ [0, 0, 0, 0, 0]) (c_string "TileEntities") (by rfl)

/-- The two-byte length field of `read_string`. -/
theorem read_string_header (b0 b1 : Nat) (rest : List Nat) :
    read_string (b0 :: b1 :: rest)
      = if to_signed 16 (le_value (be2ne [b0, b1])) < 0 then .error (.errno NBT_ERR)
        else if rest.length < to_size_t (to_signed 16 (le_value (be2ne [b0, b1]))) then
          .error (.errno NBT_ERR)
        else if malloc_fails (to_size_t (to_signed 16 (le_value (be2ne [b0, b1])) + 1)) then
          .error (.errno NBT_EMEM)
        else
          match READ_GENERIC (to_size_t (to_signed 16 (le_value (be2ne [b0, b1])))) memscan
              rest with
          | none => .error (.errno NBT_ERR)
          | some (ret, mem2) => .ok (ret, mem2) := by
  simp only [read_string, READ_GENERIC_two]

/-- When `read_string` gives no string it has reported an error. -/
theorem read_string_reports (mem : List Nat) (e : Failure) (h : read_string mem = .error e) :
    e = .errno NBT_ERR ∨ e = .errno NBT_EMEM := by
  unfold read_string at h
  split at h
  · simp at h; exact Or.inl h.symm
  · dsimp only at h
    split at h
    · simp at h; exact Or.inl h.symm
    · split at h
      · simp at h; exact Or.inl h.symm
      · split at h
        · simp at h; exact Or.inr h.symm
        · split at h
          · simp at h; exact Or.inl h.symm
          · simp at h

theorem reports_error_of (α : Type) (e : Failure)
    (h : e = .errno NBT_ERR ∨ e = .errno NBT_EMEM) :
    reports_error (Except.error e : Except Failure α) = true := by
  rcases h with rfl | rfl <;> rfl

/-- A failing element makes the loop of `read_list` fail, at whatever position
it stands. -/
theorem read_list_elems_error (p : List Nat → Except Failure (nbt_node × List Nat))
    (e : Failure) :
    ∀ (i : Nat) (mem : List Nat) (xs : List nbt_node) (mem1 : List Nat) (n : Nat),
      read_list_elems p i mem = .ok (xs, mem1) → p mem1 = .error e → i < n →
      read_list_elems p n mem = .error e := by
  intro i
  induction i with
  | zero =>
    intro mem xs mem1 n h hp hn
    obtain ⟨m, rfl⟩ : ∃ m, n = m + 1 := ⟨n - 1, by omega⟩
    simp only [read_list_elems, Except.ok.injEq, Prod.mk.injEq] at h
    simp [read_list_elems, h.2, hp]
  | succ i ih =>
    intro mem xs mem1 n h hp hn
    obtain ⟨m, rfl⟩ : ∃ m, n = m + 1 := ⟨n - 1, by omega⟩
    simp only [read_list_elems] at h ⊢
    cases hq : p mem with
    | error e1 => simp [hq] at h
    | ok r =>
      obtain ⟨nd, mem2⟩ := r
      simp only [hq] at h ⊢
      cases hr : read_list_elems p i mem2 with
      | error e1 => simp [hr] at h
      | ok r2 =>
        obtain ⟨ys, mem3⟩ := r2
        simp only [hr, Except.ok.injEq, Prod.mk.injEq] at h
        rw [ih mem2 ys mem1 m (by rw [hr, h.2]) hp (by omega)]

/-- A list payload that declares kind 0 and a positive count: the first element
cannot be parsed. -/
theorem parse_list_invalid_kind (fuel : Nat) (name : Option (List Nat))
    (t b0 b1 b2 b3 : Nat) (rest : List Nat) (ht : ¬ (1 ≤ t ∧ t ≤ 12))
    (h : 0 < to_signed 32 (le_value (be2ne [b0, b1, b2, b3]))) :
    parse_unnamed_tag (fuel + 2) TAG_LIST name (t :: b0 :: b1 :: b2 :: b3 :: rest)
      = .error (.errno NBT_ERR) := by
  have h1 := read_list_elems_error (parse_unnamed_tag (fuel + 1) t none) (.errno NBT_ERR)
    0 rest [] rest (to_signed 32 (le_value (be2ne [b0, b1, b2, b3]))).toNat rfl
    (parse_unnamed_tag_unknown fuel t none rest ht) (by omega)
  simp [parse_unnamed_tag_list, read_list_header, h1, Except.map]

/-- C8 (as amended): a list payload that declares kind 0 and a positive
element count is rejected with `NBT_ERR`, for every positive count, every name
and whatever follows the header; the same at the root of a document. -/
theorem sentinel_list_positive_count_rejected (fuel : Nat) (name : Option (List Nat))
    (b0 b1 b2 b3 : Nat) (rest : List Nat)
    (h : 0 < to_signed 32 (le_value (be2ne [b0, b1, b2, b3]))) :
    parse_unnamed_tag (fuel + 2) TAG_LIST name (TAG_INVALID :: b0 :: b1 :: b2 :: b3 :: rest)
        = .error (.errno NBT_ERR)
      ∧ (∀ (mem n : List Nat),
          read_string mem = .ok (n, TAG_INVALID :: b0 :: b1 :: b2 :: b3 :: rest) →
          nbt_parse (TAG_LIST :: mem) = .error (.errno NBT_ERR)) := by
  refine ⟨parse_list_invalid_kind fuel name 0 b0 b1 b2 b3 rest (by decide) h, ?_⟩
  intro mem n hn
  have := parse_list_invalid_kind mem.length (some n) 0 b0 b1 b2 b3 rest (by decide) h
  simp [nbt_parse, READ_GENERIC_one _ (Or.inl rfl), hn, le_value_singleton, this, Except.map]

/-- C8 (as amended), at the root list named "" with kind 0 and count 1. -/
theorem sentinel_list_positive_count_rejected_witness :
    0 < to_signed 32 (le_value (be2ne [0, 0, 0, 1]))
      ∧ nbt_parse [0x09, 0x00, 0x00, 0x00, 0x00, 0x00, 0x00, 0x01] = .error (.errno NBT_ERR) :=
  ⟨by decide,
    (sentinel_list_positive_count_rejected 0 none 0 0 0 1 [] (by decide)).2
      [0x00, 0x00, 0x00, 0x00, 0x00, 0x00, 0x01] [] (by rfl)⟩

/-- C8 (as stated) fails: the list payload with kind 0 and count -1, a nonzero
count, is accepted and decodes to the empty List of kind Compound. -/
theorem sentinel_list_negative_count_accepted :
    to_signed 32 (le_value (be2ne [0xFF, 0xFF, 0xFF, 0xFF])) = -1
      ∧ parse_unnamed_tag 2 TAG_LIST none [0x00, 0xFF, 0xFF, 0xFF, 0xFF]
          = .ok (nbt_node.tag_list none TAG_COMPOUND [], [])
      ∧ nbt_parse [0x09, 0x00, 0x00, 0x00, 0xFF, 0xFF, 0xFF, 0xFF]
          = .ok (nbt_node.tag_list (some []) TAG_COMPOUND []) := by
  refine ⟨by decide, by rfl, by rfl⟩

/-! ## How a failure travels outward -/

/-- A failing element of a list payload fails the List node. -/
theorem parse_list_element_error (fuel : Nat) (name : Option (List Nat))
    (t b0 b1 b2 b3 : Nat) (rest : List Nat) (i : Nat) (xs : List nbt_node)
    (mem1 : List Nat) (e : Failure)
    (h1 : read_list_elems (parse_unnamed_tag fuel t none) i rest = .ok (xs, mem1))
    (h2 : parse_unnamed_tag fuel t none mem1 = .error e)
    (h3 : (i : Int) < to_signed 32 (le_value (be2ne [b0, b1, b2, b3]))) :
    parse_unnamed_tag (fuel + 1) TAG_LIST name (t :: b0 :: b1 :: b2 :: b3 :: rest)
      = .error e := by
  have h := read_list_elems_error (parse_unnamed_tag fuel t none) e i rest xs mem1
    (to_signed 32 (le_value (be2ne [b0, b1, b2, b3]))).toNat h1 h2 (by omega)
  simp [parse_unnamed_tag_list, read_list_header, h, Except.map]

/-- One iteration of the loop of `read_compound` on a member of type `t`. -/
theorem read_compound_loop_step
    (p : nbt_type → Option (List Nat) → List Nat → Except Failure (nbt_node × List Nat))
    (k t : Nat) (rest : List Nat) (ht : t ≠ 0) :
    read_compound_loop p (k + 1) (t :: rest)
      = match read_string rest with
        | .error e => .error e
        | .ok (name, mem2) =>
          match p t (some name) mem2 with
          | .error e => .error e
          | .ok (nd, mem3) =>
            match read_compound_loop p k mem3 with
            | .error e => .error e
            | .ok (members, mem4) => .ok (nd :: members, mem4) := by
  simp only [read_compound_loop, READ_GENERIC_one _ (Or.inr rfl), le_value_singleton, if_neg ht]

/-- A failing member, or a failure after it, fails the loop of
`read_compound`. -/
theorem read_compound_loop_error
    (p : nbt_type → Option (List Nat) → List Nat → Except Failure (nbt_node × List Nat))
    (k t : Nat) (rest name mem2 : List Nat) (e : Failure) (ht : t ≠ 0)
    (h1 : read_string rest = .ok (name, mem2))
    (h2 : p t (some name) mem2 = .error e
      ∨ ∃ nd mem3, p t (some name) mem2 = .ok (nd, mem3)
          ∧ read_compound_loop p k mem3 = .error e) :
    read_compound_loop p (k + 1) (t :: rest) = .error e := by
  rw [read_compound_loop_step p k t rest ht, h1]
  rcases h2 with h2 | ⟨nd, mem3, h2, h3⟩
  · simp [h2]
  · simp [h2, h3]

/-- A failing member list fails the Compound node. -/
theorem parse_compound_error (fuel : Nat) (name : Option (List Nat)) (mem : List Nat)
    (e : Failure) (h : read_compound (parse_unnamed_tag fuel) mem = .error e) :
    parse_unnamed_tag (fuel + 1) TAG_COMPOUND name mem = .error e := by
  simp [parse_unnamed_tag_compound, h, Except.map]

/-- The root of a document: the type byte, the name, the payload. -/
theorem nbt_parse_root (t : Nat) (rest : List Nat) :
    nbt_parse (t :: rest)
      = match read_string rest with
        | .error e => .error e
        | .ok (name, mem2) =>
          (parse_unnamed_tag (rest.length + 2) t (some name) mem2).map (fun r => r.1) := by
  simp only [nbt_parse, READ_GENERIC_one _ (Or.inl rfl), le_value_singleton, List.length_cons]

/-- A failing root payload fails `nbt_parse`. -/
theorem nbt_parse_error (t : Nat) (rest name mem2 : List Nat) (e : Failure)
    (h1 : read_string rest = .ok (name, mem2))
    (h2 : parse_unnamed_tag (rest.length + 2) t (some name) mem2 = .error e) :
    nbt_parse (t :: rest) = .error e := by
  simp [nbt_parse_root, h1, h2, Except.map]

/-! ## Negative lengths and unknown type bytes -/

theorem read_string_negative (b0 b1 : Nat) (rest : List Nat)
    (h : to_signed 16 (le_value (be2ne [b0, b1])) < 0) :
    read_string (b0 :: b1 :: rest) = .error (.errno NBT_ERR) := by
  simp [read_string_header, h]

theorem read_byte_array_negative (b0 b1 b2 b3 : Nat) (rest : List Nat)
    (h : to_signed 32 (le_value (be2ne [b0, b1, b2, b3])) < 0) :
    read_byte_array (b0 :: b1 :: b2 :: b3 :: rest) = .error (.errno NBT_ERR) := by
  simp [read_byte_array, READ_GENERIC_four, h]

theorem read_int_array_negative (b0 b1 b2 b3 : Nat) (rest : List Nat)
    (h : to_signed 32 (le_value (be2ne [b0, b1, b2, b3])) < 0) :
    read_int_array (b0 :: b1 :: b2 :: b3 :: rest) = .error (.errno NBT_ERR) := by
  simp [read_int_array, READ_GENERIC_four, h]

theorem read_long_array_negative (b0 b1 b2 b3 : Nat) (rest : List Nat)
    (h : to_signed 32 (le_value (be2ne [b0, b1, b2, b3])) < 0) :
    read_long_array (b0 :: b1 :: b2 :: b3 :: rest) = .error (.errno NBT_ERR) := by
  simp [read_long_array, READ_GENERIC_four, h]

theorem parse_string_negative (fuel : Nat) (name : Option (List Nat)) (b0 b1 : Nat)
    (rest : List Nat) (h : to_signed 16 (le_value (be2ne [b0, b1])) < 0) :
    parse_unnamed_tag (fuel + 1) TAG_STRING name (b0 :: b1 :: rest)
      = .error (.errno NBT_ERR) := by
  show Except.map _ (read_string _) = _
  simp [read_string_negative b0 b1 rest h, Except.map]

theorem parse_array_negative (fuel : Nat) (name : Option (List Nat)) (b0 b1 b2 b3 : Nat)
    (rest : List Nat) (h : to_signed 32 (le_value (be2ne [b0, b1, b2, b3])) < 0) :
    parse_unnamed_tag (fuel + 1) TAG_BYTE_ARRAY name (b0 :: b1 :: b2 :: b3 :: rest)
        = .error (.errno NBT_ERR)
      ∧ parse_unnamed_tag (fuel + 1) TAG_INT_ARRAY name (b0 :: b1 :: b2 :: b3 :: rest)
        = .error (.errno NBT_ERR)
      ∧ parse_unnamed_tag (fuel + 1) TAG_LONG_ARRAY name (b0 :: b1 :: b2 :: b3 :: rest)
        = .error (.errno NBT_ERR) := by
  refine ⟨?_, ?_, ?_⟩
  · show Except.map _ (read_byte_array _) = _
    simp [read_byte_array_negative b0 b1 b2 b3 rest h, Except.map]
  · show Except.map _ (read_int_array _) = _
    simp [read_int_array_negative b0 b1 b2 b3 rest h, Except.map]
  · show Except.map _ (read_long_array _) = _
    simp [read_long_array_negative b0 b1 b2 b3 rest h, Except.map]

/-- C5: a negative length field is rejected with `NBT_ERR`, whatever bytes
follow it. For a 16-bit length: in `read_string`, in a String payload, in the
name of the root, in the name of a compound member at any iteration of the
loop, and in the String payload of the root. For a 32-bit length: in the three
array readers, in an array payload, and in the array payload of the root. The
last three parts carry a failure outward through any enclosing list, compound
and the root. -/
theorem negative_lengths_rejected :
    (∀ (b0 b1 : Nat) (rest : List Nat), to_signed 16 (le_value (be2ne [b0, b1])) < 0 →
        read_string (b0 :: b1 :: rest) = .error (.errno NBT_ERR)
        ∧ (∀ (fuel : Nat) (name : Option (List Nat)),
            parse_unnamed_tag (fuel + 1) TAG_STRING name (b0 :: b1 :: rest)
              = .error (.errno NBT_ERR))
        ∧ (∀ t : Nat, nbt_parse (t :: b0 :: b1 :: rest) = .error (.errno NBT_ERR))
        ∧ (∀ (p : nbt_type → Option (List Nat) → List Nat →
                Except Failure (nbt_node × List Nat)) (k t : Nat), t ≠ 0 →
            read_compound_loop p (k + 1) (t :: b0 :: b1 :: rest) = .error (.errno NBT_ERR))
        ∧ (∀ (mem n : List Nat), read_string mem = .ok (n, b0 :: b1 :: rest) →
            nbt_parse (TAG_STRING :: mem) = .error (.errno NBT_ERR)))
      ∧ (∀ (b0 b1 b2 b3 : Nat) (rest : List Nat),
          to_signed 32 (le_value (be2ne [b0, b1, b2, b3])) < 0 →
        read_byte_array (b0 :: b1 :: b2 :: b3 :: rest) = .error (.errno NBT_ERR)
        ∧ read_int_array (b0 :: b1 :: b2 :: b3 :: rest) = .error (.errno NBT_ERR)
        ∧ read_long_array (b0 :: b1 :: b2 :: b3 :: rest) = .error (.errno NBT_ERR)
        ∧ (∀ (fuel : Nat) (name : Option (List Nat)) (t : Nat),
            t = TAG_BYTE_ARRAY ∨ t = TAG_INT_ARRAY ∨ t = TAG_LONG_ARRAY →
            parse_unnamed_tag (fuel + 1) t name (b0 :: b1 :: b2 :: b3 :: rest)
              = .error (.errno NBT_ERR))
        ∧ (∀ (mem n : List Nat) (t : Nat),
            t = TAG_BYTE_ARRAY ∨ t = TAG_INT_ARRAY ∨ t = TAG_LONG_ARRAY →
            read_string mem = .ok (n, b0 :: b1 :: b2 :: b3 :: rest) →
            nbt_parse (t :: mem) = .error (.errno NBT_ERR)))
      ∧ (∀ (fuel : Nat) (name : Option (List Nat)) (t c0 c1 c2 c3 : Nat) (rest : List Nat)
          (i : Nat) (xs : List nbt_node) (mem1 : List Nat) (e : Failure),
          read_list_elems (parse_unnamed_tag fuel t none) i rest = .ok (xs, mem1) →
          parse_unnamed_tag fuel t none mem1 = .error e →
          (i : Int) < to_signed 32 (le_value (be2ne [c0, c1, c2, c3])) →
          parse_unnamed_tag (fuel + 1) TAG_LIST name (t :: c0 :: c1 :: c2 :: c3 :: rest)
            = .error e)
      ∧ (∀ (fuel k t : Nat) (name : Option (List Nat)) (rest n mem2 : List Nat) (e : Failure),
          t ≠ 0 → read_string rest = .ok (n, mem2) →
          (parse_unnamed_tag fuel t (some n) mem2 = .error e
            ∨ ∃ nd mem3, parse_unnamed_tag fuel t (some n) mem2 = .ok (nd, mem3)
                ∧ read_compound_loop (parse_unnamed_tag fuel) k mem3 = .error e) →
          read_compound_loop (parse_unnamed_tag fuel) (k + 1) (t :: rest) = .error e
          ∧ (k = rest.length + 1 →
              parse_unnamed_tag (fuel + 1) TAG_COMPOUND name (t :: rest) = .error e))
      ∧ (∀ (t : Nat) (rest n mem2 : List Nat) (e : Failure),
          read_string rest = .ok (n, mem2) →
          parse_unnamed_tag (rest.length + 2) t (some n) mem2 = .error e →
          nbt_parse (t :: rest) = .error e) := by
  refine ⟨?_, ?_, ?_, ?_, ?_⟩
  · intro b0 b1 rest h
    refine ⟨read_string_negative b0 b1 rest h,
      fun fuel name => parse_string_negative fuel name b0 b1 rest h, ?_, ?_, ?_⟩
    · intro t
      simp [nbt_parse_root, read_string_negative b0 b1 rest h]
    · intro p k t ht
      simp [read_compound_loop_step p k t _ ht, read_string_negative b0 b1 rest h]
    · intro mem n hn
      exact nbt_parse_error _ mem n _ _ hn (parse_string_negative _ _ b0 b1 rest h)
  · intro b0 b1 b2 b3 rest h
    refine ⟨read_byte_array_negative b0 b1 b2 b3 rest h,
      read_int_array_negative b0 b1 b2 b3 rest h,
      read_long_array_negative b0 b1 b2 b3 rest h, ?_, ?_⟩
    · intro fuel name t ht
      have := parse_array_negative fuel name b0 b1 b2 b3 rest h
      rcases ht with rfl | rfl | rfl
      · exact this.1
      · exact this.2.1
      · exact this.2.2
    · intro mem n t ht hn
      have := parse_array_negative (mem.length + 1) (some n) b0 b1 b2 b3 rest h
      rcases ht with rfl | rfl | rfl
      · exact nbt_parse_error _ mem n _ _ hn this.1
      · exact nbt_parse_error _ mem n _ _ hn this.2.1
      · exact nbt_parse_error _ mem n _ _ hn this.2.2
  · intro fuel name t c0 c1 c2 c3 rest i xs mem1 e h1 h2 h3
    exact parse_list_element_error fuel name t c0 c1 c2 c3 rest i xs mem1 e h1 h2 h3
  · intro fuel k t name rest n mem2 e ht h1 h2
    have hl := read_compound_loop_error (parse_unnamed_tag fuel) k t rest n mem2 e ht h1 h2
    refine ⟨hl, ?_⟩
    intro hk
    apply parse_compound_error
    simp only [read_compound, List.length_cons]
    rw [← hk]
    exact hl
  · intro t rest n mem2 e h1 h2
    exact nbt_parse_error t rest n mem2 e h1 h2

/-- C5, at four documents: a root name of length -1, a root String of length
-32768, a root ByteArray of length -1, and a Compound whose IntArray member has
length -2147483648 and is followed by further bytes. -/
theorem negative_lengths_rejected_witness :
    nbt_parse [0x01, 0xFF, 0xFF, 0x05] = .error (.errno NBT_ERR)
      ∧ nbt_parse [0x08, 0x00, 0x00, 0x80, 0x00, 0x41] = .error (.errno NBT_ERR)
      ∧ nbt_parse [0x07, 0x00, 0x00, 0xFF, 0xFF, 0xFF, 0xFF] = .error (.errno NBT_ERR)
      ∧ nbt_parse [0x0A, 0x00, 0x00, 0x0B, 0x00, 0x00, 0x80, 0x00, 0x00, 0x00, 0x01, 0x02, 0x00]
          = .error (.errno NBT_ERR) :=
  ⟨(negative_lengths_rejected.1 0xFF 0xFF [0x05] (by decide)).2.2.1 0x01,
    (negative_lengths_rejected.1 0x80 0x00 [0x41] (by decide)).2.2.2.2
      [0x00, 0x00, 0x80, 0x00, 0x41] [] (by rfl),
    (negative_lengths_rejected.2.1 0xFF 0xFF 0xFF 0xFF [] (by decide)).2.2.2.2
      [0x00, 0x00, 0xFF, 0xFF, 0xFF, 0xFF] [] TAG_BYTE_ARRAY (Or.inl rfl) (by rfl),
    negative_lengths_rejected.2.2.2.2 0x0A
      [0x00, 0x00, 0x0B, 0x00, 0x00, 0x80, 0x00, 0x00, 0x00, 0x01, 0x02, 0x00] []
      [0x0B, 0x00, 0x00, 0x80, 0x00, 0x00, 0x00, 0x01, 0x02, 0x00] (.errno NBT_ERR) (by rfl)
      ((negative_lengths_rejected.2.2.2.1 13 10 0x0B (some [])
          [0x00, 0x00, 0x80, 0x00, 0x00, 0x00, 0x01, 0x02, 0x00] []
          [0x80, 0x00, 0x00, 0x00, 0x01, 0x02, 0x00] (.errno NBT_ERR) (by decide) (by rfl)
          (Or.inl ((negative_lengths_rejected.2.1 0x80 0x00 0x00 0x00 [0x01, 0x02, 0x00]
            (by decide)).2.2.2.1 12 (some []) TAG_INT_ARRAY (Or.inr (Or.inl rfl))))).2 rfl)⟩

theorem reports_error_map (α β : Type) (f : α → β) (r : Except Failure α) :
    reports_error (Except.map f r) = reports_error r := by
  match r with
  | .ok _ => rfl
  | .error (.errno s) => cases s <;> rfl
  | .error .undefined => rfl
  | .error .out_of_fuel => rfl

theorem nbt_parse_unknown_root (t : Nat) (rest : List Nat) (ht : ¬ (1 ≤ t ∧ t ≤ 12)) :
    reports_error (nbt_parse (t :: rest)) = true
      ∧ (∀ n mem2 : List Nat, read_string rest = .ok (n, mem2) →
          nbt_parse (t :: rest) = .error (.errno NBT_ERR)) := by
  rw [nbt_parse_root]
  cases hr : read_string rest with
  | error e => exact ⟨reports_error_of _ e (read_string_reports rest e hr), by simp⟩
  | ok r =>
    obtain ⟨n, mem2⟩ := r
    simp [parse_unnamed_tag_unknown _ t (some n) mem2 ht, Except.map, reports_error]

theorem read_compound_loop_unknown (fuel k t : Nat) (rest : List Nat) (ht : ¬ t ≤ 12) :
    reports_error (read_compound_loop (parse_unnamed_tag (fuel + 1)) (k + 1) (t :: rest)) = true
      ∧ (∀ n mem2 : List Nat, read_string rest = .ok (n, mem2) →
          read_compound_loop (parse_unnamed_tag (fuel + 1)) (k + 1) (t :: rest)
            = .error (.errno NBT_ERR)) := by
  rw [read_compound_loop_step _ k t rest (by omega)]
  cases hr : read_string rest with
  | error e => exact ⟨reports_error_of _ e (read_string_reports rest e hr), by simp⟩
  | ok r =>
    obtain ⟨n, mem2⟩ := r
    simp [parse_unnamed_tag_unknown fuel t (some n) mem2 (fun h => ht h.2), reports_error]

/-- C6: an unknown type byte is rejected. At the root, a type byte outside
1..12 makes `nbt_parse` report an error (`NBT_ERR` once the name is read); the
dispatch rejects every type outside 1..12; in a compound, at any iteration of
the loop, a member type byte above 12 makes the loop and the Compound node
report an error; a list payload that declares a kind outside 1..12 with a
positive count is rejected with `NBT_ERR`. The last three parts carry a
failure outward through any enclosing list, compound and the root. -/
theorem unknown_type_bytes_rejected :
    (∀ (t : Nat) (rest : List Nat), ¬ (1 ≤ t ∧ t ≤ 12) →
        reports_error (nbt_parse (t :: rest)) = true
        ∧ (∀ n mem2 : List Nat, read_string rest = .ok (n, mem2) →
            nbt_parse (t :: rest) = .error (.errno NBT_ERR)))
      ∧ (∀ (fuel t : Nat) (name : Option (List Nat)) (mem : List Nat), ¬ (1 ≤ t ∧ t ≤ 12) →
          parse_unnamed_tag (fuel + 1) t name mem = .error (.errno NBT_ERR))
      ∧ (∀ (fuel k t : Nat) (name : Option (List Nat)) (rest : List Nat), ¬ t ≤ 12 →
          reports_error
              (read_compound_loop (parse_unnamed_tag (fuel + 1)) (k + 1) (t :: rest)) = true
          ∧ reports_error (parse_unnamed_tag (fuel + 2) TAG_COMPOUND name (t :: rest)) = true
          ∧ (∀ n mem2 : List Nat, read_string rest = .ok (n, mem2) →
              read_compound_loop (parse_unnamed_tag (fuel + 1)) (k + 1) (t :: rest)
                = .error (.errno NBT_ERR)))
      ∧ (∀ (fuel t b0 b1 b2 b3 : Nat) (name : Option (List Nat)) (rest : List Nat),
          ¬ (1 ≤ t ∧ t ≤ 12) → 0 < to_signed 32 (le_value (be2ne [b0, b1, b2, b3])) →
          parse_unnamed_tag (fuel + 2) TAG_LIST name (t :: b0 :: b1 :: b2 :: b3 :: rest)
            = .error (.errno NBT_ERR))
      ∧ (∀ (fuel : Nat) (name : Option (List Nat)) (t c0 c1 c2 c3 : Nat) (rest : List Nat)
          (i : Nat) (xs : List nbt_node) (mem1 : List Nat) (e : Failure),
          read_list_elems (parse_unnamed_tag fuel t none) i rest = .ok (xs, mem1) →
          parse_unnamed_tag fuel t none mem1 = .error e →
          (i : Int) < to_signed 32 (le_value (be2ne [c0, c1, c2, c3])) →
          parse_unnamed_tag (fuel + 1) TAG_LIST name (t :: c0 :: c1 :: c2 :: c3 :: rest)
            = .error e)
      ∧ (∀ (fuel k t : Nat) (name : Option (List Nat)) (rest n mem2 : List Nat) (e : Failure),
          t ≠ 0 → read_string rest = .ok (n, mem2) →
          (parse_unnamed_tag fuel t (some n) mem2 = .error e
            ∨ ∃ nd mem3, parse_unnamed_tag fuel t (some n) mem2 = .ok (nd, mem3)
                ∧ read_compound_loop (parse_unnamed_tag fuel) k mem3 = .error e) →
          read_compound_loop (parse_unnamed_tag fuel) (k + 1) (t :: rest) = .error e
          ∧ (k = rest.length + 1 →
              parse_unnamed_tag (fuel + 1) TAG_COMPOUND name (t :: rest) = .error e))
      ∧ (∀ (t : Nat) (rest n mem2 : List Nat) (e : Failure),
          read_string rest = .ok (n, mem2) →
          parse_unnamed_tag (rest.length + 2) t (some n) mem2 = .error e →
          nbt_parse (t :: rest) = .error e) := by
  refine ⟨nbt_parse_unknown_root, ?_, ?_, ?_, ?_, ?_, ?_⟩
  · intro fuel t name mem ht
    exact parse_unnamed_tag_unknown fuel t name mem ht
  · intro fuel k t name rest ht
    refine ⟨(read_compound_loop_unknown fuel k t rest ht).1, ?_,
      (read_compound_loop_unknown fuel k t rest ht).2⟩
    rw [parse_unnamed_tag_compound, reports_error_map]
    exact (read_compound_loop_unknown fuel _ t rest ht).1
  · intro fuel t b0 b1 b2 b3 name rest ht h
    exact parse_list_invalid_kind fuel name t b0 b1 b2 b3 rest ht h
  · intro fuel name t c0 c1 c2 c3 rest i xs mem1 e h1 h2 h3
    exact parse_list_element_error fuel name t c0 c1 c2 c3 rest i xs mem1 e h1 h2 h3
  · intro fuel k t name rest n mem2 e ht h1 h2
    have hl := read_compound_loop_error (parse_unnamed_tag fuel) k t rest n mem2 e ht h1 h2
    refine ⟨hl, ?_⟩
    intro hk
    apply parse_compound_error
    simp only [read_compound, List.length_cons]
    rw [← hk]
    exact hl
  · intro t rest n mem2 e h1 h2
    exact nbt_parse_error t rest n mem2 e h1 h2

/-- C6, at three documents: a root of type 13, a Compound whose second member
has type 13, and a List that declares kind 200 with count 2. -/
theorem unknown_type_bytes_rejected_witness :
    nbt_parse [0x0D, 0x00, 0x00, 0x05] = .error (.errno NBT_ERR)
      ∧ nbt_parse [0x0A, 0x00, 0x00, 0x01, 0x00, 0x01, 0x61, 0x07, 0x0D, 0x00, 0x00, 0x00]
          = .error (.errno NBT_ERR)
      ∧ nbt_parse [0x09, 0x00, 0x00, 0xC8, 0x00, 0x00, 0x00, 0x02, 0x01, 0x02]
          = .error (.errno NBT_ERR) :=
  ⟨(unknown_type_bytes_rejected.1 0x0D [0x00, 0x00, 0x05] (by decide)).2 [] [0x05] (by rfl),
    unknown_type_bytes_rejected.2.2.2.2.2.2 0x0A
      [0x00, 0x00, 0x01, 0x00, 0x01, 0x61, 0x07, 0x0D, 0x00, 0x00, 0x00] []
      [0x01, 0x00, 0x01, 0x61, 0x07, 0x0D, 0x00, 0x00, 0x00] (.errno NBT_ERR) (by rfl)
      ((unknown_type_bytes_rejected.2.2.2.2.2.1 12 9 0x01 (some [])
          [0x00, 0x01, 0x61, 0x07, 0x0D, 0x00, 0x00, 0x00] [0x61]
          [0x07, 0x0D, 0x00, 0x00, 0x00] (.errno NBT_ERR) (by decide) (by rfl)
          (Or.inr ⟨nbt_node.tag_byte (some [0x61]) 7, [0x0D, 0x00, 0x00, 0x00], by rfl,
            (unknown_type_bytes_rejected.2.2.1 11 8 0x0D none [0x00, 0x00, 0x00]
              (by decide)).2.2 [] [0x00] (by rfl)⟩)).2 rfl),
    unknown_type_bytes_rejected.2.2.2.2.2.2 0x09
      [0x00, 0x00, 0xC8, 0x00, 0x00, 0x00, 0x02, 0x01, 0x02] []
      [0xC8, 0x00, 0x00, 0x00, 0x02, 0x01, 0x02] (.errno NBT_ERR) (by rfl)
      (unknown_type_bytes_rejected.2.2.2.1 9 0xC8 0x00 0x00 0x00 0x02 (some []) [0x01, 0x02]
        (by decide) (by decide))⟩

/-! ## Byte order of array elements -/

theorem le_bytes_lt (k n b : Nat) (h : b ∈ le_bytes k n) : b < 256 := by
  induction k generalizing n with
  | zero => simp [le_bytes] at h
  | succ k ih =>
    simp only [le_bytes, List.mem_cons] at h
    rcases h with rfl | h
    · omega
    · exact ih _ h

theorem le_value_lt (bs : List Nat) (h : ∀ b ∈ bs, b < 256) : le_value bs < 256 ^ bs.length := by
  induction bs with
  | nil => simp [le_value]
  | cons b bs ih =>
    have hb := h b (by simp)
    have := ih (fun c hc => h c (by simp [hc]))
    simp only [le_value, List.length_cons, pow_succ]
    omega

theorem le_bytes_le_value (bs : List Nat) (h : ∀ b ∈ bs, b < 256) :
    le_bytes bs.length (le_value bs) = bs := by
  induction bs with
  | nil => rfl
  | cons b bs ih =>
    have hb := h b (by simp)
    have := ih (fun c hc => h c (by simp [hc]))
    simp only [List.length_cons, le_bytes, le_value]
    rw [show (b + 256 * le_value bs) % 256 = b by omega,
      show (b + 256 * le_value bs) / 256 = le_value bs by omega, this]

theorem ntohl_lt (u : Nat) : ntohl u < 4294967296 := by
  have := le_value_lt (swap_bytes (le_bytes 4 u))
    (by intro b hb; simp only [swap_bytes, List.mem_reverse] at hb; exact le_bytes_lt _ _ _ hb)
  simpa [ntohl, swap_bytes, le_bytes_length] using this

theorem ntohl_ntohl (u : Nat) (h : u < 4294967296) : ntohl (ntohl u) = u := by
  unfold ntohl
  have h1 : le_bytes 4 (le_value (swap_bytes (le_bytes 4 u))) = swap_bytes (le_bytes 4 u) := by
    have := le_bytes_le_value (swap_bytes (le_bytes 4 u))
      (by intro b hb; simp only [swap_bytes, List.mem_reverse] at hb; exact le_bytes_lt _ _ _ hb)
    simpa [swap_bytes, le_bytes_length] using this
  rw [h1]
  simp only [swap_bytes, List.reverse_reverse, le_value_le_bytes]
  norm_num
  omega

/-- The macro `ntohll` in terms of the bit pattern of its argument. -/
theorem ntohll_eq (x : Int) :
    ntohll x = ntohl (to_unsigned 64 x % 4294967296) * 4294967296
      + ntohl (to_unsigned 64 x / 4294967296) := by
  have hlow : to_unsigned 32 (wrap_int64 (x * 2 ^ 32) / 2 ^ 32) = to_unsigned 64 x % 4294967296 := by
    simp only [to_unsigned, wrap_int64, to_signed]
    norm_num
    split <;> omega
  have hhigh : to_unsigned 32 (x / 2 ^ 32) = to_unsigned 64 x / 4294967296 := by
    simp only [to_unsigned]
    norm_num
    omega
  have h1 := ntohl_lt (to_unsigned 64 x % 4294967296)
  have h2 := ntohl_lt (to_unsigned 64 x / 4294967296)
  simp only [ntohll, hlow, hhigh, Nat.shiftLeft_eq]
  rw [Nat.mod_eq_of_lt (by norm_num; omega)]
  rw [Nat.mul_comm, ← Nat.mul_add_lt_is_or (by norm_num; exact h2)]

theorem ntohll_lt (x : Int) : ntohll x < 18446744073709551616 := by
  have h1 := ntohl_lt (to_unsigned 64 x % 4294967296)
  have h2 := ntohl_lt (to_unsigned 64 x / 4294967296)
  rw [ntohll_eq]; omega

theorem to_unsigned_to_signed_64 (u : Nat) (h : u < 18446744073709551616) :
    to_unsigned 64 (to_signed 64 u) = u := by
  simp only [to_unsigned, to_signed]
  norm_num
  split <;> omega

/-- Applying `ntohll` twice gives back an `int64_t`. -/
theorem ntohll_ntohll (v : Int) (h1 : -9223372036854775808 ≤ v) (h2 : v < 9223372036854775808) :
    to_signed 64 (ntohll (to_signed 64 (ntohll v))) = v := by
  have hu := to_unsigned_lt_64 v
  have ha := ntohl_lt (to_unsigned 64 v % 4294967296)
  have hb := ntohl_lt (to_unsigned 64 v / 4294967296)
  rw [ntohll_eq (to_signed 64 (ntohll v)), to_unsigned_to_signed_64 _ (ntohll_lt v), ntohll_eq v]
  rw [show (ntohl (to_unsigned 64 v % 4294967296) * 4294967296
        + ntohl (to_unsigned 64 v / 4294967296)) % 4294967296
      = ntohl (to_unsigned 64 v / 4294967296) by omega,
    show (ntohl (to_unsigned 64 v % 4294967296) * 4294967296
        + ntohl (to_unsigned 64 v / 4294967296)) / 4294967296
      = ntohl (to_unsigned 64 v % 4294967296) by omega,
    ntohl_ntohl _ (by omega), ntohl_ntohl _ (by omega)]
  rw [show to_unsigned 64 v / 4294967296 * 4294967296 + to_unsigned 64 v % 4294967296
      = to_unsigned 64 v by omega]
  exact to_signed_to_unsigned_64 v h1 h2

/-! ## Reading back what the encoder wrote: strings and arrays -/

theorem string_ok_iff (s : List Nat) :
    string_ok s = true ↔ (∀ b ∈ s, 0 < b ∧ b < 256) ∧ s.length ≤ 32767 := by
  simp [string_ok]

theorem length_field_16 (n : Nat) (h : n ≤ 32767) :
    to_signed 16 (le_value (be2ne [n / 256, n % 256])) = (n : Int) := by
  simp only [be2ne, swap_bytes, List.reverse_cons, List.reverse_nil, List.nil_append,
    List.singleton_append, le_value, to_signed]
  norm_num
  split <;> omega

theorem to_size_t_natCast (n : Nat) (h : n < 4294967296) : to_size_t (n : Int) = n := by
  simp only [to_size_t, to_unsigned]; norm_num; omega

/-- A string written by `dump_string_binary` is read back by `read_string`. -/
theorem read_string_dump (s rest : List Nat) (h : string_ok s = true) :
    dump_string_binary s = .ok ([s.length / 256, s.length % 256] ++ s)
      ∧ read_string ([s.length / 256, s.length % 256] ++ s ++ rest) = .ok (s, rest) := by
  obtain ⟨hb, hl⟩ := (string_ok_iff s).mp h
  have hlen : strlen s = s.length := strlen_eq_length s (fun b hb1 => by have := hb b hb1; omega)
  constructor
  · have := dump_string_binary_ok s (by omega)
    rw [hlen] at this
    simpa using this
  · have hr : READ_GENERIC s.length memscan (s ++ rest) = some (s, rest) :=
      READ_GENERIC_memscan_append s rest
    have hm : malloc_fails (to_size_t ((s.length : Int) + 1)) = false := by
      have : to_size_t ((s.length : Int) + 1) = s.length + 1 := by
        have := to_size_t_natCast (s.length + 1) (by omega)
        simpa using this
      rw [this]
      simp only [malloc_fails, decide_eq_false_iff_not]
      omega
    simp only [List.cons_append, List.nil_append, read_string_header, length_field_16 _ hl,
      to_size_t_natCast _ (show s.length < 4294967296 by omega), hm, hr]
    simp

theorem length_field_32 (v : Int) (h1 : -2147483648 ≤ v) (h2 : v < 2147483648)
    (rest : List Nat) :
    READ_GENERIC 4 swapped_memscan (be2ne (le_bytes 4 (to_unsigned 32 v)) ++ rest)
        = some (le_bytes 4 (to_unsigned 32 v), rest)
      ∧ to_signed 32 (le_value (le_bytes 4 (to_unsigned 32 v))) = v := by
  constructor
  · have := READ_GENERIC_swapped_append (be2ne (le_bytes 4 (to_unsigned 32 v))) rest
    rwa [be2ne_length, le_bytes_length, be2ne_be2ne] at this
  · rw [le_value_le_bytes, Nat.mod_eq_of_lt (by have := to_unsigned_lt_32 v; norm_num; omega)]
    exact to_signed_to_unsigned_32 v h1 h2

theorem flatten_map_length {α : Type} (f : α → List Nat) (k : Nat)
    (h : ∀ v, (f v).length = k) (data : List α) :
    ((data.map f).flatten).length = k * data.length := by
  induction data with
  | nil => simp
  | cons v vs ih => simp [h v, ih, Nat.mul_add, Nat.add_comm]

theorem chunks_flatten_map {α : Type} (f : α → List Nat) (k : Nat)
    (h : ∀ v, (f v).length = k) (data : List α) :
    chunks k data.length ((data.map f).flatten) = data.map f := by
  induction data with
  | nil => simp [chunks]
  | cons v vs ih =>
    simp only [List.map_cons, List.flatten_cons, List.length_cons, chunks]
    rw [List.take_left' (h v), List.drop_left' (h v), ih]

theorem byte_array_roundtrip (data : List Nat) (length : Int) (rest : List Nat)
    (h1 : 0 ≤ length) (h2 : length < 2147483648) (h3 : (data.length : Int) = length) :
    dump_byte_array_binary data length
        = .ok (be2ne (le_bytes 4 (to_unsigned 32 length)) ++ data)
      ∧ read_byte_array (be2ne (le_bytes 4 (to_unsigned 32 length)) ++ data ++ rest)
        = .ok ((data, length), rest) := by
  have hs : to_size_t length = data.length := by
    rw [← h3]; exact to_size_t_natCast _ (by omega)
  have hm : malloc_fails data.length = false := by
    simp only [malloc_fails, decide_eq_false_iff_not]; omega
  obtain ⟨hr, hv⟩ := length_field_32 length (by omega) h2 (data ++ rest)
  constructor
  · simp [dump_byte_array_binary, CHECKED_APPEND, hs, hm]
  · have hn : ¬ length < 0 := by omega
    simp only [read_byte_array, List.append_assoc, hr, hv, hn, if_false, hs, hm,
      READ_GENERIC_memscan_append]
    simp

theorem wrap_int32_small (v : Int) (h1 : -2147483648 ≤ v) (h2 : v < 2147483648) :
    wrap_int32 v = v :=
  to_signed_to_unsigned_32 v h1 h2

theorem int_array_roundtrip (data : List Int) (length : Int) (rest : List Nat)
    (h1 : 0 ≤ length) (h2 : length < 536870912) (h3 : (data.length : Int) = length)
    (h4 : ∀ v ∈ data, -2147483648 ≤ v ∧ v < 2147483648) :
    dump_int_array_binary data length
        = .ok (be2ne (le_bytes 4 (to_unsigned 32 length))
            ++ (data.map (fun v => le_bytes 4 (ntohl (to_unsigned 32 v)))).flatten)
      ∧ read_int_array (be2ne (le_bytes 4 (to_unsigned 32 length))
            ++ (data.map (fun v => le_bytes 4 (ntohl (to_unsigned 32 v)))).flatten ++ rest)
        = .ok ((data, length), rest) := by
  have hn : length.toNat = data.length := by omega
  have hw : wrap_int32 (4 * length) = 4 * length := wrap_int32_small _ (by omega) (by omega)
  have hs : to_size_t (4 * length) = 4 * data.length := by
    have := to_size_t_natCast (4 * data.length) (by omega)
    rw [← this]; congr 1; omega
  have hsl : to_size_t length = data.length := by
    rw [← h3]; exact to_size_t_natCast _ (by omega)
  have hm : malloc_fails (4 * data.length) = false := by
    simp only [malloc_fails, decide_eq_false_iff_not]; omega
  have hlen : ((data.map (fun v => le_bytes 4 (ntohl (to_unsigned 32 v)))).flatten).length
      = 4 * data.length := flatten_map_length _ 4 (fun v => le_bytes_length 4 _) data
  obtain ⟨hr, hv⟩ := length_field_32 length (by omega) (by omega)
    ((data.map (fun v => le_bytes 4 (ntohl (to_unsigned 32 v)))).flatten ++ rest)
  constructor
  · simp [dump_int_array_binary, CHECKED_APPEND, hw, hs, hm, hn, hlen]
  · have hneg : ¬ length < 0 := by omega
    have hrd := READ_GENERIC_memscan_append
      ((data.map (fun v => le_bytes 4 (ntohl (to_unsigned 32 v)))).flatten) rest
    rw [hlen] at hrd
    simp only [read_int_array, List.append_assoc, hr, hv, hneg, if_false, hw, hs, hm, hsl, hrd,
      hn, lt_irrefl, Bool.false_eq_true]
    rw [chunks_flatten_map _ 4 (fun v => le_bytes_length 4 _) data, List.map_map]
    have : data.map ((fun c => to_signed 32 (ntohl (le_value c)))
        ∘ (fun v => le_bytes 4 (ntohl (to_unsigned 32 v)))) = data := by
      conv_rhs => rw [← List.map_id data]
      apply List.map_congr_left
      intro v hv
      obtain ⟨ha, hb⟩ := h4 v hv
      simp only [Function.comp, id, le_value_le_bytes]
      rw [Nat.mod_eq_of_lt (by have := ntohl_lt (to_unsigned 32 v); norm_num; omega),
        ntohl_ntohl _ (to_unsigned_lt_32 v)]
      exact to_signed_to_unsigned_32 v ha hb
    rw [this]

theorem long_array_roundtrip (data : List Int) (length : Int) (rest : List Nat)
    (h1 : 0 ≤ length) (h2 : length < 268435456) (h3 : (data.length : Int) = length)
    (h4 : ∀ v ∈ data, -9223372036854775808 ≤ v ∧ v < 9223372036854775808) :
    dump_long_array_binary data length
        = .ok (be2ne (le_bytes 4 (to_unsigned 32 length))
            ++ (data.map (fun v => le_bytes 8 (ntohll v))).flatten)
      ∧ read_long_array (be2ne (le_bytes 4 (to_unsigned 32 length))
            ++ (data.map (fun v => le_bytes 8 (ntohll v))).flatten ++ rest)
        = .ok ((data, length), rest) := by
  have hn : length.toNat = data.length := by omega
  have hw : wrap_int32 (8 * length) = 8 * length := wrap_int32_small _ (by omega) (by omega)
  have hs : to_size_t (8 * length) = 8 * data.length := by
    have := to_size_t_natCast (8 * data.length) (by omega)
    rw [← this]; congr 1; omega
  have hsl : to_size_t length = data.length := by
    rw [← h3]; exact to_size_t_natCast _ (by omega)
  have hm : malloc_fails (8 * data.length) = false := by
    simp only [malloc_fails, decide_eq_false_iff_not]; omega
  have hlen : ((data.map (fun v => le_bytes 8 (ntohll v))).flatten).length
      = 8 * data.length := flatten_map_length _ 8 (fun v => le_bytes_length 8 _) data
  obtain ⟨hr, hv⟩ := length_field_32 length (by omega) (by omega)
    ((data.map (fun v => le_bytes 8 (ntohll v))).flatten ++ rest)
  constructor
  · simp [dump_long_array_binary, CHECKED_APPEND, hw, hs, hm, hn, hlen]
  · have hneg : ¬ length < 0 := by omega
    have hrd := READ_GENERIC_memscan_append
      ((data.map (fun v => le_bytes 8 (ntohll v))).flatten) rest
    rw [hlen] at hrd
    simp only [read_long_array, List.append_assoc, hr, hv, hneg, if_false, hw, hs, hm, hsl, hrd,
      hn, lt_irrefl, Bool.false_eq_true]
    rw [chunks_flatten_map _ 8 (fun v => le_bytes_length 8 _) data, List.map_map]
    have : data.map ((fun c => to_signed 64 (ntohll (to_signed 64 (le_value c))))
        ∘ (fun v => le_bytes 8 (ntohll v))) = data := by
      conv_rhs => rw [← List.map_id data]
      apply List.map_congr_left
      intro v hv
      obtain ⟨ha, hb⟩ := h4 v hv
      simp only [Function.comp, id, le_value_le_bytes]
      rw [Nat.mod_eq_of_lt (by have := ntohll_lt v; norm_num; omega)]
      exact ntohll_ntohll v ha hb
    rw [this]

/-! ## Reading back what the encoder wrote: nodes -/

/-- The scalar, string and array cases of `parse_unnamed_tag`. -/
theorem parse_unnamed_tag_leaf (fuel : Nat) (name : Option (List Nat)) (mem : List Nat) :
    parse_unnamed_tag (fuel + 1) TAG_BYTE name mem
        = (COPY_INTO_PAYLOAD 1 mem).map
            (fun r => (nbt_node.tag_byte name (to_signed 8 r.1), r.2))
      ∧ parse_unnamed_tag (fuel + 1) TAG_SHORT name mem
        = (COPY_INTO_PAYLOAD 2 mem).map
            (fun r => (nbt_node.tag_short name (to_signed 16 r.1), r.2))
      ∧ parse_unnamed_tag (fuel + 1) TAG_INT name mem
        = (COPY_INTO_PAYLOAD 4 mem).map
            (fun r => (nbt_node.tag_int name (to_signed 32 r.1), r.2))
      ∧ parse_unnamed_tag (fuel + 1) TAG_LONG name mem
        = (COPY_INTO_PAYLOAD 8 mem).map
            (fun r => (nbt_node.tag_long name (to_signed 64 r.1), r.2))
      ∧ parse_unnamed_tag (fuel + 1) TAG_FLOAT name mem
        = (COPY_INTO_PAYLOAD 4 mem).map (fun r => (nbt_node.tag_float name r.1, r.2))
      ∧ parse_unnamed_tag (fuel + 1) TAG_DOUBLE name mem
        = (COPY_INTO_PAYLOAD 8 mem).map (fun r => (nbt_node.tag_double name r.1, r.2))
      ∧ parse_unnamed_tag (fuel + 1) TAG_BYTE_ARRAY name mem
        = (read_byte_array mem).map
            (fun r => (nbt_node.tag_byte_array name r.1.1 r.1.2, r.2))
      ∧ parse_unnamed_tag (fuel + 1) TAG_STRING name mem
        = (read_string mem).map (fun r => (nbt_node.tag_string name r.1, r.2))
      ∧ parse_unnamed_tag (fuel + 1) TAG_INT_ARRAY name mem
        = (read_int_array mem).map
            (fun r => (nbt_node.tag_int_array name r.1.1 r.1.2, r.2))
      ∧ parse_unnamed_tag (fuel + 1) TAG_LONG_ARRAY name mem
        = (read_long_array mem).map
            (fun r => (nbt_node.tag_long_array name r.1.1 r.1.2, r.2)) :=
  ⟨rfl, rfl, rfl, rfl, rfl, rfl, rfl, rfl, rfl, rfl⟩

theorem roundtrip_byte (name : Option (List Nat)) (v : Int) (h1 : -128 ≤ v) (h2 : v < 128)
    (fuel : Nat) (rest : List Nat) :
    parse_unnamed_tag (fuel + 1) TAG_BYTE name (DUMP_NUM 1 (to_unsigned 8 v) ++ rest)
      = .ok (nbt_node.tag_byte name v, rest) := by
  rw [(parse_unnamed_tag_leaf fuel name _).1,
    COPY_INTO_PAYLOAD_DUMP_NUM 1 _ rest (by have := to_unsigned_lt_8 v; omega)]
  simp [Except.map, to_signed_to_unsigned_8 v h1 h2]

theorem roundtrip_short (name : Option (List Nat)) (v : Int) (h1 : -32768 ≤ v)
    (h2 : v < 32768) (fuel : Nat) (rest : List Nat) :
    parse_unnamed_tag (fuel + 1) TAG_SHORT name (DUMP_NUM 2 (to_unsigned 16 v) ++ rest)
      = .ok (nbt_node.tag_short name v, rest) := by
  rw [(parse_unnamed_tag_leaf fuel name _).2.1,
    COPY_INTO_PAYLOAD_DUMP_NUM 2 _ rest (by have := to_unsigned_lt_16 v; omega)]
  simp [Except.map, to_signed_to_unsigned_16 v h1 h2]

theorem roundtrip_int (name : Option (List Nat)) (v : Int) (h1 : -2147483648 ≤ v)
    (h2 : v < 2147483648) (fuel : Nat) (rest : List Nat) :
    parse_unnamed_tag (fuel + 1) TAG_INT name (DUMP_NUM 4 (to_unsigned 32 v) ++ rest)
      = .ok (nbt_node.tag_int name v, rest) := by
  rw [(parse_unnamed_tag_leaf fuel name _).2.2.1,
    COPY_INTO_PAYLOAD_DUMP_NUM 4 _ rest (by have := to_unsigned_lt_32 v; omega)]
  simp [Except.map, to_signed_to_unsigned_32 v h1 h2]

theorem roundtrip_long (name : Option (List Nat)) (v : Int) (h1 : -9223372036854775808 ≤ v)
    (h2 : v < 9223372036854775808) (fuel : Nat) (rest : List Nat) :
    parse_unnamed_tag (fuel + 1) TAG_LONG name (DUMP_NUM 8 (to_unsigned 64 v) ++ rest)
      = .ok (nbt_node.tag_long name v, rest) := by
  rw [(parse_unnamed_tag_leaf fuel name _).2.2.2.1,
    COPY_INTO_PAYLOAD_DUMP_NUM 8 _ rest (by have := to_unsigned_lt_64 v; omega)]
  simp [Except.map, to_signed_to_unsigned_64 v h1 h2]

theorem roundtrip_float (name : Option (List Nat)) (bits : Nat) (h : bits < 4294967296)
    (fuel : Nat) (rest : List Nat) :
    parse_unnamed_tag (fuel + 1) TAG_FLOAT name (DUMP_NUM 4 bits ++ rest)
      = .ok (nbt_node.tag_float name bits, rest) := by
  rw [(parse_unnamed_tag_leaf fuel name _).2.2.2.2.1,
    COPY_INTO_PAYLOAD_DUMP_NUM 4 _ rest (by omega)]
  simp [Except.map]

theorem roundtrip_double (name : Option (List Nat)) (bits : Nat)
    (h : bits < 18446744073709551616) (fuel : Nat) (rest : List Nat) :
    parse_unnamed_tag (fuel + 1) TAG_DOUBLE name (DUMP_NUM 8 bits ++ rest)
      = .ok (nbt_node.tag_double name bits, rest) := by
  rw [(parse_unnamed_tag_leaf fuel name _).2.2.2.2.2.1,
    COPY_INTO_PAYLOAD_DUMP_NUM 8 _ rest (by omega)]
  simp [Except.map]

theorem follows_name_ok (named : Bool) (x : nbt_node) (h : follows_data_model named x = true) :
    name_ok named x.name = true := by
  cases x <;> simp only [follows_data_model, Bool.and_eq_true] at h <;>
    simp only [nbt_node.name] <;> tauto

theorem type_range (x : nbt_node) : 1 ≤ x.type ∧ x.type ≤ 12 := by
  cases x <;> simp only [nbt_node.type] <;> exact ⟨by decide, by decide⟩

theorem type_byte (t : Nat) (h : t ≤ 12) : le_bytes 1 (to_unsigned 8 (t : Int)) = [t] := by
  have : to_unsigned 8 (t : Int) = t := by
    simp only [to_unsigned]; norm_num; omega
  rw [this]
  simp only [le_bytes]
  rw [Nat.mod_eq_of_lt (by omega)]

/-- The header of a list element: nothing is written. -/
theorem dump_header_unnamed (x : nbt_node) (h : follows_data_model false x = true) :
    x.name = none ∧ dump_header x false = .ok [] := by
  have hn := follows_name_ok false x h
  cases hx : x.name with
  | none => simp [dump_header, hx]
  | some n => simp [name_ok, hx] at hn

/-- The header of the root and of a compound member: the type byte and the
name. -/
theorem dump_header_named (x : nbt_node) (h : follows_data_model true x = true) :
    ∃ n, x.name = some n ∧ string_ok n = true
      ∧ dump_header x true = .ok (x.type :: ([n.length / 256, n.length % 256] ++ n)) := by
  have hn := follows_name_ok true x h
  cases hx : x.name with
  | none => simp [name_ok, hx] at hn
  | some n =>
    have hs : string_ok n = true := by simpa [name_ok, hx] using hn
    refine ⟨n, rfl, hs, ?_⟩
    simp [dump_header, hx, (read_string_dump n [] hs).1, type_byte _ (type_range x).2]

theorem entries_follow_type (named : Bool) (ty : nbt_type) (l : List nbt_node)
    (h : entries_follow named (some ty) l = true) : ∀ c ∈ l, c.type = ty := by
  induction l with
  | nil => simp
  | cons x xs ih =>
    simp only [entries_follow, Bool.and_eq_true, decide_eq_true_eq] at h
    intro c hc
    rcases List.mem_cons.mp hc with rfl | hm
    · exact h.1.1
    · exact ih h.2 c hm

theorem list_is_homogenous_loop_all (ty : nbt_type) (hty : ty ≠ TAG_INVALID)
    (l : List nbt_node) (h : ∀ c ∈ l, c.type = ty) :
    list_is_homogenous_loop ty l = some ty
      ∧ (l ≠ [] → list_is_homogenous_loop TAG_INVALID l = some ty) := by
  have key : list_is_homogenous_loop ty l = some ty := by
    induction l with
    | nil => rfl
    | cons x xs ih =>
      have hx := h x (by simp)
      simp only [list_is_homogenous_loop, hx, hty, if_false, ne_eq, not_true_eq_false]
      exact ih (fun c hc => h c (by simp [hc]))
  refine ⟨key, ?_⟩
  intro hne
  cases l with
  | nil => exact absurd rfl hne
  | cons x xs =>
    have hx := h x (by simp)
    have hk := key
    simp only [list_is_homogenous_loop, hx, hty, if_false, ne_eq, not_true_eq_false] at hk
    simp only [list_is_homogenous_loop, hx, hty, if_false, if_true, ne_eq, not_true_eq_false]
    exact hk

theorem list_is_homogenous_all (ty : nbt_type) (hty : ty ≠ TAG_INVALID)
    (l : List nbt_node) (h : ∀ c ∈ l, c.type = ty) : list_is_homogenous ty l = ty := by
  cases l with
  | nil => simp [list_is_homogenous, list_is_homogenous_loop]
  | cons x xs =>
    have := (list_is_homogenous_loop_all ty hty (x :: xs) h).2 (by simp)
    simp [list_is_homogenous, this, hty]

theorem fuel_succ (fuel n : Nat) (h : n < fuel) : ∃ f, fuel = f + 1 :=
  ⟨fuel - 1, by omega⟩

/-- The list header the encoder writes for a homogeneous list. -/
theorem dump_list_payload (type : nbt_type) (list : List nbt_node) (body : List Nat)
    (ht : 1 ≤ type ∧ type ≤ 12) (hlen : list.length ≤ 2147483647)
    (hall : ∀ c ∈ list, c.type = type) (hd : dump_entries list false = .ok body) :
    dump_list_binary type list (dump_entries list false)
      = .ok ([type] ++ be2ne (le_bytes 4 (to_unsigned 32 list.length)) ++ body) := by
  have hty : type ≠ TAG_INVALID := by
    intro h
    rw [h] at ht
    exact absurd ht.1 (by decide)
  have hhom := list_is_homogenous_all type hty list hall
  have h1 : ¬ list.length > 2147483647 := by omega
  simp [dump_list_binary, hhom, hty, h1, hd, type_byte type ht.2, be2ne, swap_bytes]

/-- A list payload whose elements the element parser reads back. -/
theorem parse_list_payload (fuel : Nat) (name : Option (List Nat)) (type : nbt_type)
    (list : List nbt_node) (body rest : List Nat) (ht : 1 ≤ type ∧ type ≤ 12)
    (hlen : list.length ≤ 2147483647)
    (hp : read_list_elems (parse_unnamed_tag fuel type none) list.length (body ++ rest)
      = .ok (list, rest)) :
    parse_unnamed_tag (fuel + 1) TAG_LIST name
        ([type] ++ be2ne (le_bytes 4 (to_unsigned 32 list.length)) ++ body ++ rest)
      = .ok (nbt_node.tag_list name type list, rest) := by
  have hty : type ≠ TAG_INVALID := by
    intro h
    rw [h] at ht
    exact absurd ht.1 (by decide)
  obtain ⟨hr, hv⟩ := length_field_32 (list.length : Int) (by omega) (by omega) (body ++ rest)
  rw [parse_unnamed_tag_list]
  simp only [read_list, List.cons_append, List.nil_append, List.append_assoc,
    READ_GENERIC_one _ (Or.inr rfl), hr, hv, le_value_singleton, Int.toNat_ofNat, hp]
  simp [Except.map, hty]

theorem read_compound_loop_end
    (p : nbt_type → Option (List Nat) → List Nat → Except Failure (nbt_node × List Nat))
    (k : Nat) (rest : List Nat) :
    read_compound_loop p (k + 1) (0 :: rest) = .ok ([], rest) := by
  simp [read_compound_loop, READ_GENERIC_one _ (Or.inr rfl), le_value_singleton]

mutual

/-- The payload of a tree that follows the data model and is within the size
limits is encoded, and the payload parser reads the tree back from the
encoding, leaving what follows it. -/
theorem payload_roundtrip : (x : nbt_node) → (named : Bool) →
    follows_data_model named x = true → within_limits x = true →
    ∃ p, dump_payload x = .ok p ∧ ∀ fuel rest, p.length < fuel →
      parse_unnamed_tag fuel x.type x.name (p ++ rest) = .ok (x, rest)
  | .tag_byte n v, named, h, _ => by
    simp only [follows_data_model, Bool.and_eq_true, decide_eq_true_eq] at h
    refine ⟨_, rfl, ?_⟩
    intro fuel rest hf
    obtain ⟨f, rfl⟩ := fuel_succ _ _ hf
    exact roundtrip_byte n v h.2.1 h.2.2 f rest
  | .tag_short n v, named, h, _ => by
    simp only [follows_data_model, Bool.and_eq_true, decide_eq_true_eq] at h
    refine ⟨_, rfl, ?_⟩
    intro fuel rest hf
    obtain ⟨f, rfl⟩ := fuel_succ _ _ hf
    exact roundtrip_short n v h.2.1 h.2.2 f rest
  | .tag_int n v, named, h, _ => by
    simp only [follows_data_model, Bool.and_eq_true, decide_eq_true_eq] at h
    refine ⟨_, rfl, ?_⟩
    intro fuel rest hf
    obtain ⟨f, rfl⟩ := fuel_succ _ _ hf
    exact roundtrip_int n v h.2.1 h.2.2 f rest
  | .tag_long n v, named, h, _ => by
    simp only [follows_data_model, Bool.and_eq_true, decide_eq_true_eq] at h
    refine ⟨_, rfl, ?_⟩
    intro fuel rest hf
    obtain ⟨f, rfl⟩ := fuel_succ _ _ hf
    exact roundtrip_long n v h.2.1 h.2.2 f rest
  | .tag_float n bits, named, h, _ => by
    simp only [follows_data_model, Bool.and_eq_true, decide_eq_true_eq] at h
    refine ⟨_, rfl, ?_⟩
    intro fuel rest hf
    obtain ⟨f, rfl⟩ := fuel_succ _ _ hf
    exact roundtrip_float n bits h.2 f rest
  | .tag_double n bits, named, h, _ => by
    simp only [follows_data_model, Bool.and_eq_true, decide_eq_true_eq] at h
    refine ⟨_, rfl, ?_⟩
    intro fuel rest hf
    obtain ⟨f, rfl⟩ := fuel_succ _ _ hf
    exact roundtrip_double n bits h.2 f rest
  | .tag_byte_array n data length, named, h, _ => by
    simp only [follows_data_model, Bool.and_eq_true, decide_eq_true_eq] at h
    obtain ⟨⟨⟨_, h1, h2⟩, h3⟩, _⟩ := h
    refine ⟨_, (byte_array_roundtrip data length [] h1 h2 h3).1, ?_⟩
    intro fuel rest hf
    obtain ⟨f, rfl⟩ := fuel_succ _ _ hf
    show parse_unnamed_tag (f + 1) TAG_BYTE_ARRAY n _ = _
    rw [(parse_unnamed_tag_leaf f n _).2.2.2.2.2.2.1,
      (byte_array_roundtrip data length rest h1 h2 h3).2]
    rfl
  | .tag_string n s, named, h, _ => by
    simp only [follows_data_model, Bool.and_eq_true] at h
    refine ⟨_, (read_string_dump s [] h.2).1, ?_⟩
    intro fuel rest hf
    obtain ⟨f, rfl⟩ := fuel_succ _ _ hf
    show parse_unnamed_tag (f + 1) TAG_STRING n _ = _
    rw [(parse_unnamed_tag_leaf f n _).2.2.2.2.2.2.2.1, (read_string_dump s rest h.2).2]
    rfl
  | .tag_list n type list, named, h, hl => by
    simp only [follows_data_model, Bool.and_eq_true, decide_eq_true_eq] at h
    simp only [within_limits, Bool.and_eq_true, decide_eq_true_eq] at hl
    obtain ⟨body, hd, hp⟩ := (entries_roundtrip list hl.2).1 type h.2
    refine ⟨_, dump_list_payload type list body h.1.2 hl.1
      (entries_follow_type false type list h.2) hd, ?_⟩
    intro fuel rest hf
    obtain ⟨f, rfl⟩ := fuel_succ _ _ hf
    have hb : body.length < f := by
      simp only [List.length_append, List.length_cons, List.length_nil, be2ne_length,
        le_bytes_length] at hf
      omega
    exact parse_list_payload f n type list body rest h.1.2 hl.1 (hp f rest hb)
  | .tag_compound n list, named, h, hl => by
    simp only [follows_data_model, Bool.and_eq_true] at h
    simp only [within_limits] at hl
    obtain ⟨body, hd, hp⟩ := (entries_roundtrip list hl).2 h.2
    refine ⟨body ++ [0], by simp [dump_payload, dump_compound_binary, hd], ?_⟩
    intro fuel rest hf
    obtain ⟨f, rfl⟩ := fuel_succ _ _ hf
    have hb : body.length < f := by
      simp only [List.length_append, List.length_cons, List.length_nil] at hf
      omega
    show parse_unnamed_tag (f + 1) TAG_COMPOUND n _ = _
    rw [parse_unnamed_tag_compound]
    have := hp f ((body ++ [0] ++ rest).length + 1) rest hb
      (by simp only [List.length_append]; omega)
    simp only [read_compound, List.append_assoc, List.singleton_append] at this ⊢
    rw [this]
    rfl
  | .tag_int_array n data length, named, h, hl => by
    simp only [follows_data_model, Bool.and_eq_true, decide_eq_true_eq, List.all_eq_true] at h
    simp only [within_limits, decide_eq_true_eq] at hl
    obtain ⟨⟨⟨_, h1, _⟩, h3⟩, h4⟩ := h
    refine ⟨_, (int_array_roundtrip data length [] h1 hl h3 h4).1, ?_⟩
    intro fuel rest hf
    obtain ⟨f, rfl⟩ := fuel_succ _ _ hf
    show parse_unnamed_tag (f + 1) TAG_INT_ARRAY n _ = _
    rw [(parse_unnamed_tag_leaf f n _).2.2.2.2.2.2.2.2.1,
      (int_array_roundtrip data length rest h1 hl h3 h4).2]
    rfl
  | .tag_long_array n data length, named, h, hl => by
    simp only [follows_data_model, Bool.and_eq_true, decide_eq_true_eq, List.all_eq_true] at h
    simp only [within_limits, decide_eq_true_eq] at hl
    obtain ⟨⟨⟨_, h1, _⟩, h3⟩, h4⟩ := h
    refine ⟨_, (long_array_roundtrip data length [] h1 hl h3 h4).1, ?_⟩
    intro fuel rest hf
    obtain ⟨f, rfl⟩ := fuel_succ _ _ hf
    show parse_unnamed_tag (f + 1) TAG_LONG_ARRAY n _ = _
    rw [(parse_unnamed_tag_leaf f n _).2.2.2.2.2.2.2.2.2,
      (long_array_roundtrip data length rest h1 hl h3 h4).2]
    rfl

/-- The entries of a list, and the members of a compound, are encoded one
after the other and read back in the same order. -/
theorem entries_roundtrip : (l : List nbt_node) → entries_within_limits l = true →
    (∀ ty, entries_follow false (some ty) l = true →
      ∃ body, dump_entries l false = .ok body ∧ ∀ fuel rest, body.length < fuel →
        read_list_elems (parse_unnamed_tag fuel ty none) l.length (body ++ rest)
          = .ok (l, rest))
    ∧ (entries_follow true none l = true →
      ∃ body, dump_entries l true = .ok body ∧ ∀ fuel k rest, body.length < fuel →
        body.length < k →
        read_compound_loop (parse_unnamed_tag fuel) k (body ++ 0 :: rest) = .ok (l, rest))
  | [], _ => by
    refine ⟨fun ty _ => ⟨[], rfl, fun fuel rest _ => rfl⟩, fun _ => ⟨[], rfl, ?_⟩⟩
    intro fuel k rest _ hk
    obtain ⟨k1, rfl⟩ := fuel_succ _ _ hk
    exact read_compound_loop_end _ k1 rest
  | x :: xs, hl => by
    simp only [entries_within_limits, Bool.and_eq_true] at hl
    have ihxs := entries_roundtrip xs hl.2
    constructor
    · intro ty hf
      simp only [entries_follow, Bool.and_eq_true, decide_eq_true_eq] at hf
      obtain ⟨⟨hty, hfx⟩, hfxs⟩ := hf
      obtain ⟨p, hdp, hpp⟩ := payload_roundtrip x false hfx hl.1
      obtain ⟨body, hdb, hpb⟩ := ihxs.1 ty hfxs
      obtain ⟨hname, hhead⟩ := dump_header_unnamed x hfx
      refine ⟨p ++ body, by simp [dump_entries, hhead, hdp, hdb], ?_⟩
      intro fuel rest hfuel
      simp only [List.length_append] at hfuel
      have h1 := hpp fuel (body ++ rest) (by omega)
      rw [hty, hname] at h1
      have h2 := hpb fuel rest (by omega)
      simp only [List.length_cons, read_list_elems, List.append_assoc, h1, h2]
    · intro hf
      simp only [entries_follow, Bool.and_eq_true, Bool.true_and] at hf
      obtain ⟨hfx, hfxs⟩ := hf
      obtain ⟨p, hdp, hpp⟩ := payload_roundtrip x true hfx hl.1
      obtain ⟨body, hdb, hpb⟩ := ihxs.2 hfxs
      obtain ⟨n, hname, hsn, hhead⟩ := dump_header_named x hfx
      refine ⟨x.type :: ([n.length / 256, n.length % 256] ++ n) ++ p ++ body,
        by simp [dump_entries, hhead, hdp, hdb], ?_⟩
      intro fuel k rest hfuel hk
      simp only [List.length_append, List.length_cons] at hfuel hk
      obtain ⟨k1, rfl⟩ := fuel_succ _ _ hk
      have h1 := hpp fuel (body ++ 0 :: rest) (by omega)
      rw [hname] at h1
      have h2 := hpb fuel k1 rest (by omega) (by omega)
      have h3 := (read_string_dump n (p ++ (body ++ 0 :: rest)) hsn).2
      have ht : x.type ≠ 0 := Nat.pos_iff_ne_zero.mp (type_range x).1
      simp only [List.cons_append, List.append_assoc, List.nil_append] at h3 ⊢
      rw [read_compound_loop_step _ k1 x.type _ ht, h3]
      simp only [h1, h2]

end

/-! ## The round trip -/

/-- C1 (as amended): a tree that follows the data model (the root and every
compound member named, list elements unnamed, every list of a declared kind
that is the kind of all its children, strings and names of at most 32767
bytes, array lengths non-negative) and that stays within the size limits of
the encoder (at most 2147483647 children in a list, fewer than 536870912
elements in an IntArray and fewer than 268435456 in a LongArray) is encoded by
`nbt_dump_binary`, and `nbt_parse` of the bytes produced, followed by any
further bytes or none, returns that tree. -/
theorem binary_roundtrip (x : nbt_node) (h : follows_data_model true x = true)
    (hl : within_limits x = true) :
    ∃ e, nbt_dump_binary (some x) = .ok e ∧ nbt_parse e = .ok x
      ∧ ∀ rest, nbt_parse (e ++ rest) = .ok x := by
  obtain ⟨n, hname, hsn, hhead⟩ := dump_header_named x h
  obtain ⟨p, hdp, hpp⟩ := payload_roundtrip x true h hl
  have key : ∀ rest,
      nbt_parse (x.type :: ([n.length / 256, n.length % 256] ++ n) ++ p ++ rest) = .ok x := by
    intro rest
    have h1 := (read_string_dump n (p ++ rest) hsn).2
    have h2 := hpp (([n.length / 256, n.length % 256] ++ n ++ (p ++ rest)).length + 2)
      rest (by simp only [List.length_append]; omega)
    rw [hname] at h2
    simp only [List.cons_append, List.append_assoc, List.nil_append] at h1 h2 ⊢
    rw [nbt_parse_root, h1]
    simp only [List.length_cons, List.length_append] at h2 ⊢
    rw [h2]
    rfl
  refine ⟨x.type :: ([n.length / 256, n.length % 256] ++ n) ++ p, ?_, ?_, key⟩
  · simp [nbt_dump_binary, __dump_binary, hhead, hdp]
  · have := key []
    rwa [List.append_nil] at this

/-- C1 (as amended), at a document with a compound, a list of shorts, a
string, a byte array and a long array. -/
theorem binary_roundtrip_witness :
    ∃ e, nbt_dump_binary (some
        (nbt_node.tag_compound (some (c_string "Level"))
          [nbt_node.tag_list (some (c_string "xs")) TAG_SHORT
              [nbt_node.tag_short none (-2), nbt_node.tag_short none 300],
            nbt_node.tag_string (some (c_string "id")) (c_string "pig"),
            nbt_node.tag_byte_array (some (c_string "b")) [0, 255] 2,
            nbt_node.tag_long_array (some (c_string "l")) [-1, 4294967296] 2])) = .ok e
      ∧ nbt_parse e = .ok
        (nbt_node.tag_compound (some (c_string "Level"))
          [nbt_node.tag_list (some (c_string "xs")) TAG_SHORT
              [nbt_node.tag_short none (-2), nbt_node.tag_short none 300],
            nbt_node.tag_string (some (c_string "id")) (c_string "pig"),
            nbt_node.tag_byte_array (some (c_string "b")) [0, 255] 2,
            nbt_node.tag_long_array (some (c_string "l")) [-1, 4294967296] 2])
      ∧ ∀ rest, nbt_parse (e ++ rest) = .ok
        (nbt_node.tag_compound (some (c_string "Level"))
          [nbt_node.tag_list (some (c_string "xs")) TAG_SHORT
              [nbt_node.tag_short none (-2), nbt_node.tag_short none 300],
            nbt_node.tag_string (some (c_string "id")) (c_string "pig"),
            nbt_node.tag_byte_array (some (c_string "b")) [0, 255] 2,
            nbt_node.tag_long_array (some (c_string "l")) [-1, 4294967296] 2]) :=
  binary_roundtrip _ (by rfl) (by rfl)

theorem entries_follow_replicate (n : Nat) :
    entries_follow false (some TAG_BYTE) (List.replicate n (nbt_node.tag_byte none 0))
      = true := by
  induction n with
  | zero => rfl
  | succ n ih =>
    rw [List.replicate_succ]
    simp only [entries_follow, ih, follows_data_model, name_ok, nbt_node.type]
    decide

theorem follows_data_model_replicate (n : Nat) :
    follows_data_model true
        (nbt_node.tag_list (some []) TAG_BYTE (List.replicate n (nbt_node.tag_byte none 0)))
      = true := by
  simp only [follows_data_model, entries_follow_replicate, name_ok, string_ok]
  decide

theorem dump_binary_long_list (name : Option (List Nat)) (type : nbt_type)
    (list : List nbt_node) (dump_type : Bool) (h : 2147483647 < list.length) :
    __dump_binary (nbt_node.tag_list name type list) dump_type = .error (.errno NBT_ERR) := by
  unfold __dump_binary
  cases hh : dump_header (nbt_node.tag_list name type list) dump_type with
  | error e => simp [dump_header_error _ _ _ hh]
  | ok bytes => simp [dump_payload, dump_list_binary, h]

theorem nbt_dump_binary_long_list (name : Option (List Nat)) (type : nbt_type)
    (list : List nbt_node) (h : 2147483647 < list.length) :
    nbt_dump_binary (some (nbt_node.tag_list name type list)) = .error (.errno NBT_ERR) :=
  dump_binary_long_list name type list true h

/-- C1 (as stated) fails: the List named "" of 2147483648 Byte children follows
the data model as the claim lists it, and `nbt_dump_binary` rejects it with
`NBT_ERR`, because a list of more than `INT_MAX` children is not encoded. -/
theorem binary_roundtrip_long_list_rejected :
    follows_data_model true
        (nbt_node.tag_list (some []) TAG_BYTE
          (List.replicate 2147483648 (nbt_node.tag_byte none 0))) = true
      ∧ nbt_dump_binary (some
          (nbt_node.tag_list (some []) TAG_BYTE
            (List.replicate 2147483648 (nbt_node.tag_byte none 0))))
        = .error (.errno NBT_ERR) :=
  ⟨follows_data_model_replicate 2147483648,
    nbt_dump_binary_long_list (some []) TAG_BYTE
      (List.replicate 2147483648 (nbt_node.tag_byte none 0))
      (by rw [List.length_replicate]; decide)⟩

/-! ## Truncated input -/

/-- C4, at its failing input: the empty List of Bytes named "" follows the data
model and is encoded as `09 00 00 01 00 00 00 00`; on the strict prefixes
`09 00 00` and `09 00 00 01 00 00`, which end inside the list header,
`nbt_parse` does not report an error: `read_list` passes its uninitialised
`ret.list` to `nbt_free_list`, and the behaviour is undefined. On the prefix
`09 00`, which ends inside the name, and on the empty buffer the error is
reported. -/
theorem truncated_list_header_undefined :
    follows_data_model true (nbt_node.tag_list (some []) TAG_BYTE []) = true
      ∧ nbt_dump_binary (some (nbt_node.tag_list (some []) TAG_BYTE []))
          = .ok [0x09, 0x00, 0x00, 0x01, 0x00, 0x00, 0x00, 0x00]
      ∧ nbt_parse [0x09, 0x00, 0x00] = .error .undefined
      ∧ nbt_parse [0x09, 0x00, 0x00, 0x01, 0x00, 0x00] = .error .undefined
      ∧ nbt_parse [0x09, 0x00] = .error (.errno NBT_ERR)
      ∧ nbt_parse [] = .error (.errno NBT_ERR) := by
  refine ⟨by rfl, by rfl, by rfl, by rfl, by rfl, by rfl⟩

/-! ## The framing of the root -/

theorem dump_header_root (x : nbt_node) (h : List Nat) (hh : dump_header x true = .ok h) :
    (∀ n, x.name = some n →
        strlen n ≤ 32767 ∧ h = x.type :: ([strlen n / 256, strlen n % 256] ++ n.take (strlen n)))
      ∧ (x.name = none → h = [x.type]) := by
  unfold dump_header at hh
  rw [type_byte _ (type_range x).2] at hh
  cases hn : x.name with
  | none =>
    simp only [hn, if_true, Except.ok.injEq] at hh
    exact ⟨fun n hn' => by simp at hn', fun _ => hh.symm⟩
  | some name =>
    simp only [hn, if_true] at hh
    refine ⟨?_, fun hn' => by simp at hn'⟩
    intro n hn'
    obtain rfl : name = n := by simpa using hn'
    by_cases hl : strlen name ≤ 32767
    · rw [dump_string_binary_ok name hl] at hh
      simp only [Except.ok.injEq] at hh
      exact ⟨hl, by rw [← hh]; rfl⟩
    · rw [dump_string_binary_error name (by omega)] at hh
      simp at hh

/-- C11 (as amended): when `nbt_dump_binary` succeeds on a root, the payload is
encoded by itself and the output is the kind byte of the root, then, if the
root has a name, the two big-endian bytes of the length of the name and the
bytes of the name, then the payload; a root without a name gets the kind byte
followed at once by the payload. The kind byte is always written. -/
theorem root_framing (x : nbt_node) (e : List Nat) (h : nbt_dump_binary (some x) = .ok e) :
    ∃ p, dump_payload x = .ok p
      ∧ (∀ n, x.name = some n →
          strlen n ≤ 32767
          ∧ e = [x.type] ++ [strlen n / 256, strlen n % 256] ++ n.take (strlen n) ++ p)
      ∧ (x.name = none → e = [x.type] ++ p) := by
  simp only [nbt_dump_binary, __dump_binary] at h
  cases hh : dump_header x true with
  | error err => simp [hh] at h
  | ok hd =>
    cases hp : dump_payload x with
    | error err => simp [hh, hp] at h
    | ok p =>
      simp only [hh, hp, Except.ok.injEq] at h
      obtain ⟨h1, h2⟩ := dump_header_root x hd hh
      refine ⟨p, rfl, ?_, ?_⟩
      · intro n hn
        obtain ⟨hl, hd'⟩ := h1 n hn
        exact ⟨hl, by rw [← h, hd']; simp⟩
      · intro hn
        rw [← h, h2 hn]

/-- C11 (as amended), at the Byte named "A". -/
theorem root_framing_witness :
    ∃ p, dump_payload (nbt_node.tag_byte (some (c_string "A")) 5) = .ok p
      ∧ (∀ n, (nbt_node.tag_byte (some (c_string "A")) 5).name = some n →
          strlen n ≤ 32767
          ∧ [0x01, 0x00, 0x01, 0x41, 0x05]
            = [(nbt_node.tag_byte (some (c_string "A")) 5).type]
              ++ [strlen n / 256, strlen n % 256] ++ n.take (strlen n) ++ p)
      ∧ ((nbt_node.tag_byte (some (c_string "A")) 5).name = none →
          [0x01, 0x00, 0x01, 0x41, 0x05]
            = [(nbt_node.tag_byte (some (c_string "A")) 5).type] ++ p) :=
  root_framing (nbt_node.tag_byte (some (c_string "A")) 5) [0x01, 0x00, 0x01, 0x41, 0x05]
    (by rfl)

/-- C11 (as stated) fails: `nbt_dump_binary` succeeds on the Byte root without a
name and gives the two bytes `01 05`, the kind byte and the payload; no name
length and no name is written. -/
theorem root_without_name_unframed :
    (nbt_node.tag_byte none 5).name = none
      ∧ dump_payload (nbt_node.tag_byte none 5) = .ok [0x05]
      ∧ nbt_dump_binary (some (nbt_node.tag_byte none 5)) = .ok [0x01, 0x05] := by
  refine ⟨by rfl, by rfl, by rfl⟩

/-! ## The order of the slots -/

theorem mem_slot_order (x z : Nat) : (x, z) ∈ slot_order ↔ x < 32 ∧ z < 32 := by
  simp [slot_order]

theorem nodup_slot_order : slot_order.Nodup := by
  unfold slot_order
  apply List.nodup_flatMap.mpr
  constructor
  · intro x _
    exact (List.nodup_range 32).map (fun a b h => by simpa using h)
  · apply List.Pairwise.imp _ (List.nodup_range 32)
    intro a b hab
    simp only [Function.onFun, List.Disjoint]
    intro p hp hq
    simp only [List.mem_map, List.mem_range] at hp hq
    obtain ⟨z1, _, rfl⟩ := hp
    obtain ⟨z2, _, h⟩ := hq
    simp at h
    exact hab h.1.symm

theorem slot_order_head : ∃ t, slot_order = (0, 0) :: t ∧ (0, 0) ∉ t := by
  have h : slot_order = (0, 0) :: slot_order.tail := by rfl
  refine ⟨slot_order.tail, h, ?_⟩
  have := nodup_slot_order
  rw [h] at this
  exact (List.nodup_cons.mp this).1

/-! ## The system calls -/

theorem sys_lseek_bytes (fd : file_desc) (offset : Int) :
    (sys_lseek fd offset).bytes = fd.bytes ∧ (sys_lseek fd offset).access = fd.access := by
  unfold sys_lseek
  split <;> simp

theorem sys_read_bytes (fd : file_desc) (n : Nat) :
    (sys_read fd n).1.bytes = fd.bytes ∧ (sys_read fd n).1.access = fd.access := by
  unfold sys_read
  split <;> simp

theorem sys_read_some (fd : file_desc) (n : Nat) (h : fd.access ≠ O_WRONLY)
    (hn : n ≤ MAX_RW_COUNT) :
    sys_read fd n
      = ({ fd with pos := fd.pos + ((fd.bytes.drop fd.pos).take n).length },
          some ((fd.bytes.drop fd.pos).take n)) := by
  unfold sys_read
  rw [if_neg h, Nat.min_eq_left hn]

/-! ## Loading the slots -/

theorem set_chunk_same (chunk : Nat → Nat → MCRChunk) (x z : Nat) (c : MCRChunk) :
    set_chunk chunk x z c x z = c := by
  simp [set_chunk]

theorem set_chunk_other (chunk : Nat → Nat → MCRChunk) (x z x1 z1 : Nat) (c : MCRChunk)
    (h : (x1, z1) ≠ (x, z)) : set_chunk chunk x z c x1 z1 = chunk x1 z1 := by
  have : ¬ (x1 = x ∧ z1 = z) := fun h1 => h (by rw [h1.1, h1.2])
  simp [set_chunk, this]

theorem read_chunk_data_bytes (fd : file_desc) :
    (read_chunk_data fd).1.bytes = fd.bytes ∧ (read_chunk_data fd).1.access = fd.access := by
  unfold read_chunk_data
  split
  · rename_i fd2 h
    have := sys_read_bytes fd 4
    rw [h] at this
    exact this
  · rename_i fd2 lb h
    have h2 := sys_read_bytes fd 4
    rw [h] at h2
    split
    · exact h2
    · dsimp only
      split
      · rename_i fd3 h3
        have h4 := sys_read_bytes fd2 ((ntohl (le_value lb) + 1) % 2 ^ 32)
        rw [h3] at h4
        exact ⟨h4.1.trans h2.1, h4.2.trans h2.2⟩
      · rename_i fd3 data h3
        have h4 := sys_read_bytes fd2 ((ntohl (le_value lb) + 1) % 2 ^ 32)
        rw [h3] at h4
        split <;> exact ⟨h4.1.trans h2.1, h4.2.trans h2.2⟩

/-- The shape of what `_mcr_read_chunk` leaves: only the slot, the watermark and
the position of the file change. -/
theorem _mcr_read_chunk_form (mcr : MCR) (x z : Nat) (header : List Nat) :
    ∃ fd lt c, (_mcr_read_chunk mcr x z header).1
        = { fd := fd, readonly := mcr.readonly, last_timestamp := lt,
            chunk := set_chunk mcr.chunk x z c }
      ∧ fd.bytes = mcr.fd.bytes ∧ fd.access = mcr.fd.access := by
  unfold _mcr_read_chunk
  dsimp only
  split
  · exact ⟨_, _, _, rfl, rfl, rfl⟩
  · have h1 := read_chunk_data_bytes (sys_lseek mcr.fd
      (wrap_int32 ((chunk_offset (header.drop (4 * (x % 32 + z % 32 * 32))) : Int) * 4096)))
    have h2 := sys_lseek_bytes mcr.fd
      (wrap_int32 ((chunk_offset (header.drop (4 * (x % 32 + z % 32 * 32))) : Int) * 4096))
    exact ⟨_, _, _, rfl, h1.1.trans h2.1, h1.2.trans h2.2⟩

/-- The loop of `mcr_open`: a slot outside the list is left alone, a slot of
the list holds what `_mcr_read_chunk` gave it at its turn, the file and the
access being those of the start; for the first slot of the list the whole
container is that of the start. -/
theorem mcr_open_chunks_slots (header : List Nat) :
    ∀ (l : List (Nat × Nat)) (mcr : MCR),
      (mcr_open_chunks header l mcr).fd.bytes = mcr.fd.bytes
      ∧ (mcr_open_chunks header l mcr).fd.access = mcr.fd.access
      ∧ (mcr_open_chunks header l mcr).readonly = mcr.readonly
      ∧ (∀ x z, (x, z) ∉ l → (mcr_open_chunks header l mcr).chunk x z = mcr.chunk x z)
      ∧ (l.Nodup → ∀ x z, (x, z) ∈ l →
          ∃ mp : MCR, mp.fd.bytes = mcr.fd.bytes ∧ mp.fd.access = mcr.fd.access
            ∧ (l.head? = some (x, z) → mp = mcr)
            ∧ (mcr_open_chunks header l mcr).chunk x z
                = (_mcr_read_chunk mp x z header).1.chunk x z) := by
  intro l
  induction l with
  | nil =>
    intro mcr
    simp [mcr_open_chunks]
  | cons p rest ih =>
    intro mcr
    obtain ⟨px, pz⟩ := p
    obtain ⟨fd, lt, c, hform, hb, ha⟩ := _mcr_read_chunk_form mcr px pz header
    obtain ⟨i1, i2, i3, i4, i5⟩ := ih (_mcr_read_chunk mcr px pz header).1
    simp only [mcr_open_chunks]
    refine ⟨?_, ?_, ?_, ?_, ?_⟩
    · rw [i1, hform]; exact hb
    · rw [i2, hform]; exact ha
    · rw [i3, hform]
    · intro x z hxz
      have h1 : (x, z) ∉ rest := fun h => hxz (List.mem_cons_of_mem _ h)
      have h2 : (x, z) ≠ (px, pz) := fun h => hxz (by rw [h]; exact List.mem_cons_self _ _)
      rw [i4 x z h1, hform]
      exact set_chunk_other _ _ _ _ _ _ h2
    · intro hnd x z hxz
      obtain ⟨hnotin, hnd'⟩ := List.nodup_cons.mp hnd
      rcases List.mem_cons.mp hxz with heq | hmem
      · obtain ⟨rfl, rfl⟩ : x = px ∧ z = pz := by simpa using heq
        refine ⟨mcr, rfl, rfl, fun _ => rfl, ?_⟩
        rw [i4 x z hnotin]
      · obtain ⟨mp, m1, m2, _, m4⟩ := i5 hnd' x z hmem
        refine ⟨mp, ?_, ?_, ?_, m4⟩
        · rw [m1, hform]; exact hb
        · rw [m2, hform]; exact ha
        · intro hhead
          simp only [List.head?_cons, Option.some.injEq] at hhead
          rw [hhead] at hnotin
          exact absurd hmem hnotin

/-- Opening a file that exists and holds a full header, for reading or for
reading and writing: the container, and for each slot the call of
`_mcr_read_chunk` that filled it. -/
theorem mcr_open_existing (file : List Nat) (mode : Nat)
    (hmode : mode = O_RDONLY ∨ mode = O_RDWR) (hlen : 8192 ≤ file.length) :
    ∃ m : MCR, mcr_open (some file) mode = (some m, none)
      ∧ m.readonly = decide (mode = O_RDONLY) ∧ m.fd.bytes = file ∧ m.fd.access = mode
      ∧ ∀ x z, x < 32 → z < 32 →
          ∃ mp : MCR, mp.fd.bytes = file ∧ mp.fd.access = mode
            ∧ ((x, z) = (0, 0) → mp.fd.pos = 8192 ∧ mp.last_timestamp = 0)
            ∧ m.chunk x z = (_mcr_read_chunk mp x z (file.take 8192)).1.chunk x z := by
  have hopen : sys_open (some file) mode = some { bytes := file, pos := 0, access := mode } := by
    have e1 : O_RDWR &&& O_CREAT = 0 := by decide
    have e2 : O_RDWR &&& O_TRUNC = 0 := by decide
    have e3 : O_RDWR % 4 = O_RDWR := by decide
    have e4 : O_RDONLY &&& O_CREAT = 0 := by decide
    have e5 : O_RDONLY &&& O_TRUNC = 0 := by decide
    have e6 : O_RDONLY % 4 = O_RDONLY := by decide
    rcases hmode with rfl | rfl
    · simp only [sys_open, e4, e5, e6, ne_eq, not_true_eq_false, false_and, if_false]
    · simp only [sys_open, e1, e2, e3, ne_eq, not_true_eq_false, false_and, if_false]
  have happ : ¬ (mode &&& O_APPEND ≠ 0) := by
    rcases hmode with rfl | rfl <;> decide
  have hcreat : ¬ (mode &&& O_CREAT ≠ 0) := by
    rcases hmode with rfl | rfl <;> decide
  have hacc : mode ≠ O_WRONLY := by
    rcases hmode with rfl | rfl <;> decide
  have hhead : (file.take 8192).length = 8192 := by
    rw [List.length_take]; omega
  obtain ⟨t, ht, hnot⟩ := slot_order_head
  obtain ⟨i1, i2, i3, i4, i5⟩ := mcr_open_chunks_slots (file.take 8192) slot_order
    { fd := { bytes := file, pos := 0 + (file.take 8192).length, access := mode },
      readonly := decide (mode = O_RDONLY), last_timestamp := 0, chunk := calloc_chunk }
  refine ⟨_, ?_, i3, i1, i2, ?_⟩
  · unfold mcr_open
    rw [if_neg happ, hopen]
    simp only [hcreat, false_and, and_false, if_false]
    have hseek : sys_lseek { bytes := file, pos := file.length, access := mode } 0
        = { bytes := file, pos := 0, access := mode } := by
      simp [sys_lseek]
    rw [hseek, sys_read_some _ _ hacc (by decide)]
    simp only [List.drop_zero, MCR_HEADER_SIZE, hhead, ne_eq, not_true_eq_false, if_false]
  · intro x z hx hz
    obtain ⟨mp, m1, m2, m3, m4⟩ := i5 nodup_slot_order x z ((mem_slot_order x z).mpr ⟨hx, hz⟩)
    refine ⟨mp, m1, m2, ?_, m4⟩
    intro h0
    have : slot_order.head? = some (x, z) := by rw [ht, h0]; rfl
    rw [m3 this]
    simp [hhead]

/-- What `_mcr_read_chunk` stores in its slot: nothing for an entry that is
zero, and otherwise the timestamp computed from the location entry, with the
length and the data that the two reads deliver. -/
theorem _mcr_read_chunk_slot (mp : MCR) (x z : Nat) (header : List Nat) :
    (_mcr_read_chunk mp x z header).1.chunk x z
      = if chunk_offset (header.drop (4 * (x % 32 + z % 32 * 32))) = 0
            ∧ chunk_nsect (header.drop (4 * (x % 32 + z % 32 * 32))) = 0 then
          { timestamp := 0, len := 0, data := none }
        else
          { timestamp := ntohl ((le_value ((header.drop (4 * (x % 32 + z % 32 * 32))).take 4)
              + 4096) % 2 ^ 32)
            len := (read_chunk_data (sys_lseek mp.fd (wrap_int32
              ((chunk_offset (header.drop (4 * (x % 32 + z % 32 * 32))) : Int)
                * 4096)))).2.1.1
            data := (read_chunk_data (sys_lseek mp.fd (wrap_int32
              ((chunk_offset (header.drop (4 * (x % 32 + z % 32 * 32))) : Int)
                * 4096)))).2.1.2 } := by
  unfold _mcr_read_chunk
  dsimp only
  split <;> simp [set_chunk_same]

/-- The two reads on a file that holds the length and at least the `length + 1`
bytes after it, for a length below `2^32 - 1`. -/
theorem read_chunk_data_enough (fd : file_desc) (hacc : fd.access ≠ O_WRONLY)
    (hlen : fd.pos + 4 + ntohl (le_value ((fd.bytes.drop fd.pos).take 4)) + 1
      ≤ fd.bytes.length)
    (hmax : ntohl (le_value ((fd.bytes.drop fd.pos).take 4)) + 1 < 2 ^ 32)
    (hcap : ntohl (le_value ((fd.bytes.drop fd.pos).take 4)) + 1 ≤ MAX_RW_COUNT) :
    (read_chunk_data fd).2.1
      = (ntohl (le_value ((fd.bytes.drop fd.pos).take 4)) + 1,
          some ((fd.bytes.drop (fd.pos + 4)).take
            (ntohl (le_value ((fd.bytes.drop fd.pos).take 4)) + 1))) := by
  have h4 : ((fd.bytes.drop fd.pos).take 4).length = 4 := by
    rw [List.length_take, List.length_drop]; omega
  have h6 : ¬ (ntohl (le_value ((fd.bytes.drop fd.pos).take 4)) + 1
      < (ntohl (le_value ((fd.bytes.drop fd.pos).take 4)) + 1 + 2 ^ 32 - 1) % 2 ^ 32) := by
    have := ntohl_lt (le_value ((fd.bytes.drop fd.pos).take 4))
    omega
  have h5 : ((fd.bytes.drop (fd.pos + 4)).take
      (ntohl (le_value ((fd.bytes.drop fd.pos).take 4)) + 1)).length
      = ntohl (le_value ((fd.bytes.drop fd.pos).take 4)) + 1 := by
    rw [List.length_take, List.length_drop]; omega
  unfold read_chunk_data
  rw [sys_read_some _ _ hacc (by decide)]
  dsimp only
  rw [h4, if_neg (by decide), Nat.mod_eq_of_lt hmax,
    sys_read_some _ _ (by exact hacc) hcap]
  dsimp only
  rw [h5, if_neg h6]

/-! ## Location entries -/

theorem or_bytes (b0 b1 b2 : Nat) (h1 : b1 < 256) (h2 : b2 < 256) :
    (b0 <<< 16) ||| (b1 <<< 8) ||| b2 = b0 * 65536 + b1 * 256 + b2 := by
  have e1 : 2 ^ 8 * b1 + b2 = 2 ^ 8 * b1 ||| b2 := Nat.mul_add_lt_is_or (by omega) b1
  have e2 : 2 ^ 16 * b0 + (2 ^ 8 * b1 + b2) = 2 ^ 16 * b0 ||| (2 ^ 8 * b1 + b2) :=
    Nat.mul_add_lt_is_or (by omega) b0
  rw [Nat.lor_assoc, Nat.shiftLeft_eq, Nat.shiftLeft_eq, Nat.mul_comm b1, Nat.mul_comm b0,
    ← e1, ← e2]
  omega

theorem chunk_offset_cons (b0 b1 b2 b3 : Nat) (rest : List Nat) (h1 : b1 < 256)
    (h2 : b2 < 256) :
    chunk_offset (b0 :: b1 :: b2 :: b3 :: rest) = sector_offset [b0, b1, b2, b3]
      ∧ chunk_nsect (b0 :: b1 :: b2 :: b3 :: rest) = sector_count [b0, b1, b2, b3] := by
  constructor
  · have := or_bytes b0 b1 b2 h1 h2
    simp only [chunk_offset, List.getD_cons_zero, List.getD_cons_succ, this]
    simp [sector_offset, be_value, le_value]
    omega
  · simp [chunk_nsect, sector_count, be_value, le_value]

/-- The four bytes of a location entry, in the file and in the header that
`mcr_open` read from it. -/
theorem header_entry (file : List Nat) (hlen : 8192 ≤ file.length) (x z : Nat)
    (hx : x < 32) (hz : z < 32) :
    ∃ b0 b1 b2 b3 rest rest1,
      file.drop (4 * (x + 32 * z)) = b0 :: b1 :: b2 :: b3 :: rest
      ∧ (file.take 8192).drop (4 * (x % 32 + z % 32 * 32)) = b0 :: b1 :: b2 :: b3 :: rest1
      ∧ location_entry file x z = [b0, b1, b2, b3]
      ∧ b0 ∈ file ∧ b1 ∈ file ∧ b2 ∈ file ∧ b3 ∈ file := by
  have hk : 4 * (x % 32 + z % 32 * 32) = 4 * (x + 32 * z) := by
    rw [Nat.mod_eq_of_lt hx, Nat.mod_eq_of_lt hz]; omega
  have hl : 4 ≤ (file.drop (4 * (x + 32 * z))).length := by
    rw [List.length_drop]; omega
  match hd : file.drop (4 * (x + 32 * z)), hl with
  | b0 :: b1 :: b2 :: b3 :: rest, _ =>
    refine ⟨b0, b1, b2, b3, rest, rest.take (8192 - 4 * (x + 32 * z) - 4), rfl, ?_, ?_, ?_⟩
    · rw [hk, List.drop_take, hd]
      have : 8192 - 4 * (x + 32 * z) = (8192 - 4 * (x + 32 * z) - 4) + 4 := by omega
      rw [this]
      rfl
    · simp [location_entry, hd]
    · have hsub : ∀ v, v ∈ file.drop (4 * (x + 32 * z)) → v ∈ file :=
        fun v hv => List.mem_of_mem_drop hv
      rw [hd] at hsub
      exact ⟨hsub _ (by simp), hsub _ (by simp), hsub _ (by simp), hsub _ (by simp)⟩

theorem ntohl_le_value (l : List Nat) (hl : l.length = 4) (hb : ∀ v ∈ l, v < 256) :
    ntohl (le_value l) = be_value l := by
  unfold ntohl swap_bytes be_value
  rw [← hl, le_bytes_le_value l hb]

/-! ## Loading a slot -/

theorem sys_lseek_small (fd : file_desc) (n : Nat) (h : n < 524288) :
    sys_lseek fd (wrap_int32 ((n : Int) * 4096))
      = { bytes := fd.bytes, pos := n * 4096, access := fd.access } := by
  have e : wrap_int32 ((n : Int) * 4096) = ((n * 4096 : Nat) : Int) := by
    rw [wrap_int32_small _ (by omega) (by omega)]
    push_cast
    rfl
  rw [e]
  unfold sys_lseek
  rw [if_neg (by omega), Int.toNat_ofNat]

/-- C13, as amended. Opening a file that holds a full header, every byte below
256: a slot whose location entry, the 4 bytes at offset `4 * (x + 32 * z)`, has
sector offset and sector count zero holds no data; a slot whose entry is not
zero, with a sector offset below 524288, a big-endian length prefix at byte
`sector_offset * 4096` below `MAX_RW_COUNT`, so that one `read` delivers
`length + 1` bytes, and a file that holds the `length + 1` bytes after the
prefix, holds exactly those bytes, with the recorded length `length + 1`. -/
theorem slot_loading (file : List Nat) (mode : Nat)
    (hmode : mode = O_RDONLY ∨ mode = O_RDWR) (hlen : 8192 ≤ file.length)
    (hbytes : ∀ v ∈ file, v < 256) (x z : Nat) (hx : x < 32) (hz : z < 32) :
    ∃ m : MCR, mcr_open (some file) mode = (some m, none)
      ∧ (sector_offset (location_entry file x z) = 0
          ∧ sector_count (location_entry file x z) = 0 →
          m.chunk x z = { timestamp := 0, len := 0, data := none })
      ∧ (¬ (sector_offset (location_entry file x z) = 0
            ∧ sector_count (location_entry file x z) = 0) →
          sector_offset (location_entry file x z) < 524288 →
          be_value ((file.drop (sector_offset (location_entry file x z) * 4096)).take 4) + 1
            ≤ MAX_RW_COUNT →
          sector_offset (location_entry file x z) * 4096 + 4
            + (be_value ((file.drop (sector_offset (location_entry file x z) * 4096)).take 4)
                + 1) ≤ file.length →
          (m.chunk x z).data
              = some ((file.drop (sector_offset (location_entry file x z) * 4096 + 4)).take
                  (be_value
                    ((file.drop (sector_offset (location_entry file x z) * 4096)).take 4) + 1))
            ∧ (m.chunk x z).len
              = be_value
                  ((file.drop (sector_offset (location_entry file x z) * 4096)).take 4) + 1) := by
  obtain ⟨m, hopen, _, _, _, hslots⟩ := mcr_open_existing file mode hmode hlen
  obtain ⟨mp, hb, ha, _, hm⟩ := hslots x z hx hz
  obtain ⟨b0, b1, b2, b3, rest, rest1, _, hhdr, hentry, m0, m1, m2, m3⟩ :=
    header_entry file hlen x z hx hz
  obtain ⟨ho, hn⟩ := chunk_offset_cons b0 b1 b2 b3 rest1 (hbytes _ m1) (hbytes _ m2)
  have hacc : mode ≠ O_WRONLY := by
    rcases hmode with rfl | rfl <;> decide
  rw [_mcr_read_chunk_slot, hhdr, ho, hn, ← hentry] at hm
  refine ⟨m, hopen, ?_, ?_⟩
  · intro hz0
    rw [hm, if_pos hz0]
  · intro hnz hoff hmax henough
    rw [if_neg hnz, sys_lseek_small _ _ hoff, hb, ha] at hm
    have h4 : ((file.drop (sector_offset (location_entry file x z) * 4096)).take 4).length
        = 4 := by
      rw [List.length_take, List.length_drop]; omega
    have hbe : ntohl (le_value
          ((file.drop (sector_offset (location_entry file x z) * 4096)).take 4))
        = be_value ((file.drop (sector_offset (location_entry file x z) * 4096)).take 4) :=
      ntohl_le_value _ h4
        (fun v hv => hbytes v (List.mem_of_mem_drop (List.mem_of_mem_take hv)))
    have hr := read_chunk_data_enough
      { bytes := file, pos := sector_offset (location_entry file x z) * 4096, access := mode }
      hacc (by dsimp only; rw [hbe]; omega)
      (by dsimp only; rw [hbe]; exact Nat.lt_of_le_of_lt hmax (by decide))
      (by dsimp only; rw [hbe]; exact hmax)
    dsimp only at hr
    rw [hbe] at hr
    rw [hm, hr]
    exact ⟨rfl, rfl⟩

/-! ## A file with one location entry -/

/-- Opening a file that exists and holds a full header: the container is what
the loop over the slots makes of the empty one. -/
theorem mcr_open_eq (file : List Nat) (mode : Nat)
    (hmode : mode = O_RDONLY ∨ mode = O_RDWR) (hlen : 8192 ≤ file.length) :
    mcr_open (some file) mode
      = (some (mcr_open_chunks (file.take 8192) slot_order
          { fd := { bytes := file, pos := 8192, access := mode },
            readonly := decide (mode = O_RDONLY), last_timestamp := 0,
            chunk := calloc_chunk }), none) := by
  have hopen : sys_open (some file) mode = some { bytes := file, pos := 0, access := mode } := by
    have e1 : O_RDWR &&& O_CREAT = 0 := by decide
    have e2 : O_RDWR &&& O_TRUNC = 0 := by decide
    have e3 : O_RDWR % 4 = O_RDWR := by decide
    have e4 : O_RDONLY &&& O_CREAT = 0 := by decide
    have e5 : O_RDONLY &&& O_TRUNC = 0 := by decide
    have e6 : O_RDONLY % 4 = O_RDONLY := by decide
    rcases hmode with rfl | rfl
    · simp only [sys_open, e4, e5, e6, ne_eq, not_true_eq_false, false_and, if_false]
    · simp only [sys_open, e1, e2, e3, ne_eq, not_true_eq_false, false_and, if_false]
  have happ : ¬ (mode &&& O_APPEND ≠ 0) := by
    rcases hmode with rfl | rfl <;> decide
  have hcreat : ¬ (mode &&& O_CREAT ≠ 0) := by
    rcases hmode with rfl | rfl <;> decide
  have hacc : mode ≠ O_WRONLY := by
    rcases hmode with rfl | rfl <;> decide
  have hhead : (file.take 8192).length = 8192 := by
    rw [List.length_take]; omega
  unfold mcr_open
  rw [if_neg happ, hopen]
  simp only [hcreat, false_and, and_false, if_false]
  have hseek : sys_lseek { bytes := file, pos := file.length, access := mode } 0
      = { bytes := file, pos := 0, access := mode } := by
    simp [sys_lseek]
  rw [hseek, sys_read_some _ _ hacc (by decide)]
  simp only [List.drop_zero, MCR_HEADER_SIZE, hhead, ne_eq, not_true_eq_false, if_false,
    Nat.zero_add]

/-- Slots whose location entries are zero leave the file and the watermark as
they are. -/
theorem mcr_open_chunks_zero (header : List Nat) :
    ∀ (l : List (Nat × Nat)) (mcr : MCR),
      (∀ s ∈ l, chunk_offset (header.drop (4 * (s.1 % 32 + s.2 % 32 * 32))) = 0
        ∧ chunk_nsect (header.drop (4 * (s.1 % 32 + s.2 % 32 * 32))) = 0) →
      (mcr_open_chunks header l mcr).last_timestamp = mcr.last_timestamp
      ∧ (mcr_open_chunks header l mcr).fd = mcr.fd := by
  intro l
  induction l with
  | nil => intro mcr _; exact ⟨rfl, rfl⟩
  | cons p rest ih =>
    intro mcr hz
    obtain ⟨px, pz⟩ := p
    have h0 := hz (px, pz) (List.mem_cons_self _ _)
    have hstep : (_mcr_read_chunk mcr px pz header).1
        = { mcr with chunk := set_chunk mcr.chunk px pz ⟨0, 0, none⟩ } := by
      unfold _mcr_read_chunk
      dsimp only
      rw [if_pos h0]
    obtain ⟨i1, i2⟩ := ih (_mcr_read_chunk mcr px pz header).1
      (fun s hs => hz s (List.mem_cons_of_mem _ hs))
    simp only [mcr_open_chunks]
    rw [i1, i2, hstep]
    exact ⟨rfl, rfl⟩

theorem zero_entry (n : Nat) (r : List Nat) :
    chunk_offset (List.replicate (n + 4) 0 ++ r) = 0
      ∧ chunk_nsect (List.replicate (n + 4) 0 ++ r) = 0 := by
  have : List.replicate (n + 4) 0 ++ r = 0 :: 0 :: 0 :: 0 :: (List.replicate n 0 ++ r) := by
    simp [List.replicate_succ]
  rw [this]
  simp [chunk_offset, chunk_nsect]

/-- Opening a file whose location table holds one entry, that of slot (0, 0):
the slot holds what the two reads deliver from the place `lseek` leaves, its
timestamp is computed from the location entry, and so is the watermark. -/
theorem mcr_open_single_entry (b0 b1 b2 b3 n : Nat) (times body : List Nat) (mode : Nat)
    (hmode : mode = O_RDONLY ∨ mode = O_RDWR) (hn : n = 4092) (ht : times.length = 4096)
    (hne : ¬ (chunk_offset [b0, b1, b2, b3] = 0 ∧ chunk_nsect [b0, b1, b2, b3] = 0)) :
    ∃ m : MCR,
      mcr_open (some ([b0, b1, b2, b3] ++ List.replicate n 0 ++ times ++ body)) mode
        = (some m, none)
      ∧ m.readonly = decide (mode = O_RDONLY)
      ∧ m.chunk 0 0
        = { timestamp := ntohl ((le_value [b0, b1, b2, b3] + 4096) % 2 ^ 32)
            len := (read_chunk_data (sys_lseek
              { bytes := [b0, b1, b2, b3] ++ List.replicate n 0 ++ times ++ body,
                pos := 8192, access := mode }
              (wrap_int32 ((chunk_offset [b0, b1, b2, b3] : Int) * 4096)))).2.1.1
            data := (read_chunk_data (sys_lseek
              { bytes := [b0, b1, b2, b3] ++ List.replicate n 0 ++ times ++ body,
                pos := 8192, access := mode }
              (wrap_int32 ((chunk_offset [b0, b1, b2, b3] : Int) * 4096)))).2.1.2 }
      ∧ m.last_timestamp = ntohl ((le_value [b0, b1, b2, b3] + 4096) % 2 ^ 32)
      ∧ ∀ x z, x < 32 → z < 32 → (x, z) ≠ (0, 0) →
          m.chunk x z = { timestamp := 0, len := 0, data := none } := by
  have hl1 : ([b0, b1, b2, b3] ++ List.replicate n 0 ++ times).length = 8192 := by
    simp only [List.length_append, List.length_replicate, List.length_cons, List.length_nil]
    omega
  have hlen : 8192 ≤ ([b0, b1, b2, b3] ++ List.replicate n 0 ++ times ++ body).length := by
    rw [List.length_append, hl1]; omega
  have hheader : ([b0, b1, b2, b3] ++ List.replicate n 0 ++ times ++ body).take 8192
      = [b0, b1, b2, b3] ++ List.replicate n 0 ++ times :=
    List.take_left' hl1
  have hzero : ∀ x z, x < 32 → z < 32 → (x, z) ≠ (0, 0) →
      chunk_offset (([b0, b1, b2, b3] ++ List.replicate n 0 ++ times).drop
          (4 * (x % 32 + z % 32 * 32))) = 0
      ∧ chunk_nsect (([b0, b1, b2, b3] ++ List.replicate n 0 ++ times).drop
          (4 * (x % 32 + z % 32 * 32))) = 0 := by
    intro x z hx hz hxz
    have hpos : 0 < x + z * 32 := by
      rcases Nat.eq_zero_or_pos (x + z * 32) with h | h
      · exact absurd (by
          have h1 : x = 0 := by omega
          have h2 : z = 0 := by omega
          rw [h1, h2]) hxz
      · exact h
    rw [Nat.mod_eq_of_lt hx, Nat.mod_eq_of_lt hz]
    have hk : 4 * (x + z * 32) = 4 + (4 * (x + z * 32) - 4) := by omega
    have e : ([b0, b1, b2, b3] ++ List.replicate n 0 ++ times).drop (4 * (x + z * 32))
        = List.replicate ((4092 - 4 * (x + z * 32)) + 4) 0 ++ times := by
      rw [hk, List.append_assoc, ← List.drop_drop]
      have e1 : ([b0, b1, b2, b3] ++ (List.replicate n 0 ++ times)).drop 4
          = List.replicate n 0 ++ times := rfl
      rw [e1, List.drop_append_of_le_length (by rw [List.length_replicate]; omega),
        List.drop_replicate]
      congr 2
      omega
    rw [e]
    exact zero_entry _ _
  obtain ⟨t, ht0, hnot⟩ := slot_order_head
  have hmemt : ∀ s ∈ t, s.1 < 32 ∧ s.2 < 32 ∧ s ≠ (0, 0) := by
    intro s hs
    have h1 : s ∈ slot_order := by rw [ht0]; exact List.mem_cons_of_mem _ hs
    have h2 := (mem_slot_order s.1 s.2).mp h1
    exact ⟨h2.1, h2.2, fun h => hnot (h ▸ hs)⟩
  have e0 : ([b0, b1, b2, b3] ++ List.replicate n 0 ++ times).drop
      (4 * (0 % 32 + 0 % 32 * 32)) = b0 :: b1 :: b2 :: b3 :: (List.replicate n 0 ++ times) :=
    rfl
  have e1 : chunk_offset (b0 :: b1 :: b2 :: b3 :: (List.replicate n 0 ++ times))
      = chunk_offset [b0, b1, b2, b3] := rfl
  have e2 : chunk_nsect (b0 :: b1 :: b2 :: b3 :: (List.replicate n 0 ++ times))
      = chunk_nsect [b0, b1, b2, b3] := rfl
  have e3 : (b0 :: b1 :: b2 :: b3 :: (List.replicate n 0 ++ times)).take 4
      = [b0, b1, b2, b3] := rfl
  refine ⟨_, mcr_open_eq _ mode hmode hlen, ?_, ?_, ?_, ?_⟩
  · exact (mcr_open_chunks_slots _ _ _).2.2.1
  · rw [hheader, ht0]
    simp only [mcr_open_chunks]
    rw [(mcr_open_chunks_slots _ t _).2.2.2.1 0 0 hnot, _mcr_read_chunk_slot]
    rw [e0, e1, e2, e3, if_neg hne]
  · rw [hheader, ht0]
    simp only [mcr_open_chunks]
    rw [(mcr_open_chunks_zero _ t _ (fun s hs =>
      hzero s.1 s.2 (hmemt s hs).1 (hmemt s hs).2.1 (hmemt s hs).2.2)).1]
    unfold _mcr_read_chunk
    dsimp only
    rw [e0, e1, e2, e3, if_neg hne]
    dsimp only
    split
    · rfl
    · rename_i h
      omega
  · intro x z hx hz hxz
    obtain ⟨mp, _, _, _, hm⟩ := (mcr_open_chunks_slots
      (([b0, b1, b2, b3] ++ List.replicate n 0 ++ times ++ body).take 8192)
      slot_order
      { fd := { bytes := [b0, b1, b2, b3] ++ List.replicate n 0 ++ times ++ body,
                pos := 8192, access := mode },
        readonly := decide (mode = O_RDONLY), last_timestamp := 0,
        chunk := calloc_chunk }).2.2.2.2 nodup_slot_order x z
      ((mem_slot_order x z).mpr ⟨hx, hz⟩)
    rw [hm, _mcr_read_chunk_slot, hheader, if_pos (hzero x z hx hz hxz)]

theorem read_chunk_data_at (pre lb rest : List Nat) (p acc : Nat) (hp : pre.length = p)
    (hacc : acc ≠ O_WRONLY) (hlb : lb.length = 4)
    (hcap : (ntohl (le_value lb) + 1) % 2 ^ 32 ≤ MAX_RW_COUNT) :
    (read_chunk_data { bytes := pre ++ (lb ++ rest), pos := p, access := acc }).2.1
      = ((ntohl (le_value lb) + 1) % 2 ^ 32,
          if (rest.take ((ntohl (le_value lb) + 1) % 2 ^ 32)).length
              < ((ntohl (le_value lb) + 1) % 2 ^ 32 + 2 ^ 32 - 1) % 2 ^ 32 then none
          else some (rest.take ((ntohl (le_value lb) + 1) % 2 ^ 32))) := by
  have h1 : ((pre ++ (lb ++ rest)).drop p).take 4 = lb := by
    rw [List.drop_left' hp]
    exact List.take_left' hlb
  have h2 : (pre ++ (lb ++ rest)).drop (p + 4) = rest := by
    rw [← List.append_assoc]
    exact List.drop_left' (by rw [List.length_append, hp, hlb])
  unfold read_chunk_data
  rw [sys_read_some _ _ hacc (by decide)]
  dsimp only
  rw [h1, hlb, if_neg (by decide), sys_read_some _ _ (by exact hacc) hcap]
  dsimp only
  rw [h2]
  split <;> rfl

theorem sys_lseek_same (fd : file_desc) (h : fd.pos = 8192) :
    sys_lseek fd (wrap_int32 (((2 : Nat) : Int) * 4096)) = fd := by
  rw [sys_lseek_small _ _ (by decide)]
  have : (2 : Nat) * 4096 = fd.pos := by rw [h]
  rw [this]

theorem sys_lseek_overflow (fd : file_desc) :
    sys_lseek fd (wrap_int32 (((524288 : Nat) : Int) * 4096)) = fd := by
  have e : wrap_int32 (((524288 : Nat) : Int) * 4096) = -2147483648 := by decide
  rw [e]
  rfl

theorem single_entry_layout (e t lb : List Nat) (n : Nat) (trest rest : List Nat)
    (hn : n = 4092) (he : e.length = 4) (ht : t.length = 4) (hr : trest.length = 4092)
    (hlb : lb.length = 4) :
    location_entry (e ++ List.replicate n 0 ++ (t ++ trest) ++ (lb ++ rest)) 0 0 = e
      ∧ timestamp_entry (e ++ List.replicate n 0 ++ (t ++ trest) ++ (lb ++ rest)) 0 0 = t
      ∧ ((e ++ List.replicate n 0 ++ (t ++ trest) ++ (lb ++ rest)).drop 8192).take 4 = lb
      ∧ (e ++ List.replicate n 0 ++ (t ++ trest) ++ (lb ++ rest)).drop (8192 + 4) = rest
      ∧ (e ++ List.replicate n 0 ++ (t ++ trest) ++ (lb ++ rest)).length
          = 8192 + 4 + rest.length := by
  refine ⟨?_, ?_, ?_, ?_, ?_⟩
  · unfold location_entry
    rw [List.append_assoc, List.append_assoc]
    exact List.take_left' he
  · unfold timestamp_entry
    have : e ++ List.replicate n 0 ++ (t ++ trest) ++ (lb ++ rest)
        = (e ++ List.replicate n 0) ++ (t ++ (trest ++ (lb ++ rest))) := by
      simp only [List.append_assoc]
    rw [this, List.drop_left' (by rw [List.length_append, List.length_replicate, he, hn])]
    exact List.take_left' ht
  · rw [List.drop_left' (by
      simp only [List.length_append, List.length_replicate, he, hn, ht, hr])]
    exact List.take_left' hlb
  · rw [← List.append_assoc]
    exact List.drop_left' (by
      simp only [List.length_append, List.length_replicate, he, hn, ht, hr, hlb])
  · simp only [List.length_append, List.length_replicate, he, hn, ht, hr, hlb]
    omega

/-- Opening a file whose only location entry is that of slot (0, 0), when
`lseek` leaves the position at byte 8192, where a length prefix stands. -/
theorem mcr_open_single_chunk (b0 b1 b2 b3 n : Nat) (times lb rest : List Nat) (mode : Nat)
    (hmode : mode = O_RDONLY ∨ mode = O_RDWR) (hn : n = 4092) (ht : times.length = 4096)
    (hlb : lb.length = 4)
    (hoff : chunk_offset [b0, b1, b2, b3] = 2 ∨ chunk_offset [b0, b1, b2, b3] = 524288)
    (hcap : (ntohl (le_value lb) + 1) % 2 ^ 32 ≤ MAX_RW_COUNT) :
    ∃ m : MCR,
      mcr_open (some ([b0, b1, b2, b3] ++ List.replicate n 0 ++ times ++ (lb ++ rest))) mode
        = (some m, none)
      ∧ (m.chunk 0 0).timestamp = ntohl ((le_value [b0, b1, b2, b3] + 4096) % 2 ^ 32)
      ∧ (m.chunk 0 0).len = (ntohl (le_value lb) + 1) % 2 ^ 32
      ∧ (m.chunk 0 0).data
          = (if (rest.take ((ntohl (le_value lb) + 1) % 2 ^ 32)).length
                < ((ntohl (le_value lb) + 1) % 2 ^ 32 + 2 ^ 32 - 1) % 2 ^ 32 then none
             else some (rest.take ((ntohl (le_value lb) + 1) % 2 ^ 32)))
      ∧ m.last_timestamp = ntohl ((le_value [b0, b1, b2, b3] + 4096) % 2 ^ 32) := by
  have hne : ¬ (chunk_offset [b0, b1, b2, b3] = 0 ∧ chunk_nsect [b0, b1, b2, b3] = 0) := by
    intro h
    rcases hoff with h1 | h1 <;> rw [h.1] at h1 <;> exact absurd h1 (by decide)
  have hacc : mode ≠ O_WRONLY := by
    rcases hmode with rfl | rfl <;> decide
  obtain ⟨m, h1, _, h3, h4, _⟩ :=
    mcr_open_single_entry b0 b1 b2 b3 n times (lb ++ rest) mode hmode hn ht hne
  have hseek : sys_lseek
      { bytes := [b0, b1, b2, b3] ++ List.replicate n 0 ++ times ++ (lb ++ rest),
        pos := 8192, access := mode }
      (wrap_int32 ((chunk_offset [b0, b1, b2, b3] : Int) * 4096))
      = { bytes := [b0, b1, b2, b3] ++ List.replicate n 0 ++ times ++ (lb ++ rest),
          pos := 8192, access := mode } := by
    rcases hoff with h | h <;> rw [h]
    · exact sys_lseek_same _ rfl
    · exact sys_lseek_overflow _
  have hread := read_chunk_data_at ([b0, b1, b2, b3] ++ List.replicate n 0 ++ times) lb rest
    8192 mode (by
      simp only [List.length_append, List.length_replicate, List.length_cons,
        List.length_nil, hn, ht]) hacc hlb hcap
  rw [hseek, hread] at h3
  refine ⟨m, h1, ?_, ?_, ?_, h4⟩
  · rw [h3]
  · rw [h3]
  · rw [h3]

/-- C13 (as amended), at a file whose slot (0, 0) has the location entry
`00 00 02 01` and, at byte 8192, the length prefix 0 followed by the byte 2. -/
theorem slot_loading_witness :
    ∃ m : MCR,
      mcr_open (some ([0, 0, 2, 1] ++ List.replicate 4092 0
          ++ ([0, 0, 0, 0] ++ List.replicate 4092 0) ++ ([0, 0, 0, 0] ++ [2]))) O_RDONLY
        = (some m, none)
      ∧ (m.chunk 0 0).data = some [2] ∧ (m.chunk 0 0).len = 1 := by
  obtain ⟨hloc, _, hlb, hrest, hlen⟩ := single_entry_layout [0, 0, 2, 1] [0, 0, 0, 0]
    [0, 0, 0, 0] 4092 (List.replicate 4092 0) [2] rfl rfl rfl (List.length_replicate _ _) rfl
  obtain ⟨m, h1, _, h3⟩ := slot_loading
    ([0, 0, 2, 1] ++ List.replicate 4092 0 ++ ([0, 0, 0, 0] ++ List.replicate 4092 0)
      ++ ([0, 0, 0, 0] ++ [2])) O_RDONLY (Or.inl rfl) (by rw [hlen]; decide)
    (by
      intro v hv
      simp only [List.mem_append, List.mem_replicate, List.mem_cons, List.not_mem_nil,
        or_false] at hv
      omega) 0 0 (by decide) (by decide)
  have hso : sector_offset [0, 0, 2, 1] = 2 := by decide
  have hsc : sector_count [0, 0, 2, 1] = 1 := by decide
  have e1 : 2 * 4096 = 8192 := rfl
  have e2 : be_value [0, 0, 0, 0] = 0 := by decide
  rw [hloc, hso, hsc, e1, hlb, hrest, e2, hlen] at h3
  exact ⟨m, h1, h3 (by decide) (by decide) (by decide) (by decide)⟩

/-- C13, counterexample. A file whose location entry for slot (0, 0) is
`00 00 02 01` and whose length prefix at byte 8192 is `FF FF FF FF`, followed by
`2^32` bytes: the file holds the `length + 1` bytes after the prefix, and the
slot is left without data, with the recorded length 0. -/
theorem slot_loading_length_wraps :
    ∃ m : MCR,
      mcr_open (some ([0, 0, 2, 1] ++ List.replicate 4092 0
          ++ ([0, 0, 0, 0] ++ List.replicate 4092 0)
          ++ ([255, 255, 255, 255] ++ List.replicate 4294967296 0))) O_RDONLY
        = (some m, none)
      ∧ location_entry ([0, 0, 2, 1] ++ List.replicate 4092 0
          ++ ([0, 0, 0, 0] ++ List.replicate 4092 0)
          ++ ([255, 255, 255, 255] ++ List.replicate 4294967296 0)) 0 0 = [0, 0, 2, 1]
      ∧ sector_offset [0, 0, 2, 1] * 4096 = 8192
      ∧ (([0, 0, 2, 1] ++ List.replicate 4092 0
          ++ ([0, 0, 0, 0] ++ List.replicate 4092 0)
          ++ ([255, 255, 255, 255] ++ List.replicate 4294967296 0)).drop 8192).take 4
          = [255, 255, 255, 255]
      ∧ 8192 + 4 + (be_value [255, 255, 255, 255] + 1)
          = ([0, 0, 2, 1] ++ List.replicate 4092 0
              ++ ([0, 0, 0, 0] ++ List.replicate 4092 0)
              ++ ([255, 255, 255, 255] ++ List.replicate 4294967296 0)).length
      ∧ (m.chunk 0 0).data = none ∧ (m.chunk 0 0).len = 0 := by
  obtain ⟨hloc, _, hlb, _, hlen⟩ := single_entry_layout [0, 0, 2, 1] [0, 0, 0, 0]
    [255, 255, 255, 255] 4092 (List.replicate 4092 0) (List.replicate 4294967296 0)
    rfl rfl rfl (List.length_replicate _ _) rfl
  obtain ⟨m, h1, _, h3, h4, _⟩ := mcr_open_single_chunk 0 0 2 1 4092
    ([0, 0, 0, 0] ++ List.replicate 4092 0) [255, 255, 255, 255]
    (List.replicate 4294967296 0) O_RDONLY (Or.inl rfl) rfl
    (by rw [List.length_append, List.length_replicate]; rfl) rfl (Or.inl (by decide))
    (by decide)
  have e : (ntohl (le_value [255, 255, 255, 255]) + 1) % 2 ^ 32 = 0 := by decide
  rw [e] at h3 h4
  refine ⟨m, h1, hloc, by decide, hlb, ?_, ?_, h3⟩
  · rw [hlen, List.length_replicate]
    decide
  · rw [h4]
    rfl

/-- C14. A file whose location entry for slot (0, 0) is `00 00 02 01`, whose
timestamp entry for the slot is `00 00 00 07`, and which holds a chunk of one
byte at byte 8192: the slot is loaded with its data, and the timestamp recorded
on it, like the watermark, is 1049089, the value `ntohl` gives for the location
entry plus 4096, not the 7 of the timestamp table. -/
theorem timestamp_taken_from_location_entry :
    ∃ m : MCR,
      mcr_open (some ([0, 0, 2, 1] ++ List.replicate 4092 0
          ++ ([0, 0, 0, 7] ++ List.replicate 4092 0) ++ ([0, 0, 0, 0] ++ [2]))) O_RDONLY
        = (some m, none)
      ∧ timestamp_entry ([0, 0, 2, 1] ++ List.replicate 4092 0
          ++ ([0, 0, 0, 7] ++ List.replicate 4092 0) ++ ([0, 0, 0, 0] ++ [2])) 0 0
          = [0, 0, 0, 7]
      ∧ be_value [0, 0, 0, 7] = 7
      ∧ (m.chunk 0 0).data = some [2]
      ∧ (m.chunk 0 0).timestamp = 1049089
      ∧ m.last_timestamp = 1049089
      ∧ ntohl ((le_value [0, 0, 2, 1] + 4096) % 2 ^ 32) = 1049089 := by
  obtain ⟨_, htime, _, _, _⟩ := single_entry_layout [0, 0, 2, 1] [0, 0, 0, 7]
    [0, 0, 0, 0] 4092 (List.replicate 4092 0) [2] rfl rfl rfl (List.length_replicate _ _) rfl
  obtain ⟨m, h1, h2, _, h4, h5⟩ := mcr_open_single_chunk 0 0 2 1 4092
    ([0, 0, 0, 7] ++ List.replicate 4092 0) [0, 0, 0, 0] [2] O_RDONLY (Or.inl rfl) rfl
    (by rw [List.length_append, List.length_replicate]; rfl) rfl (Or.inl (by decide))
    (by decide)
  have e : ntohl ((le_value [0, 0, 2, 1] + 4096) % 2 ^ 32) = 1049089 := by decide
  have e1 : (ntohl (le_value [0, 0, 0, 0]) + 1) % 2 ^ 32 = 1 := by decide
  rw [e] at h2 h5
  rw [e1] at h4
  exact ⟨m, h1, htime, by decide, h4, h2, h5, e⟩

/-- A location entry with a sector offset below 524288 that points at or past
the end of the file: the read of the length delivers nothing and the slot is
left without data. -/
theorem mcr_open_past_end (file : List Nat) (mode : Nat)
    (hmode : mode = O_RDONLY ∨ mode = O_RDWR) (hlen : 8192 ≤ file.length)
    (hbytes : ∀ v ∈ file, v < 256) (x z : Nat) (hx : x < 32) (hz : z < 32)
    (hnz : ¬ (sector_offset (location_entry file x z) = 0
      ∧ sector_count (location_entry file x z) = 0))
    (hoff : sector_offset (location_entry file x z) < 524288)
    (hpast : file.length ≤ sector_offset (location_entry file x z) * 4096) :
    ∃ m : MCR, mcr_open (some file) mode = (some m, none) ∧ (m.chunk x z).data = none := by
  obtain ⟨m, hopen, _, _, _, hslots⟩ := mcr_open_existing file mode hmode hlen
  obtain ⟨mp, hb, ha, _, hm⟩ := hslots x z hx hz
  obtain ⟨b0, b1, b2, b3, rest, rest1, _, hhdr, hentry, m0, m1, m2, m3⟩ :=
    header_entry file hlen x z hx hz
  obtain ⟨ho, hn⟩ := chunk_offset_cons b0 b1 b2 b3 rest1 (hbytes _ m1) (hbytes _ m2)
  have hacc : mode ≠ O_WRONLY := by
    rcases hmode with rfl | rfl <;> decide
  rw [_mcr_read_chunk_slot, hhdr, ho, hn, ← hentry, if_neg hnz, sys_lseek_small _ _ hoff,
    hb, ha] at hm
  have hread : (read_chunk_data
      { bytes := file, pos := sector_offset (location_entry file x z) * 4096,
        access := mode }).2.1.2 = none := by
    unfold read_chunk_data
    rw [sys_read_some _ _ hacc (by decide)]
    dsimp only
    rw [List.drop_eq_nil_of_le hpast]
    rfl
  refine ⟨m, hopen, ?_⟩
  rw [hm]
  exact hread

/-- C15. A file of 8197 bytes whose location entry for slot (0, 0) is
`08 00 00 01`, sector offset 524288, which is byte `2^31`, far past the end of
the file: `offset*4096` wraps to a negative `int`, `lseek` refuses it, and the
two reads take the bytes after the header. The file opens, and the slot is
loaded with one byte of data. -/
theorem entry_past_end_loads_data :
    ∃ m : MCR,
      mcr_open (some ([8, 0, 0, 1] ++ List.replicate 4092 0
          ++ ([0, 0, 0, 0] ++ List.replicate 4092 0) ++ ([0, 0, 0, 0] ++ [2]))) O_RDONLY
        = (some m, none)
      ∧ ([8, 0, 0, 1] ++ List.replicate 4092 0
          ++ ([0, 0, 0, 0] ++ List.replicate 4092 0) ++ ([0, 0, 0, 0] ++ [2])).length = 8197
      ∧ location_entry ([8, 0, 0, 1] ++ List.replicate 4092 0
          ++ ([0, 0, 0, 0] ++ List.replicate 4092 0) ++ ([0, 0, 0, 0] ++ [2])) 0 0
          = [8, 0, 0, 1]
      ∧ sector_offset [8, 0, 0, 1] * 4096 = 2147483648
      ∧ wrap_int32 ((chunk_offset [8, 0, 0, 1] : Int) * 4096) = -2147483648
      ∧ (m.chunk 0 0).data = some [2]
      ∧ (m.chunk 0 0).len = 1 := by
  obtain ⟨hloc, _, _, _, hlen⟩ := single_entry_layout [8, 0, 0, 1] [0, 0, 0, 0]
    [0, 0, 0, 0] 4092 (List.replicate 4092 0) [2] rfl rfl rfl (List.length_replicate _ _) rfl
  obtain ⟨m, h1, _, h3, h4, _⟩ := mcr_open_single_chunk 8 0 0 1 4092
    ([0, 0, 0, 0] ++ List.replicate 4092 0) [0, 0, 0, 0] [2] O_RDONLY (Or.inl rfl) rfl
    (by rw [List.length_append, List.length_replicate]; rfl) rfl (Or.inr (by decide))
    (by decide)
  have e1 : (ntohl (le_value [0, 0, 0, 0]) + 1) % 2 ^ 32 = 1 := by decide
  rw [e1] at h3 h4
  exact ⟨m, h1, hlen, hloc, by decide, by decide, h4, h3⟩

/-! ## Closing: the loop over the slots -/

theorem sys_write_none (fd : file_desc) (buf : List Nat) (h : fd.access = O_RDONLY) :
    sys_write fd buf = none := by
  simp [sys_write, h]

/-- A call of `write` for no more than `MAX_RW_COUNT` bytes, on a file open for
writing: every byte is written. -/
theorem sys_write_some (fd : file_desc) (buf : List Nat) (h : fd.access ≠ O_RDONLY)
    (hcap : buf.length ≤ MAX_RW_COUNT) :
    ∃ fd1 : file_desc, sys_write fd buf = some (fd1, buf.length)
      ∧ fd1.pos = fd.pos + buf.length
      ∧ fd1.access = fd.access
      ∧ fd1.bytes = fd.bytes.take fd.pos ++ List.replicate (fd.pos - fd.bytes.length) 0 ++ buf
          ++ fd.bytes.drop (fd.pos + buf.length) := by
  refine ⟨{ fd with
      bytes := fd.bytes.take fd.pos ++ List.replicate (fd.pos - fd.bytes.length) 0 ++ buf
        ++ fd.bytes.drop (fd.pos + buf.length)
      pos := fd.pos + buf.length }, ?_, rfl, rfl, rfl⟩
  unfold sys_write
  rw [if_neg h, Nat.min_eq_left hcap, List.take_length]

/-- A call of `write` for more than `MAX_RW_COUNT` bytes, on a file open for
writing: the result is `MAX_RW_COUNT`. -/
theorem sys_write_cut (fd : file_desc) (buf : List Nat) (h : fd.access ≠ O_RDONLY)
    (hcap : MAX_RW_COUNT < buf.length) :
    ∃ fd1 : file_desc, sys_write fd buf = some (fd1, MAX_RW_COUNT) := by
  unfold sys_write
  rw [if_neg h, Nat.min_eq_right (Nat.le_of_lt hcap)]
  exact ⟨_, rfl⟩

theorem write_position_head (chunk : Nat → Nat → MCRChunk) (rest : List (Nat × Nat))
    (start : Nat) (p : Nat × Nat) :
    write_position chunk (p :: rest) start p = start := by
  simp [write_position, List.takeWhile]

theorem write_position_tail (chunk : Nat → Nat → MCRChunk) (rest : List (Nat × Nat))
    (start : Nat) (p s : Nat × Nat) (h : p ≠ s) :
    write_position chunk (p :: rest) start s
      = write_position chunk rest (start + close_span (chunk p.1 p.2)) s := by
  simp [write_position, List.takeWhile, h]
  omega

theorem fill_le (len : Nat) : (List.replicate (fill len) 0).length ≤ MAX_RW_COUNT := by
  rw [List.length_replicate]
  unfold fill
  exact Nat.le_trans (Nat.sub_le _ _) (by decide)

/-- One turn of the loop of `mcr_close` on a slot that holds data and passes
the checks, on a file open for writing, the data being no longer than one
`write` transfers. -/
theorem mcr_close_chunks_step (chunk : Nat → Nat → MCRChunk) (x z : Nat)
    (rest : List (Nat × Nat)) (st : close_state) (d : List Nat)
    (hd : (chunk x z).data = some d) (hacc : st.fd.access ≠ O_RDONLY)
    (hblocks : chunkLenBlocks (chunk x z).len ≤ 255) (hlen : (chunk x z).len ≤ d.length)
    (hcap : (chunk x z).len ≤ MAX_RW_COUNT) :
    ∃ fd3 : file_desc,
      fd3.pos = st.fd.pos + close_span (chunk x z) ∧ fd3.access = st.fd.access
      ∧ mcr_close_chunks chunk ((x, z) :: rest) st
        = mcr_close_chunks chunk rest
            { fd := fd3
              chunkLoc := set_entry st.chunkLoc (x + z * 32)
                ((((st.fd.pos / 4096) <<< 8) ||| chunkLenBlocks (chunk x z).len) % 2 ^ 32)
              chunkTime := set_entry st.chunkTime (x + z * 32) (chunk x z).timestamp } := by
  have hl2 : (d.take (chunk x z).len).length = (chunk x z).len := by
    rw [List.length_take, Nat.min_eq_left hlen]
  obtain ⟨fd1, w1, p1, a1, _⟩ := sys_write_some st.fd (le_bytes 4 (ntohl (chunk x z).len)) hacc
    (by rw [le_bytes_length]; decide)
  obtain ⟨fd2, w2, p2, a2, _⟩ := sys_write_some fd1 (d.take (chunk x z).len)
    (by rw [a1]; exact hacc) (by rw [hl2]; exact hcap)
  obtain ⟨fd3, w3, p3, a3, _⟩ := sys_write_some fd2 (List.replicate (fill (chunk x z).len) 0)
    (by rw [a2, a1]; exact hacc) (fill_le _)
  rw [le_bytes_length] at w1 p1
  rw [hl2] at w2 p2
  rw [List.length_replicate] at w3 p3
  refine ⟨fd3, ?_, ?_, ?_⟩
  · rw [p3, p2, p1]
    simp only [close_span, hd]
    omega
  · rw [a3, a2, a1]
  · rw [mcr_close_chunks]
    simp only [hd]
    rw [if_neg (by omega), w1]
    simp only
    rw [if_neg (by decide), if_neg (by omega), w2]
    simp only
    rw [if_neg (fun h => h rfl), w3]
    simp only
    rw [if_neg (fun h => h rfl)]

/-- A turn of the loop of `mcr_close` on a slot that holds data gets through
only on a file open for writing, with a length that passes the check on the
sectors and data that fill the length. -/
theorem mcr_close_chunks_ok_head (chunk : Nat → Nat → MCRChunk) (x z : Nat)
    (rest : List (Nat × Nat)) (st st1 : close_state) (d : List Nat)
    (hd : (chunk x z).data = some d)
    (h : mcr_close_chunks chunk ((x, z) :: rest) st = .ok st1) :
    st.fd.access ≠ O_RDONLY ∧ chunkLenBlocks (chunk x z).len ≤ 255
      ∧ (chunk x z).len ≤ d.length := by
  rw [mcr_close_chunks] at h
  simp only [hd] at h
  by_cases h1 : chunkLenBlocks (chunk x z).len > 255
  · rw [if_pos h1] at h
    exact absurd h (by simp)
  · rw [if_neg h1] at h
    by_cases h2 : st.fd.access = O_RDONLY
    · rw [sys_write_none _ _ h2] at h
      exact absurd h (by simp)
    · obtain ⟨fd1, w1, _, _, _⟩ :=
        sys_write_some st.fd (le_bytes 4 (ntohl (chunk x z).len)) h2
          (by rw [le_bytes_length]; decide)
      rw [le_bytes_length] at w1
      rw [w1] at h
      simp only at h
      rw [if_neg (by decide)] at h
      by_cases h3 : d.length < (chunk x z).len
      · rw [if_pos h3] at h
        exact absurd h (by simp)
      · exact ⟨h2, by omega, by omega⟩

/-- A turn of the loop of `mcr_close` on a slot that holds data gets through
only when the data are no longer than one `write` transfers: a longer `write`
is cut, and the loop is left through `goto err`. -/
theorem mcr_close_chunks_cap_head (chunk : Nat → Nat → MCRChunk) (x z : Nat)
    (rest : List (Nat × Nat)) (st st1 : close_state) (d : List Nat)
    (hd : (chunk x z).data = some d)
    (h : mcr_close_chunks chunk ((x, z) :: rest) st = .ok st1) :
    (chunk x z).len ≤ MAX_RW_COUNT := by
  obtain ⟨hacc, hblocks, hlen⟩ := mcr_close_chunks_ok_head chunk x z rest st st1 d hd h
  have hl2 : (d.take (chunk x z).len).length = (chunk x z).len := by
    rw [List.length_take, Nat.min_eq_left hlen]
  obtain ⟨fd1, w1, _, a1, _⟩ :=
    sys_write_some st.fd (le_bytes 4 (ntohl (chunk x z).len)) hacc
      (by rw [le_bytes_length]; decide)
  rw [le_bytes_length] at w1
  by_cases hcap : (chunk x z).len ≤ MAX_RW_COUNT
  · exact hcap
  · obtain ⟨fd2, w2⟩ := sys_write_cut fd1 (d.take (chunk x z).len) (by rw [a1]; exact hacc)
      (by rw [hl2]; omega)
    rw [mcr_close_chunks] at h
    simp only [hd] at h
    rw [if_neg (by omega), w1] at h
    simp only at h
    rw [if_neg (by decide), if_neg (by omega), w2] at h
    simp only at h
    rw [if_pos (by omega)] at h
    cases h

/-- A turn of the loop of `mcr_close` on a slot that holds data, passes the
check on the sectors and is longer than one `write` transfers, on a file open
for writing: the loop is left through `goto err`, `errno` not set, before the
filling is written. -/
theorem mcr_close_chunks_cut (chunk : Nat → Nat → MCRChunk) (x z : Nat)
    (rest : List (Nat × Nat)) (st : close_state) (d : List Nat)
    (hd : (chunk x z).data = some d) (hacc : st.fd.access ≠ O_RDONLY)
    (hblocks : chunkLenBlocks (chunk x z).len ≤ 255) (hlen : (chunk x z).len ≤ d.length)
    (hcap : MAX_RW_COUNT < (chunk x z).len) :
    ∃ fd, mcr_close_chunks chunk ((x, z) :: rest) st = .error (.err none fd) := by
  have hl2 : (d.take (chunk x z).len).length = (chunk x z).len := by
    rw [List.length_take, Nat.min_eq_left hlen]
  obtain ⟨fd1, w1, _, a1, _⟩ :=
    sys_write_some st.fd (le_bytes 4 (ntohl (chunk x z).len)) hacc
      (by rw [le_bytes_length]; decide)
  rw [le_bytes_length] at w1
  obtain ⟨fd2, w2⟩ := sys_write_cut fd1 (d.take (chunk x z).len) (by rw [a1]; exact hacc)
    (by rw [hl2]; exact hcap)
  refine ⟨fd2, ?_⟩
  rw [mcr_close_chunks]
  simp only [hd]
  rw [if_neg (by omega), w1]
  simp only
  rw [if_neg (by decide), if_neg (by omega), w2]
  simp only
  rw [if_pos (by omega)]

/-- The loop of `mcr_close`, when it gets through: the position advances by what
is written, every slot that holds data passed the checks, an entry of the tables
that belongs to no slot with data is as before, and the entries of a slot with
data hold its sector offset and count and its timestamp. -/
theorem mcr_close_chunks_ok (chunk : Nat → Nat → MCRChunk) :
    ∀ (l : List (Nat × Nat)) (st st1 : close_state),
      mcr_close_chunks chunk l st = .ok st1 →
      st1.fd.access = st.fd.access
      ∧ st1.fd.pos = st.fd.pos + (l.map (fun s => close_span (chunk s.1 s.2))).sum
      ∧ (∀ s ∈ l, ∀ d, (chunk s.1 s.2).data = some d →
          st.fd.access ≠ O_RDONLY ∧ chunkLenBlocks (chunk s.1 s.2).len ≤ 255
            ∧ (chunk s.1 s.2).len ≤ d.length)
      ∧ (∀ i, (∀ s ∈ l, s.1 + s.2 * 32 = i → (chunk s.1 s.2).data = none) →
          st1.chunkLoc i = st.chunkLoc i ∧ st1.chunkTime i = st.chunkTime i)
      ∧ ((l.map (fun s => s.1 + s.2 * 32)).Nodup →
          ∀ s ∈ l, ∀ d, (chunk s.1 s.2).data = some d →
            st1.chunkLoc (s.1 + s.2 * 32)
              = (((write_position chunk l st.fd.pos s / 4096) <<< 8)
                  ||| chunkLenBlocks (chunk s.1 s.2).len) % 2 ^ 32
            ∧ st1.chunkTime (s.1 + s.2 * 32) = (chunk s.1 s.2).timestamp) := by
  intro l
  induction l with
  | nil =>
    intro st st1 h
    rw [mcr_close_chunks] at h
    cases h
    simp
  | cons p rest ih =>
    intro st st1 h
    obtain ⟨x, z⟩ := p
    cases hd : (chunk x z).data with
    | none =>
      have h1 : mcr_close_chunks chunk rest st = .ok st1 := by
        rw [mcr_close_chunks] at h
        simp only [hd] at h
        exact h
      obtain ⟨i1, i2, i3, i4, i5⟩ := ih st st1 h1
      have hspan : close_span (chunk x z) = 0 := by simp [close_span, hd]
      refine ⟨i1, ?_, ?_, ?_, ?_⟩
      · rw [i2]
        simp [hspan]
      · intro s hs d hsd
        rcases List.mem_cons.mp hs with rfl | hs
        · rw [hd] at hsd
          cases hsd
        · exact i3 s hs d hsd
      · intro i hi
        exact i4 i (fun s hs => hi s (List.mem_cons_of_mem _ hs))
      · intro hnd s hs d hsd
        rcases List.mem_cons.mp hs with rfl | hs
        · rw [hd] at hsd
          cases hsd
        · have hne : (x, z) ≠ s := by
            intro e
            rw [← e] at hsd
            rw [hd] at hsd
            cases hsd
          rw [write_position_tail _ _ _ _ _ hne, hspan, Nat.add_zero]
          exact i5 (List.nodup_cons.mp hnd).2 s hs d hsd
    | some d0 =>
      obtain ⟨hacc, hblocks, hlen⟩ := mcr_close_chunks_ok_head chunk x z rest st st1 d0 hd h
      have hcap := mcr_close_chunks_cap_head chunk x z rest st st1 d0 hd h
      obtain ⟨fd3, hp, ha, hstep⟩ :=
        mcr_close_chunks_step chunk x z rest st d0 hd hacc hblocks hlen hcap
      rw [hstep] at h
      obtain ⟨i1, i2, i3, i4, i5⟩ := ih _ st1 h
      simp only at i1 i2 i3 i4 i5
      refine ⟨?_, ?_, ?_, ?_, ?_⟩
      · rw [i1, ha]
      · rw [i2, hp]
        simp
        omega
      · intro s hs d hsd
        rcases List.mem_cons.mp hs with rfl | hs
        · rw [hd] at hsd
          cases hsd
          exact ⟨hacc, hblocks, hlen⟩
        · have := i3 s hs d hsd
          exact ⟨hacc, this.2⟩
      · intro i hi
        have hne : i ≠ x + z * 32 := by
          intro e
          have := hi (x, z) (List.mem_cons_self _ _) e.symm
          rw [hd] at this
          cases this
        obtain ⟨j1, j2⟩ := i4 i (fun s hs => hi s (List.mem_cons_of_mem _ hs))
        rw [j1, j2]
        simp [set_entry, hne]
      · intro hnd s hs d hsd
        have hnd1 := List.nodup_cons.mp hnd
        rcases List.mem_cons.mp hs with rfl | hs
        · obtain ⟨j1, j2⟩ := i4 (x + z * 32) (by
            intro s1 hs1 he
            exact absurd (List.mem_map.mpr ⟨s1, hs1, he⟩) hnd1.1)
          rw [j1, j2, write_position_head]
          simp [set_entry]
        · have hne : (x, z) ≠ s := by
            intro e
            exact hnd1.1 (List.mem_map.mpr ⟨s, hs, by rw [← e]⟩)
          rw [write_position_tail _ _ _ _ _ hne, ← hp]
          exact i5 hnd1.2 s hs d hsd

/-- The loop of `mcr_close` gets through on a file open for writing when every
slot that holds data passes the checks and is no longer than one `write`
transfers. -/
theorem mcr_close_chunks_succeeds (chunk : Nat → Nat → MCRChunk) :
    ∀ (l : List (Nat × Nat)) (st : close_state),
      st.fd.access ≠ O_RDONLY →
      (∀ s ∈ l, ∀ d, (chunk s.1 s.2).data = some d →
        chunkLenBlocks (chunk s.1 s.2).len ≤ 255 ∧ (chunk s.1 s.2).len ≤ d.length
          ∧ (chunk s.1 s.2).len ≤ MAX_RW_COUNT) →
      ∃ st1, mcr_close_chunks chunk l st = .ok st1 := by
  intro l
  induction l with
  | nil =>
    intro st _ _
    exact ⟨st, by rw [mcr_close_chunks]⟩
  | cons p rest ih =>
    intro st hacc hall
    obtain ⟨x, z⟩ := p
    cases hd : (chunk x z).data with
    | none =>
      obtain ⟨st1, h1⟩ := ih st hacc (fun s hs => hall s (List.mem_cons_of_mem _ hs))
      refine ⟨st1, ?_⟩
      rw [mcr_close_chunks]
      simp only [hd]
      exact h1
    | some d0 =>
      obtain ⟨hb, hl, hc⟩ := hall (x, z) (List.mem_cons_self _ _) d0 hd
      obtain ⟨fd3, _, ha, hstep⟩ := mcr_close_chunks_step chunk x z rest st d0 hd hacc hb hl hc
      obtain ⟨st1, h1⟩ := ih
        { fd := fd3
          chunkLoc := set_entry st.chunkLoc (x + z * 32)
            ((((st.fd.pos / 4096) <<< 8) ||| chunkLenBlocks (chunk x z).len) % 2 ^ 32)
          chunkTime := set_entry st.chunkTime (x + z * 32) (chunk x z).timestamp }
        (by rw [ha]; exact hacc) (fun s hs => hall s (List.mem_cons_of_mem _ hs))
      exact ⟨st1, by rw [hstep]; exact h1⟩

/-! ## Closing: the tables -/

theorem le_bytes_ntohl (v : Nat) : le_bytes 4 (ntohl v) = be_bytes 4 v := by
  unfold ntohl be_bytes swap_bytes
  have := le_bytes_le_value (le_bytes 4 v).reverse
    (by intro b hb; rw [List.mem_reverse] at hb; exact le_bytes_lt _ _ _ hb)
  rw [List.length_reverse, le_bytes_length] at this
  exact this

theorem be_bytes_mod (v : Nat) : be_bytes 4 (v % 2 ^ 32) = be_bytes 4 v := by
  unfold be_bytes
  congr 1
  simp only [le_bytes]
  have e0 : v % 2 ^ 32 % 256 = v % 256 := by omega
  have e1 : v % 2 ^ 32 / 256 % 256 = v / 256 % 256 := by omega
  have e2 : v % 2 ^ 32 / 256 / 256 % 256 = v / 256 / 256 % 256 := by omega
  have e3 : v % 2 ^ 32 / 256 / 256 / 256 % 256 = v / 256 / 256 / 256 % 256 := by omega
  rw [e0, e1, e2, e3]

/-- A sequence of pieces of one size: the piece at index `i`. -/
theorem flatMap_piece (f : Nat → List Nat) (k : Nat) (hf : ∀ i, (f i).length = k) :
    ∀ n, ((List.range n).flatMap f).length = k * n
      ∧ ∀ i, i < n → (((List.range n).flatMap f).drop (k * i)).take k = f i := by
  intro n
  induction n with
  | zero => simp
  | succ n ih =>
    obtain ⟨hl, hp⟩ := ih
    have e : (List.range (n + 1)).flatMap f = (List.range n).flatMap f ++ f n := by
      rw [List.range_succ, List.flatMap_append]
      simp
    rw [e]
    constructor
    · rw [List.length_append, hl, hf]
      ring
    · intro i hi
      rcases Nat.lt_or_ge i n with h | h
      · have h1 : k * i + k ≤ ((List.range n).flatMap f).length := by
          rw [hl]
          calc k * i + k = k * (i + 1) := by ring
            _ ≤ k * n := Nat.mul_le_mul_left k h
        rw [List.drop_append_of_le_length (by omega),
          List.take_append_of_le_length (by rw [List.length_drop]; omega)]
        exact hp i h
      · have h1 : i = n := by omega
        rw [h1, List.drop_left' hl]
        exact List.take_of_length_le (by rw [hf])

theorem table_bytes_length (table : Nat → Nat) : (table_bytes table).length = 4096 :=
  (flatMap_piece (fun i => le_bytes 4 (ntohl (table i))) 4
    (fun _ => le_bytes_length _ _) 1024).1

theorem table_bytes_entry (table : Nat → Nat) (i : Nat) (hi : i < 1024) :
    ((table_bytes table).drop (4 * i)).take 4 = be_bytes 4 (table i) := by
  rw [← le_bytes_ntohl]
  exact (flatMap_piece (fun i => le_bytes 4 (ntohl (table i))) 4
    (fun _ => le_bytes_length _ _) 1024).2 i hi

/-- The entries of a file that begins with the two tables. -/
theorem tables_entries (loc time : Nat → Nat) (rest : List Nat) (x z : Nat) (hx : x < 32)
    (hz : z < 32) :
    location_entry (table_bytes loc ++ (table_bytes time ++ rest)) x z
        = be_bytes 4 (loc (x + z * 32))
      ∧ timestamp_entry (table_bytes loc ++ (table_bytes time ++ rest)) x z
        = be_bytes 4 (time (x + z * 32)) := by
  have hi : x + z * 32 < 1024 := by omega
  have e : x + 32 * z = x + z * 32 := by omega
  constructor
  · unfold location_entry
    rw [e, List.drop_append_of_le_length (by rw [table_bytes_length]; omega),
      List.take_append_of_le_length (by rw [List.length_drop, table_bytes_length]; omega)]
    exact table_bytes_entry loc _ hi
  · unfold timestamp_entry
    rw [e, ← List.drop_drop, List.drop_left' (table_bytes_length loc),
      List.drop_append_of_le_length (by rw [table_bytes_length]; omega),
      List.take_append_of_le_length (by rw [List.length_drop, table_bytes_length]; omega)]
    exact table_bytes_entry time _ hi

/-- The two calls of `write` that store the tables, on a file open for writing:
each transfers its 4096 bytes, and the file then begins with the tables. -/
theorem write_tables (fd : file_desc) (hacc : fd.access ≠ O_RDONLY) (loc time : Nat → Nat) :
    ∃ fd1 fd2, sys_write (sys_lseek fd 0) (table_bytes loc) = some (fd1, 4096)
      ∧ sys_write fd1 (table_bytes time) = some (fd2, 4096)
      ∧ fd2.bytes = table_bytes loc ++ (table_bytes time ++ fd.bytes.drop 8192) := by
  have hs : sys_lseek fd 0 = { fd with pos := 0 } := by
    simp [sys_lseek]
  obtain ⟨fd1, w1, p1, a1, b1⟩ := sys_write_some (sys_lseek fd 0) (table_bytes loc)
    (by rw [(sys_lseek_bytes fd 0).2]; exact hacc) (by rw [table_bytes_length]; decide)
  obtain ⟨fd2, w2, _, _, b2⟩ := sys_write_some fd1 (table_bytes time)
    (by rw [a1, (sys_lseek_bytes fd 0).2]; exact hacc) (by rw [table_bytes_length]; decide)
  rw [table_bytes_length] at w1 w2
  refine ⟨fd1, fd2, w1, w2, ?_⟩
  rw [b2, p1, b1, hs]
  simp only [List.take_zero, List.nil_append, Nat.zero_sub, List.replicate_zero,
    Nat.zero_add, table_bytes_length]
  rw [List.take_left' (table_bytes_length _)]
  have e1 : 4096 - (table_bytes loc ++ List.drop 4096 fd.bytes).length = 0 := by
    rw [List.length_append, table_bytes_length]; omega
  rw [e1, List.replicate_zero, List.append_nil, ← List.drop_drop,
    List.drop_left' (table_bytes_length _), List.drop_drop, List.append_assoc]

/-- A successful `mcr_close` of a container that is not read-only: the loop got
through, the file was open for writing, and the file is the two tables followed
by what the loop left from byte 8192 on. -/
theorem mcr_close_file (m : MCR) (hro : m.readonly = false) (r : close_result)
    (h : mcr_close m = .ok r) (hret : r.ret = 0) :
    ∃ st1, mcr_close_chunks m.chunk slot_order
          { fd := sys_lseek m.fd 8192, chunkLoc := fun _ => 0, chunkTime := fun _ => 0 }
          = .ok st1
      ∧ m.fd.access ≠ O_RDONLY
      ∧ r.file = table_bytes st1.chunkLoc
          ++ (table_bytes st1.chunkTime ++ st1.fd.bytes.drop 8192) := by
  unfold mcr_close at h
  rw [hro] at h
  simp only [Bool.false_eq_true, if_false] at h
  split at h
  · cases h
  · cases h
    simp at hret
  · rename_i st hst
    have hacc1 := (mcr_close_chunks_ok m.chunk slot_order _ st hst).1
    have hacc0 := (sys_lseek_bytes m.fd 8192).2
    dsimp only at hacc1
    by_cases hacc : m.fd.access = O_RDONLY
    · rw [sys_write_none _ _ (by
        rw [(sys_lseek_bytes st.fd 0).2, hacc1, hacc0]; exact hacc)] at h
      simp only at h
      cases h
      simp at hret
    · obtain ⟨fd1, fd2, w1, w2, b2⟩ := write_tables st.fd
        (by rw [hacc1, hacc0]; exact hacc) st.chunkLoc st.chunkTime
      rw [w1] at h
      simp only at h
      rw [if_neg (by decide), w2] at h
      simp only at h
      rw [if_neg (by decide)] at h
      cases h
      exact ⟨st, hst, hacc, b2⟩

/-- The function `mcr_close` on a container that is not read-only, in terms of
its loop: it returns 0 exactly when the loop gets through and the file takes
the tables, and the file then begins with them. -/
theorem mcr_close_writable (m : MCR) (hro : m.readonly = false) :
    (∀ r, mcr_close m = .ok r → r.ret = 0 →
      ∃ st1 rest, mcr_close_chunks m.chunk slot_order
          { fd := sys_lseek m.fd 8192, chunkLoc := fun _ => 0, chunkTime := fun _ => 0 }
          = .ok st1
        ∧ m.fd.access ≠ O_RDONLY
        ∧ r.file = table_bytes st1.chunkLoc ++ (table_bytes st1.chunkTime ++ rest))
    ∧ (∀ st1, mcr_close_chunks m.chunk slot_order
          { fd := sys_lseek m.fd 8192, chunkLoc := fun _ => 0, chunkTime := fun _ => 0 }
          = .ok st1 →
        m.fd.access ≠ O_RDONLY →
        ∃ r, mcr_close m = .ok r ∧ r.ret = 0 ∧ r.errno = none) := by
  constructor
  · intro r h hret
    obtain ⟨st1, hst, hacc, hfile⟩ := mcr_close_file m hro r h hret
    exact ⟨st1, _, hst, hacc, hfile⟩
  · intro st hst hacc
    have hacc1 := (mcr_close_chunks_ok m.chunk slot_order _ st hst).1
    have hacc0 := (sys_lseek_bytes m.fd 8192).2
    dsimp only at hacc1
    obtain ⟨fd1, fd2, w1, w2, _⟩ := write_tables st.fd
      (by rw [hacc1, hacc0]; exact hacc) st.chunkLoc st.chunkTime
    refine ⟨{ ret := 0, errno := none, file := fd2.bytes }, ?_, rfl, rfl⟩
    unfold mcr_close
    rw [hro]
    simp only [Bool.false_eq_true, if_false]
    rw [hst]
    simp only
    rw [w1]
    simp only
    rw [if_neg (by decide), w2]
    simp only
    rw [if_neg (by decide)]

theorem slot_order_index_nodup : (slot_order.map (fun s => s.1 + s.2 * 32)).Nodup := by
  apply List.Nodup.map_on _ nodup_slot_order
  intro a ha b hb hab
  obtain ⟨a1, a2⟩ := a
  obtain ⟨b1, b2⟩ := b
  have h1 := (mem_slot_order a1 a2).mp ha
  have h2 := (mem_slot_order b1 b2).mp hb
  simp only at hab
  have e1 : a1 = b1 := by omega
  have e2 : a2 = b2 := by omega
  rw [e1, e2]

/-- A successful `mcr_close` of a container that is not read-only: the file was
open for writing, every slot with data passed the checks of the loop, and the
header of the file holds, for every slot, the entries of the two tables. -/
theorem mcr_close_header (m : MCR) (hro : m.readonly = false) (r : close_result)
    (h : mcr_close m = .ok r) (hret : r.ret = 0) :
    m.fd.access ≠ O_RDONLY
      ∧ 8192 ≤ r.file.length
      ∧ (∀ x z, x < 32 → z < 32 → ∀ d, (m.chunk x z).data = some d →
          chunkLenBlocks (m.chunk x z).len ≤ 255 ∧ (m.chunk x z).len ≤ d.length)
      ∧ ∀ x z, x < 32 → z < 32 →
          location_entry r.file x z
            = (match (m.chunk x z).data with
               | none => be_bytes 4 0
               | some _ =>
                 be_bytes 4 (((write_position m.chunk slot_order 8192 (x, z) / 4096) <<< 8)
                   ||| chunkLenBlocks (m.chunk x z).len))
          ∧ timestamp_entry r.file x z
            = (match (m.chunk x z).data with
               | none => be_bytes 4 0
               | some _ => be_bytes 4 (m.chunk x z).timestamp) := by
  obtain ⟨st1, rest, hst, hacc, hfile⟩ := (mcr_close_writable m hro).1 r h hret
  obtain ⟨_, _, i3, i4, i5⟩ := mcr_close_chunks_ok m.chunk slot_order _ st1 hst
  have hpos : (sys_lseek m.fd 8192).pos = 8192 := by simp [sys_lseek]
  dsimp only at i4 i5
  rw [hpos] at i5
  refine ⟨hacc, ?_, ?_, ?_⟩
  · rw [hfile, List.length_append, List.length_append, table_bytes_length,
      table_bytes_length]
    omega
  · intro x z hx hz d hd
    exact (i3 (x, z) ((mem_slot_order x z).mpr ⟨hx, hz⟩) d hd).2
  · intro x z hx hz
    obtain ⟨e1, e2⟩ := tables_entries st1.chunkLoc st1.chunkTime rest x z hx hz
    rw [hfile, e1, e2]
    cases hd : (m.chunk x z).data with
    | none =>
      obtain ⟨j1, j2⟩ := i4 (x + z * 32) (by
        intro s hs he
        have hs1 := (mem_slot_order s.1 s.2).mp hs
        have e3 : s.1 = x := by omega
        have e4 : s.2 = z := by omega
        rw [e3, e4]
        exact hd)
      simp only
      rw [j1, j2]
      exact ⟨rfl, rfl⟩
    | some d =>
      obtain ⟨j1, j2⟩ := i5 slot_order_index_nodup (x, z)
        ((mem_slot_order x z).mpr ⟨hx, hz⟩) d hd
      simp only at j1 j2 ⊢
      rw [j1, j2, be_bytes_mod]
      exact ⟨rfl, rfl⟩

/-- The function `mcr_close` returns 0 on a container that is not read-only,
whose file is open for writing and whose slots pass the checks of the loop and
are no longer than one `write` transfers. -/
theorem mcr_close_succeeds (m : MCR) (hro : m.readonly = false)
    (hacc : m.fd.access ≠ O_RDONLY)
    (hall : ∀ x z, x < 32 → z < 32 → ∀ d, (m.chunk x z).data = some d →
      chunkLenBlocks (m.chunk x z).len ≤ 255 ∧ (m.chunk x z).len ≤ d.length
        ∧ (m.chunk x z).len ≤ MAX_RW_COUNT) :
    ∃ r, mcr_close m = .ok r ∧ r.ret = 0 ∧ r.errno = none := by
  obtain ⟨st1, hst⟩ := mcr_close_chunks_succeeds m.chunk slot_order
    { fd := sys_lseek m.fd 8192, chunkLoc := fun _ => 0, chunkTime := fun _ => 0 }
    (by rw [(sys_lseek_bytes m.fd 8192).2]; exact hacc)
    (fun s hs d hd =>
      hall s.1 s.2 ((mem_slot_order s.1 s.2).mp hs).1 ((mem_slot_order s.1 s.2).mp hs).2 d hd)
  exact (mcr_close_writable m hro).2 st1 hst hacc

theorem write_position_single (c : MCRChunk) (x z start : Nat) :
    ∀ l : List (Nat × Nat),
      write_position (set_chunk calloc_chunk x z c) l start (x, z) = start := by
  intro l
  induction l generalizing start with
  | nil => simp [write_position]
  | cons p rest ih =>
    by_cases hp : p = (x, z)
    · rw [hp, write_position_head]
    · have hspan : close_span (set_chunk calloc_chunk x z c p.1 p.2) = 0 := by
        rw [set_chunk_other _ _ _ _ _ _ hp]
        rfl
      rw [write_position_tail _ _ _ _ _ hp, hspan, Nat.add_zero]
      exact ih start

/-- Closing a container with data in one slot only. -/
theorem single_slot_close (fd : file_desc) (hacc : fd.access ≠ O_RDONLY) (lt x z : Nat)
    (hx : x < 32) (hz : z < 32) (c : MCRChunk) (d : List Nat) (hd : c.data = some d)
    (hb : chunkLenBlocks c.len ≤ 255) (hl : c.len ≤ d.length)
    (hc : c.len ≤ MAX_RW_COUNT) :
    ∃ r, mcr_close { fd := fd, readonly := false, last_timestamp := lt,
                     chunk := set_chunk calloc_chunk x z c } = .ok r
      ∧ r.ret = 0 ∧ 8192 ≤ r.file.length
      ∧ location_entry r.file x z = be_bytes 4 ((2 <<< 8) ||| chunkLenBlocks c.len)
      ∧ timestamp_entry r.file x z = be_bytes 4 c.timestamp := by
  have hall : ∀ x1 z1, x1 < 32 → z1 < 32 → ∀ d1,
      (set_chunk calloc_chunk x z c x1 z1).data = some d1 →
      chunkLenBlocks (set_chunk calloc_chunk x z c x1 z1).len ≤ 255
        ∧ (set_chunk calloc_chunk x z c x1 z1).len ≤ d1.length
        ∧ (set_chunk calloc_chunk x z c x1 z1).len ≤ MAX_RW_COUNT := by
    intro x1 z1 _ _ d1 hd1
    by_cases hp : (x1, z1) = (x, z)
    · obtain ⟨rfl, rfl⟩ : x1 = x ∧ z1 = z := by simpa using hp
      rw [set_chunk_same] at hd1 ⊢
      rw [hd] at hd1
      cases hd1
      exact ⟨hb, hl, hc⟩
    · rw [set_chunk_other _ _ _ _ _ _ hp] at hd1
      cases hd1
  obtain ⟨r, h1, h2, _⟩ := mcr_close_succeeds
    { fd := fd, readonly := false, last_timestamp := lt,
      chunk := set_chunk calloc_chunk x z c } rfl hacc hall
  obtain ⟨_, h4, _, h6⟩ := mcr_close_header _ rfl r h1 h2
  obtain ⟨e1, e2⟩ := h6 x z hx hz
  dsimp only at e1 e2
  rw [set_chunk_same, hd] at e1 e2
  simp only at e1 e2
  rw [write_position_single] at e1
  exact ⟨r, h1, h2, h4, e1, e2⟩

theorem sector_count_be_bytes (off c : Nat) (hc : c ≤ 255) :
    sector_count (be_bytes 4 ((off <<< 8) ||| c)) = c
      ∧ sector_offset (be_bytes 4 ((off <<< 8) ||| c)) = off % 2 ^ 24 := by
  have e : (off <<< 8) ||| c = 2 ^ 8 * off + c := by
    rw [Nat.shiftLeft_eq, Nat.mul_comm]
    exact (Nat.mul_add_lt_is_or (by omega) off).symm
  rw [e]
  constructor
  · simp [sector_count, be_bytes, be_value, le_bytes, le_value]
    omega
  · simp [sector_offset, be_bytes, be_value, le_bytes, le_value]
    omega

/-! ## Setting and clearing a slot -/

theorem mcr_open_rdonly_readonly (file : Option (List Nat)) (m : MCR)
    (e : Option errno_value) (hopen : mcr_open file O_RDONLY = (some m, e)) :
    m.readonly = true := by
  unfold mcr_open at hopen
  rw [if_neg (by decide)] at hopen
  split at hopen
  · cases hopen
  · rename_i fd _
    rw [if_neg (by
      intro h
      exact absurd h.2.1 (by decide))] at hopen
    split at hopen
    · cases hopen
    · split at hopen
      · cases hopen
      · simp only [Prod.mk.injEq, Option.some.injEq] at hopen
        rw [← hopen.1]
        exact (mcr_open_chunks_slots _ _ _).2.2.1

/-- C16. On a container opened with the mode `O_RDONLY`, `mcr_chunk_set` with
any slot and any argument, a document or none, returns -1 with `errno` at
`EPERM` and leaves the container, with every slot and the watermark, as it
was. -/
theorem readonly_set_rejected (nbt_dump_compressed : nbt_node → List Nat)
    (file : Option (List Nat)) (m : MCR) (e : Option errno_value)
    (hopen : mcr_open file O_RDONLY = (some m, e)) (x z : Nat) (root : Option nbt_node) :
    m.readonly = true
      ∧ mcr_chunk_set nbt_dump_compressed m x z root
        = .ok { ret := -1, errno := some .EPERM, mcr := m } := by
  have hro := mcr_open_rdonly_readonly file m e hopen
  refine ⟨hro, ?_⟩
  unfold mcr_chunk_set
  rw [if_pos hro]

/-- C16, at the container that `mcr_open` makes of a file of 8192 zero bytes
opened with `O_RDONLY`. -/
theorem readonly_set_rejected_witness :
    mcr_open (some (List.replicate 8192 0)) O_RDONLY
        = (some (mcr_open_chunks ((List.replicate 8192 0).take 8192) slot_order
            { fd := { bytes := List.replicate 8192 0, pos := 8192, access := O_RDONLY },
              readonly := decide (O_RDONLY = O_RDONLY), last_timestamp := 0,
              chunk := calloc_chunk }), none)
      ∧ (mcr_open_chunks ((List.replicate 8192 0).take 8192) slot_order
          { fd := { bytes := List.replicate 8192 0, pos := 8192, access := O_RDONLY },
            readonly := decide (O_RDONLY = O_RDONLY), last_timestamp := 0,
            chunk := calloc_chunk }).readonly = true
      ∧ mcr_chunk_set (fun _ => [120, 156])
          (mcr_open_chunks ((List.replicate 8192 0).take 8192) slot_order
            { fd := { bytes := List.replicate 8192 0, pos := 8192, access := O_RDONLY },
              readonly := decide (O_RDONLY = O_RDONLY), last_timestamp := 0,
              chunk := calloc_chunk }) 3 4 (some (nbt_node.tag_byte (some []) 5))
        = .ok { ret := -1, errno := some .EPERM,
                mcr := mcr_open_chunks ((List.replicate 8192 0).take 8192) slot_order
                  { fd := { bytes := List.replicate 8192 0, pos := 8192, access := O_RDONLY },
                    readonly := decide (O_RDONLY = O_RDONLY), last_timestamp := 0,
                    chunk := calloc_chunk } } :=
  ⟨mcr_open_eq (List.replicate 8192 0) O_RDONLY (Or.inl rfl) (by rw [List.length_replicate]),
    readonly_set_rejected (fun _ => [120, 156]) (some (List.replicate 8192 0)) _ none
      (mcr_open_eq (List.replicate 8192 0) O_RDONLY (Or.inl rfl)
        (by rw [List.length_replicate])) 3 4 (some (nbt_node.tag_byte (some []) 5))⟩

/-- C17. A `mcr_chunk_set` with a document that returns 0: the container is
not read-only; the slot holds the byte 2 followed by the compressed encoding,
with the length of both and the watermark of the container as its timestamp;
the watermark and every other slot are as before; and a second such call on
another slot leaves both slots with the same timestamp. -/
theorem passive_stamping (nbt_dump_compressed : nbt_node → List Nat) (m : MCR) (x z : Nat)
    (doc : nbt_node) (r : set_result)
    (hset : mcr_chunk_set nbt_dump_compressed m x z (some doc) = .ok r) (hret : r.ret = 0) :
    m.readonly = false
      ∧ r.mcr.chunk x z
        = { timestamp := m.last_timestamp
            len := (nbt_dump_compressed doc).length + 1
            data := some (2 :: nbt_dump_compressed doc) }
      ∧ r.mcr.last_timestamp = m.last_timestamp
      ∧ r.mcr.readonly = m.readonly ∧ r.mcr.fd = m.fd
      ∧ (∀ x1 z1, (x1, z1) ≠ (x, z) → r.mcr.chunk x1 z1 = m.chunk x1 z1)
      ∧ (∀ x2 z2 doc2 r2, (x2, z2) ≠ (x, z) →
          mcr_chunk_set nbt_dump_compressed r.mcr x2 z2 (some doc2) = .ok r2 → r2.ret = 0 →
          (r2.mcr.chunk x2 z2).timestamp = m.last_timestamp
            ∧ (r2.mcr.chunk x z).timestamp = m.last_timestamp) := by
  have key : ∀ (m : MCR) (x z : Nat) (doc : nbt_node) (r : set_result),
      mcr_chunk_set nbt_dump_compressed m x z (some doc) = .ok r → r.ret = 0 →
      m.readonly = false ∧ (nbt_dump_compressed doc).length + 1 < 2 ^ 32
        ∧ r.mcr = { m with
            chunk := set_chunk m.chunk x z
              ⟨m.last_timestamp, ((nbt_dump_compressed doc).length + 1) % 2 ^ 32,
                some (2 :: nbt_dump_compressed doc)⟩ } := by
    intro m x z doc r hset hret
    unfold mcr_chunk_set at hset
    cases hro : m.readonly with
    | true =>
      rw [hro] at hset
      simp only [if_true] at hset
      cases hset
      simp at hret
    | false =>
      rw [hro] at hset
      simp only [Bool.false_eq_true, if_false] at hset
      split at hset
      · cases hset
      · rename_i hlen
        cases hset
        exact ⟨rfl, by omega, rfl⟩
  obtain ⟨h1, h2, h3⟩ := key m x z doc r hset hret
  refine ⟨h1, ?_, ?_, ?_, ?_, ?_, ?_⟩
  · rw [h3]
    dsimp only
    rw [set_chunk_same, Nat.mod_eq_of_lt h2]
  · rw [h3]
  · rw [h3]
  · rw [h3]
  · intro x1 z1 hne
    rw [h3]
    exact set_chunk_other _ _ _ _ _ _ hne
  · intro x2 z2 doc2 r2 hne hset2 hret2
    obtain ⟨_, _, k3⟩ := key r.mcr x2 z2 doc2 r2 hset2 hret2
    rw [k3]
    dsimp only
    rw [set_chunk_same, set_chunk_other _ _ _ _ _ _ (Ne.symm hne), h3]
    dsimp only
    rw [set_chunk_same]
    exact ⟨rfl, rfl⟩

/-- C17, at a new container, slot (3, 4) and a two-byte encoding. -/
theorem passive_stamping_witness :
    mcr_chunk_set (fun _ => [120, 156])
        { fd := { bytes := [], pos := 0, access := O_RDWR }, readonly := false,
          last_timestamp := 1, chunk := calloc_chunk } 3 4
        (some (nbt_node.tag_byte (some []) 5))
      = .ok { ret := 0, errno := none,
              mcr := { fd := { bytes := [], pos := 0, access := O_RDWR }, readonly := false,
                       last_timestamp := 1,
                       chunk := set_chunk calloc_chunk 3 4
                         { timestamp := 1, len := 3, data := some [2, 120, 156] } } }
      ∧ (set_chunk calloc_chunk 3 4
          { timestamp := 1, len := 3, data := some [2, 120, 156] }) 3 4
        = { timestamp := 1, len := 3, data := some [2, 120, 156] } :=
  ⟨rfl, (passive_stamping (fun _ => [120, 156])
    { fd := { bytes := [], pos := 0, access := O_RDWR }, readonly := false,
      last_timestamp := 1, chunk := calloc_chunk } 3 4
    (nbt_node.tag_byte (some []) 5)
    { ret := 0, errno := none,
      mcr := { fd := { bytes := [], pos := 0, access := O_RDWR }, readonly := false,
               last_timestamp := 1,
               chunk := set_chunk calloc_chunk 3 4
                 { timestamp := 1, len := 3, data := some [2, 120, 156] } } }
    rfl rfl).2.1⟩

/-- C18. On a container that is not read-only, `mcr_chunk_set` with no document
returns 0 and leaves the slot without data, with length 0 and timestamp 0; the
watermark and every other slot are as before; and `mcr_chunk_get` on the slot
then returns `NULL` with `errno` at `NBT_OK`. -/
theorem clearing_a_slot (nbt_dump_compressed : nbt_node → List Nat)
    (nbt_parse_compressed : List Nat → Except Failure nbt_node) (m : MCR) (x z : Nat)
    (hro : m.readonly = false) :
    ∃ r, mcr_chunk_set nbt_dump_compressed m x z none = .ok r
      ∧ r.ret = 0
      ∧ r.mcr.chunk x z = { timestamp := 0, len := 0, data := none }
      ∧ r.mcr.last_timestamp = m.last_timestamp
      ∧ r.mcr.readonly = m.readonly ∧ r.mcr.fd = m.fd
      ∧ (∀ x1 z1, (x1, z1) ≠ (x, z) → r.mcr.chunk x1 z1 = m.chunk x1 z1)
      ∧ mcr_chunk_get nbt_parse_compressed r.mcr x z = .ok none := by
  refine ⟨{ ret := 0, errno := none,
            mcr := { m with chunk := set_chunk m.chunk x z ⟨0, 0, none⟩ } },
    ?_, rfl, set_chunk_same _ _ _ _, rfl, rfl, rfl, ?_, ?_⟩
  · unfold mcr_chunk_set
    rw [hro]
    simp
  · intro x1 z1 hne
    exact set_chunk_other _ _ _ _ _ _ hne
  · unfold mcr_chunk_get
    dsimp only
    rw [set_chunk_same]

/-- C18, at a container whose slot (3, 4) holds three bytes. -/
theorem clearing_a_slot_witness :
    ∃ r, mcr_chunk_set (fun _ => [120, 156])
        { fd := { bytes := [], pos := 0, access := O_RDWR }, readonly := false,
          last_timestamp := 1,
          chunk := set_chunk calloc_chunk 3 4
            { timestamp := 1, len := 3, data := some [2, 120, 156] } } 3 4 none = .ok r
      ∧ r.ret = 0
      ∧ r.mcr.chunk 3 4 = { timestamp := 0, len := 0, data := none }
      ∧ mcr_chunk_get (fun _ => .error (.errno NBT_ERR)) r.mcr 3 4 = .ok none := by
  obtain ⟨r, h1, h2, h3, _, _, _, _, h8⟩ := clearing_a_slot (fun _ => [120, 156])
    (fun _ => .error (.errno NBT_ERR))
    { fd := { bytes := [], pos := 0, access := O_RDWR }, readonly := false,
      last_timestamp := 1,
      chunk := set_chunk calloc_chunk 3 4
        { timestamp := 1, len := 3, data := some [2, 120, 156] } } 3 4 rfl
  exact ⟨r, h1, h2, h3, h8⟩

/-! ## The header written by `mcr_close` -/

/-- C19. After a `mcr_close` that returns 0 on a container that is not
read-only, for every slot `(x, z)`: the location entry of the file, the 4 bytes
at offset `4 * (x + 32 * z)`, holds 0 when the slot has no data, and otherwise
the four low-order bytes, most significant first, of
`(sector_offset << 8) | sector_count`, the sector offset being the position of
the file when the loop reached the slot, divided by 4096, and the sector count
the value of `(len+4+4096) / 4096`; the timestamp entry, the 4 bytes at offset
`4096 + 4 * (x + 32 * z)`, holds 0 when the slot has no data, whatever its
timestamp field, and otherwise the timestamp of the slot, most significant byte
first. -/
theorem close_header_tables (m : MCR) (hro : m.readonly = false) (r : close_result)
    (hclose : mcr_close m = .ok r) (hret : r.ret = 0) (x z : Nat) (hx : x < 32)
    (hz : z < 32) :
    ((m.chunk x z).data = none →
        location_entry r.file x z = [0, 0, 0, 0] ∧ timestamp_entry r.file x z = [0, 0, 0, 0])
      ∧ (∀ d, (m.chunk x z).data = some d →
          location_entry r.file x z
            = be_bytes 4 (((write_position m.chunk slot_order 8192 (x, z) / 4096) <<< 8)
                ||| chunkLenBlocks (m.chunk x z).len)
          ∧ timestamp_entry r.file x z = be_bytes 4 (m.chunk x z).timestamp) := by
  obtain ⟨h1, h2⟩ := (mcr_close_header m hro r hclose hret).2.2.2 x z hx hz
  constructor
  · intro hd
    rw [hd] at h1 h2
    exact ⟨h1, h2⟩
  · intro d hd
    rw [hd] at h1 h2
    exact ⟨h1, h2⟩

/-- C19, at a container whose slot (3, 4) holds three bytes with timestamp 1 and
whose slot (5, 6) holds no data but the timestamp 9. -/
theorem close_header_tables_witness :
    ∃ r, mcr_close
        { fd := { bytes := [], pos := 0, access := O_RDWR }, readonly := false,
          last_timestamp := 1,
          chunk := set_chunk
            (set_chunk calloc_chunk 3 4 { timestamp := 1, len := 3, data := some [2, 120, 156] })
            5 6 { timestamp := 9, len := 0, data := none } } = .ok r
      ∧ r.ret = 0
      ∧ location_entry r.file 3 4 = [0, 0, 2, 1] ∧ timestamp_entry r.file 3 4 = [0, 0, 0, 1]
      ∧ location_entry r.file 5 6 = [0, 0, 0, 0]
      ∧ timestamp_entry r.file 5 6 = [0, 0, 0, 0] := by
  have hchunk : ∀ x1 z1 d1,
      (set_chunk
        (set_chunk calloc_chunk 3 4 { timestamp := 1, len := 3, data := some [2, 120, 156] })
        5 6 { timestamp := 9, len := 0, data := none } x1 z1).data = some d1 →
      (x1, z1) = (3, 4) := by
    intro x1 z1 d1 hd1
    by_contra hne
    by_cases h56 : (x1, z1) = (5, 6)
    · obtain ⟨rfl, rfl⟩ : x1 = 5 ∧ z1 = 6 := by simpa using h56
      rw [set_chunk_same] at hd1
      cases hd1
    · rw [set_chunk_other _ _ _ _ _ _ h56, set_chunk_other _ _ _ _ _ _ hne] at hd1
      cases hd1
  obtain ⟨r, h1, h2, _⟩ := mcr_close_succeeds
    { fd := { bytes := [], pos := 0, access := O_RDWR }, readonly := false,
      last_timestamp := 1,
      chunk := set_chunk
        (set_chunk calloc_chunk 3 4 { timestamp := 1, len := 3, data := some [2, 120, 156] })
        5 6 { timestamp := 9, len := 0, data := none } } rfl (by decide)
    (by
      intro x1 z1 _ _ d1 hd1
      obtain ⟨rfl, rfl⟩ : x1 = 3 ∧ z1 = 4 := by simpa using hchunk x1 z1 d1 hd1
      have e : set_chunk
          (set_chunk calloc_chunk 3 4 { timestamp := 1, len := 3, data := some [2, 120, 156] })
          5 6 { timestamp := 9, len := 0, data := none } 3 4
          = { timestamp := 1, len := 3, data := some [2, 120, 156] } := rfl
      dsimp only at hd1 ⊢
      rw [e] at hd1 ⊢
      cases hd1
      decide)
  obtain ⟨_, a2⟩ := close_header_tables _ rfl r h1 h2 3 4 (by decide) (by decide)
  obtain ⟨b1, _⟩ := close_header_tables _ rfl r h1 h2 5 6 (by decide) (by decide)
  obtain ⟨c1, c2⟩ := a2 [2, 120, 156] rfl
  obtain ⟨c3, c4⟩ := b1 rfl
  have hpos : write_position
      (set_chunk
        (set_chunk calloc_chunk 3 4 { timestamp := 1, len := 3, data := some [2, 120, 156] })
        5 6 { timestamp := 9, len := 0, data := none }) slot_order 8192 (3, 4) = 8192 := by
    have hz : ∀ l : List (Nat × Nat), ∀ start, write_position
        (set_chunk
          (set_chunk calloc_chunk 3 4
            { timestamp := 1, len := 3, data := some [2, 120, 156] })
          5 6 { timestamp := 9, len := 0, data := none }) l start (3, 4) = start := by
      intro l
      induction l with
      | nil => intro start; simp [write_position]
      | cons p rest ih =>
        intro start
        by_cases hp : p = (3, 4)
        · rw [hp, write_position_head]
        · rw [write_position_tail _ _ _ _ _ hp]
          have hspan : close_span (set_chunk
              (set_chunk calloc_chunk 3 4
                { timestamp := 1, len := 3, data := some [2, 120, 156] })
              5 6 { timestamp := 9, len := 0, data := none } p.1 p.2) = 0 := by
            cases hd : (set_chunk
              (set_chunk calloc_chunk 3 4
                { timestamp := 1, len := 3, data := some [2, 120, 156] })
              5 6 { timestamp := 9, len := 0, data := none } p.1 p.2).data with
            | none => simp [close_span, hd]
            | some d1 => exact absurd (hchunk p.1 p.2 d1 hd) hp
          rw [hspan, Nat.add_zero]
          exact ih start
    exact hz slot_order 8192
  rw [hpos] at c1
  exact ⟨r, h1, h2, c1.trans (by decide), c2.trans (by decide), c3, c4⟩

/-! ## The sector count -/

/-- C20, as amended. After a `mcr_close` that returns 0 on a container that is
not read-only, for a slot with data whose length `len` has
`len + 4100 < 2^32`: the sector count in the location entry of the file is
`(len + 4) / 4096 + 1`, which is the quotient of `len + 4` by 4096 rounded up
when `len + 4` is not a multiple of 4096, and one more than it when it is. -/
theorem recorded_sector_count (m : MCR) (hro : m.readonly = false) (r : close_result)
    (hclose : mcr_close m = .ok r) (hret : r.ret = 0) (x z : Nat) (hx : x < 32)
    (hz : z < 32) (d : List Nat) (hd : (m.chunk x z).data = some d)
    (hsmall : (m.chunk x z).len + 4100 < 2 ^ 32) :
    sector_count (location_entry r.file x z) = ((m.chunk x z).len + 4) / 4096 + 1
      ∧ (((m.chunk x z).len + 4) % 4096 ≠ 0 →
          sector_count (location_entry r.file x z) = ((m.chunk x z).len + 4 + 4095) / 4096)
      ∧ (((m.chunk x z).len + 4) % 4096 = 0 →
          sector_count (location_entry r.file x z)
            = ((m.chunk x z).len + 4 + 4095) / 4096 + 1) := by
  obtain ⟨_, _, h3, h4⟩ := mcr_close_header m hro r hclose hret
  obtain ⟨hb, _⟩ := h3 x z hx hz d hd
  obtain ⟨h5, _⟩ := h4 x z hx hz
  rw [hd] at h5
  simp only at h5
  rw [h5, (sector_count_be_bytes _ _ hb).1]
  have e : chunkLenBlocks (m.chunk x z).len = ((m.chunk x z).len + 4100) / 4096 := by
    unfold chunkLenBlocks
    rw [Nat.mod_eq_of_lt hsmall]
  rw [e]
  refine ⟨by omega, fun h => by omega, fun h => by omega⟩

/-- C20 (as amended), at a container whose slot (3, 4) holds three bytes. -/
theorem recorded_sector_count_witness :
    ∃ r, mcr_close
        { fd := { bytes := [], pos := 0, access := O_RDWR }, readonly := false,
          last_timestamp := 1,
          chunk := set_chunk calloc_chunk 3 4
            { timestamp := 1, len := 3, data := some [2, 120, 156] } } = .ok r
      ∧ r.ret = 0 ∧ sector_count (location_entry r.file 3 4) = 1 := by
  obtain ⟨r, h1, h2, _⟩ := single_slot_close { bytes := [], pos := 0, access := O_RDWR }
    (by decide) 1 3 4 (by decide) (by decide)
    { timestamp := 1, len := 3, data := some [2, 120, 156] } [2, 120, 156] rfl (by decide)
    (by decide) (by decide)
  exact ⟨r, h1, h2, (recorded_sector_count _ rfl r h1 h2 3 4 (by decide) (by decide)
    [2, 120, 156] rfl (by decide)).1⟩

/-- C20, counterexample. A slot whose data is 4092 bytes long, so that
`len + 4` is 4096: `mcr_close` returns 0 and records the sector count 2, while
the quotient of `len + 4` by 4096 rounded up is 1. -/
theorem sector_count_of_exact_multiple :
    ∃ r, mcr_close
        { fd := { bytes := [], pos := 0, access := O_RDWR }, readonly := false,
          last_timestamp := 1,
          chunk := set_chunk calloc_chunk 0 0
            { timestamp := 1, len := 4092, data := some (2 :: List.replicate 4091 0) } }
        = .ok r
      ∧ r.ret = 0
      ∧ sector_count (location_entry r.file 0 0) = 2
      ∧ (4092 + 4 + 4095) / 4096 = 1
      ∧ chunkLenBlocks 4092 = 2 := by
  obtain ⟨r, h1, h2, _, h4, _⟩ := single_slot_close { bytes := [], pos := 0, access := O_RDWR }
    (by decide) 1 0 0 (by decide) (by decide)
    { timestamp := 1, len := 4092, data := some (2 :: List.replicate 4091 0) }
    (2 :: List.replicate 4091 0) rfl (by decide)
    (by rw [List.length_cons, List.length_replicate]) (by decide)
  refine ⟨r, h1, h2, ?_, by decide, by decide⟩
  rw [h4]
  decide

/-! ## A slot set, written and read back -/

theorem reopened_stamp (c : Nat) (hc : c ≤ 255) :
    be_bytes 4 ((2 <<< 8) ||| c) = [0, 0, 2, c]
      ∧ ntohl ((le_value [0, 0, 2, c] + 4096) % 2 ^ 32) = 1049088 + c := by
  have e : (2 <<< 8) ||| c = 2 ^ 8 * 2 + c := by
    rw [Nat.shiftLeft_eq, Nat.mul_comm]
    exact (Nat.mul_add_lt_is_or (by omega) 2).symm
  rw [e]
  constructor
  · simp [be_bytes, le_bytes]
    omega
  · simp [ntohl, swap_bytes, le_bytes, le_value]
    omega

/-- The timestamp that `mcr_open` records on a slot whose location entry is not
zero: `ntohl` of the location entry, read as a `uint32_t` of the host, plus
4096. -/
theorem mcr_open_timestamp (file : List Nat) (mode : Nat)
    (hmode : mode = O_RDONLY ∨ mode = O_RDWR) (hlen : 8192 ≤ file.length) (x z : Nat)
    (hx : x < 32) (hz : z < 32) (b0 b1 b2 b3 : Nat)
    (hentry : location_entry file x z = [b0, b1, b2, b3])
    (hne : ¬ (chunk_offset [b0, b1, b2, b3] = 0 ∧ chunk_nsect [b0, b1, b2, b3] = 0)) :
    ∃ m : MCR, mcr_open (some file) mode = (some m, none)
      ∧ (m.chunk x z).timestamp = ntohl ((le_value [b0, b1, b2, b3] + 4096) % 2 ^ 32) := by
  obtain ⟨m, hopen, _, _, _, hslots⟩ := mcr_open_existing file mode hmode hlen
  obtain ⟨mp, _, _, _, hm⟩ := hslots x z hx hz
  obtain ⟨c0, c1, c2, c3, rest, rest1, _, hhdr, hloc, _⟩ := header_entry file hlen x z hx hz
  rw [hentry] at hloc
  simp only [List.cons.injEq, and_true] at hloc
  obtain ⟨rfl, rfl, rfl, rfl⟩ := hloc
  have e1 : chunk_offset (b0 :: b1 :: b2 :: b3 :: rest1) = chunk_offset [b0, b1, b2, b3] := rfl
  have e2 : chunk_nsect (b0 :: b1 :: b2 :: b3 :: rest1) = chunk_nsect [b0, b1, b2, b3] := rfl
  have e3 : (b0 :: b1 :: b2 :: b3 :: rest1).take 4 = [b0, b1, b2, b3] := rfl
  rw [_mcr_read_chunk_slot, hhdr, e1, e2, e3, if_neg hne] at hm
  exact ⟨m, hopen, by rw [hm]⟩

/-- C12. A new container, a document set in slot `(x, z)` whose compressed
encoding is short enough for 255 sectors, the container closed and the file
opened again: every step succeeds, the slot carried the timestamp 1 when it was
set and the timestamp table of the file holds 1 for it, and the timestamp of
the slot after reopening is 1049088 plus its sector count, not 1. -/
theorem reopened_timestamp_differs (nbt_dump_compressed : nbt_node → List Nat)
    (doc : nbt_node) (x z : Nat) (hx : x < 32) (hz : z < 32)
    (hsize : (nbt_dump_compressed doc).length < 1044475) :
    ∃ m0 r1 r2 m2,
      mcr_open none (O_RDWR ||| O_CREAT) = (some m0, none)
      ∧ m0.last_timestamp = 1
      ∧ mcr_chunk_set nbt_dump_compressed m0 x z (some doc) = .ok r1 ∧ r1.ret = 0
      ∧ (r1.mcr.chunk x z).timestamp = 1
      ∧ mcr_close r1.mcr = .ok r2 ∧ r2.ret = 0
      ∧ be_value (timestamp_entry r2.file x z) = 1
      ∧ mcr_open (some r2.file) O_RDONLY = (some m2, none)
      ∧ (m2.chunk x z).timestamp
          = 1049088 + chunkLenBlocks ((nbt_dump_compressed doc).length + 1)
      ∧ (m2.chunk x z).timestamp ≠ 1 := by
  have hlen : (nbt_dump_compressed doc).length + 1 < 2 ^ 32 := by omega
  have hb : chunkLenBlocks ((nbt_dump_compressed doc).length + 1) ≤ 255 := by
    unfold chunkLenBlocks
    rw [Nat.mod_eq_of_lt (by omega)]
    omega
  obtain ⟨r2, h1, h2, h3, h4, h5⟩ := single_slot_close
    { bytes := [], pos := 0, access := O_RDWR } (by decide) 1 x z hx hz
    { timestamp := 1, len := (nbt_dump_compressed doc).length + 1,
      data := some (2 :: nbt_dump_compressed doc) }
    (2 :: nbt_dump_compressed doc) rfl hb (by simp)
    (Nat.le_trans (Nat.le_of_lt (Nat.succ_lt_succ hsize)) (by decide))
  obtain ⟨e1, e2⟩ := reopened_stamp _ hb
  dsimp only at h4 h5
  rw [e1] at h4
  obtain ⟨m2, h6, h7⟩ := mcr_open_timestamp r2.file O_RDONLY (Or.inl rfl) h3 x z hx hz
    0 0 2 _ h4 (by
      intro h
      have e : chunk_offset
          [0, 0, 2, chunkLenBlocks ((nbt_dump_compressed doc).length + 1)] = 2 := by
        simp [chunk_offset]
      rw [e] at h
      exact absurd h.1 (by decide))
  rw [e2] at h7
  refine ⟨{ fd := { bytes := [], pos := 0, access := O_RDWR }, readonly := false,
            last_timestamp := 1, chunk := calloc_chunk },
    { ret := 0, errno := none,
      mcr := { fd := { bytes := [], pos := 0, access := O_RDWR }, readonly := false,
               last_timestamp := 1,
               chunk := set_chunk calloc_chunk x z
                 { timestamp := 1, len := (nbt_dump_compressed doc).length + 1,
                   data := some (2 :: nbt_dump_compressed doc) } } },
    r2, m2, by rfl, rfl, ?_, rfl, ?_, h1, h2, ?_, h6, h7, ?_⟩
  · unfold mcr_chunk_set
    simp only [Bool.false_eq_true, if_false]
    rw [if_neg (by omega), Nat.mod_eq_of_lt hlen]
  · dsimp only
    rw [set_chunk_same]
  · rw [h5]
    decide
  · rw [h7]
    omega

/-- C12, at slot (3, 4) and a two-byte encoding. -/
theorem reopened_timestamp_differs_witness :
    ∃ m0 r1 r2 m2,
      mcr_open none (O_RDWR ||| O_CREAT) = (some m0, none)
      ∧ m0.last_timestamp = 1
      ∧ mcr_chunk_set (fun _ => [120, 156]) m0 3 4 (some (nbt_node.tag_byte (some []) 5))
          = .ok r1 ∧ r1.ret = 0
      ∧ (r1.mcr.chunk 3 4).timestamp = 1
      ∧ mcr_close r1.mcr = .ok r2 ∧ r2.ret = 0
      ∧ be_value (timestamp_entry r2.file 3 4) = 1
      ∧ mcr_open (some r2.file) O_RDONLY = (some m2, none)
      ∧ (m2.chunk 3 4).timestamp = 1049088 + chunkLenBlocks (([120, 156] : List Nat).length + 1)
      ∧ (m2.chunk 3 4).timestamp ≠ 1 :=
  reopened_timestamp_differs (fun _ => [120, 156]) (nbt_node.tag_byte (some []) 5) 3 4
    (by decide) (by decide) (by decide)

/-! ## The byte order of array elements, from the wire -/

theorem chunks_eq_range (k : Nat) :
    ∀ (n : Nat) (bs : List Nat),
      chunks k n bs = (List.range n).map (fun i => (bs.drop (k * i)).take k) := by
  intro n
  induction n with
  | zero => intro bs; rfl
  | succ n ih =>
    intro bs
    rw [chunks, ih, List.range_succ_eq_map, List.map_cons, List.map_map]
    congr 1
    apply List.map_congr_left
    intro i _
    simp only [Function.comp, List.drop_drop]
    congr 2
    rw [Nat.mul_succ]
    omega

theorem be_value_of_host (c : List Nat) (k : Nat) (hk : c.length = k) (hb : ∀ b ∈ c, b < 256) :
    le_value (swap_bytes (le_bytes k (le_value c))) = be_value c := by
  rw [← hk, le_bytes_le_value c hb]
  rfl

/-- The macro `ntohll` reverses the eight bytes of the bit pattern. -/
theorem ntohll_reverses (x : Int) : ntohll x = be_value (le_bytes 8 (to_unsigned 64 x)) := by
  have happ : ∀ a b : List Nat, le_value (a ++ b) = le_value a + 256 ^ a.length * le_value b := by
    intro a b
    induction a with
    | nil => simp [le_value]
    | cons h t ih =>
      show h + 256 * le_value (t ++ b) = h + 256 * le_value t + 256 ^ (t.length + 1) * le_value b
      rw [ih, pow_succ]
      ring
  have hsplit : ∀ u : Nat, le_bytes 8 u = le_bytes 4 (u % 4294967296) ++ le_bytes 4 (u / 4294967296) := by
    intro u
    simp only [le_bytes, List.cons_append, List.nil_append]
    have e1 : u % 4294967296 % 256 = u % 256 := by omega
    have e2 : u % 4294967296 / 256 % 256 = u / 256 % 256 := by omega
    have e3 : u % 4294967296 / 256 / 256 % 256 = u / 256 / 256 % 256 := by omega
    have e4 : u % 4294967296 / 256 / 256 / 256 % 256 = u / 256 / 256 / 256 % 256 := by omega
    have e5 : u / 256 / 256 / 256 / 256 = u / 4294967296 := by omega
    rw [e1, e2, e3, e4, e5]
  rw [ntohll_eq, be_value, hsplit, List.reverse_append, happ, List.length_reverse,
    le_bytes_length]
  simp only [ntohl, swap_bytes]
  ring

theorem read_array_header (mem : List Nat) (hlen : ¬ mem.length < 4) :
    READ_GENERIC 4 swapped_memscan mem = some (be2ne (mem.take 4), mem.drop 4)
      ∧ le_value (be2ne (mem.take 4)) = be_value (mem.take 4) := by
  constructor
  · simp [READ_GENERIC, hlen, swapped_memscan, memscan]
  · simp [be2ne, swap_bytes, be_value]

theorem wire_chunk (wire : List Nat) (k n i : Nat) (hi : i < n) :
    ((wire.take (k * n)).drop (k * i)).take k = (wire.drop (k * i)).take k := by
  rw [List.drop_take, List.take_take]
  congr 1
  have : k * (i + 1) ≤ k * n := Nat.mul_le_mul_left k hi
  have e : k * (i + 1) = k * i + k := by ring
  omega

theorem to_signed_32_range (u : Nat) (hu : u < 4294967296) :
    -2147483648 ≤ to_signed 32 u ∧ to_signed 32 u < 2147483648 := by
  simp only [to_signed]
  norm_num
  split <;> omega

theorem be_value_lt (c : List Nat) (hb : ∀ b ∈ c, b < 256) : be_value c < 256 ^ c.length := by
  have := le_value_lt c.reverse (fun b h => hb b (List.mem_reverse.mp h))
  rwa [List.length_reverse] at this

theorem READ_GENERIC_memscan_eq (n : Nat) (mem : List Nat) :
    READ_GENERIC n memscan mem
      = if mem.length < n then none else some (mem.take n, mem.drop n) := rfl

/-- What `read_int_array` returns when it returns an array: the length field
read big-endian, that many elements, each the big-endian two's complement value
of its four bytes, and the bytes after them. -/
theorem read_int_array_elements (mem : List Nat) (data : List Int) (length : Int)
    (rest : List Nat) (hb : ∀ b ∈ mem, b < 256)
    (h : read_int_array mem = .ok ((data, length), rest)) :
    length = to_signed 32 (be_value (mem.take 4)) ∧ 0 ≤ length
      ∧ 4 + 4 * length.toNat ≤ mem.length
      ∧ rest = mem.drop (4 + 4 * length.toNat)
      ∧ data = (List.range length.toNat).map
          (fun i => to_signed 32 (be_value ((mem.drop (4 + 4 * i)).take 4))) := by
  unfold read_int_array at h
  by_cases hlen : mem.length < 4
  · simp [READ_GENERIC, hlen] at h
  · obtain ⟨hr, hv⟩ := read_array_header mem hlen
    rw [hr] at h
    simp only [hv] at h
    have hlt : be_value (mem.take 4) < 4294967296 := by
      have := be_value_lt (mem.take 4) (fun b hb1 => hb b (List.mem_of_mem_take hb1))
      have hl : (mem.take 4).length = 4 := by rw [List.length_take]; omega
      rw [hl] at this
      norm_num at this
      exact this
    obtain ⟨r1, r2⟩ := to_signed_32_range _ hlt
    generalize to_signed 32 (be_value (mem.take 4)) = len at h r1 r2 ⊢
    by_cases hneg : len < 0
    · rw [if_pos hneg] at h
      cases h
    · rw [if_neg hneg] at h
      have hs : to_size_t len = len.toNat := by
        have := to_size_t_natCast len.toNat (by omega)
        rwa [Int.toNat_of_nonneg (by omega)] at this
      rw [hs, READ_GENERIC_memscan_eq] at h
      by_cases hmal : malloc_fails (to_size_t (wrap_int32 (4 * len))) = true
      · rw [if_pos hmal] at h
        cases h
      · rw [if_neg hmal] at h
        by_cases hshort : (mem.drop 4).length < 4 * len.toNat
        · rw [if_pos hshort] at h
          cases h
        · rw [if_neg hshort] at h
          simp only at h
          split at h
          · cases h
          · simp only [Except.ok.injEq, Prod.mk.injEq] at h
            obtain ⟨⟨hd, hl⟩, hrest⟩ := h
            rw [List.length_drop] at hshort
            refine ⟨hl.symm, by omega, by omega, ?_, ?_⟩
            · rw [← hrest, List.drop_drop, ← hl]
            · rw [← hd, ← hl, chunks_eq_range, List.map_map]
              apply List.map_congr_left
              intro i hi
              have hi' : i < len.toNat := List.mem_range.mp hi
              simp only [Function.comp]
              rw [wire_chunk _ 4 _ _ hi', List.drop_drop]
              have hc : ((mem.drop (4 * i + 4)).take 4).length = 4 := by
                rw [List.length_take, List.length_drop]
                omega
              have e : 4 + 4 * i = 4 * i + 4 := by omega
              rw [e]
              congr 1
              exact be_value_of_host _ 4 hc (fun b hb1 =>
                hb b (List.mem_of_mem_drop (List.mem_of_mem_take hb1)))

/-- What `read_long_array` returns when it returns an array: like
`read_int_array`, with elements of eight bytes. -/
theorem read_long_array_elements (mem : List Nat) (data : List Int) (length : Int)
    (rest : List Nat) (hb : ∀ b ∈ mem, b < 256)
    (h : read_long_array mem = .ok ((data, length), rest)) :
    length = to_signed 32 (be_value (mem.take 4)) ∧ 0 ≤ length
      ∧ 4 + 8 * length.toNat ≤ mem.length
      ∧ rest = mem.drop (4 + 8 * length.toNat)
      ∧ data = (List.range length.toNat).map
          (fun i => to_signed 64 (be_value ((mem.drop (4 + 8 * i)).take 8))) := by
  unfold read_long_array at h
  by_cases hlen : mem.length < 4
  · simp [READ_GENERIC, hlen] at h
  · obtain ⟨hr, hv⟩ := read_array_header mem hlen
    rw [hr] at h
    simp only [hv] at h
    have hlt : be_value (mem.take 4) < 4294967296 := by
      have := be_value_lt (mem.take 4) (fun b hb1 => hb b (List.mem_of_mem_take hb1))
      have hl : (mem.take 4).length = 4 := by rw [List.length_take]; omega
      rw [hl] at this
      norm_num at this
      exact this
    obtain ⟨r1, r2⟩ := to_signed_32_range _ hlt
    generalize to_signed 32 (be_value (mem.take 4)) = len at h r1 r2 ⊢
    by_cases hneg : len < 0
    · rw [if_pos hneg] at h
      cases h
    · rw [if_neg hneg] at h
      have hs : to_size_t len = len.toNat := by
        have := to_size_t_natCast len.toNat (by omega)
        rwa [Int.toNat_of_nonneg (by omega)] at this
      rw [hs, READ_GENERIC_memscan_eq] at h
      by_cases hmal : malloc_fails (to_size_t (wrap_int32 (8 * len))) = true
      · rw [if_pos hmal] at h
        cases h
      · rw [if_neg hmal] at h
        by_cases hshort : (mem.drop 4).length < 8 * len.toNat
        · rw [if_pos hshort] at h
          cases h
        · rw [if_neg hshort] at h
          simp only at h
          split at h
          · cases h
          · simp only [Except.ok.injEq, Prod.mk.injEq] at h
            obtain ⟨⟨hd, hl⟩, hrest⟩ := h
            rw [List.length_drop] at hshort
            refine ⟨hl.symm, by omega, by omega, ?_, ?_⟩
            · rw [← hrest, List.drop_drop, ← hl]
            · rw [← hd, ← hl, chunks_eq_range, List.map_map]
              apply List.map_congr_left
              intro i hi
              have hi' : i < len.toNat := List.mem_range.mp hi
              simp only [Function.comp]
              rw [wire_chunk _ 8 _ _ hi', List.drop_drop]
              have hc : ((mem.drop (8 * i + 4)).take 8).length = 8 := by
                rw [List.length_take, List.length_drop]
                omega
              have hcb : ∀ b ∈ (mem.drop (8 * i + 4)).take 8, b < 256 := fun b hb1 =>
                hb b (List.mem_of_mem_drop (List.mem_of_mem_take hb1))
              have e : 4 + 8 * i = 8 * i + 4 := by omega
              rw [e]
              congr 1
              have hu : le_value ((mem.drop (8 * i + 4)).take 8) < 18446744073709551616 := by
                have := le_value_lt _ hcb
                rw [hc] at this
                norm_num at this
                exact this
              rw [ntohll_reverses, to_unsigned_to_signed_64 _ hu]
              have := le_bytes_le_value _ hcb
              rw [hc] at this
              rw [this]

/-- What `read_byte_array` returns when it returns an array: the length field
read big-endian and that many bytes as they stand. -/
theorem read_byte_array_elements (mem : List Nat) (data : List Nat) (length : Int)
    (rest : List Nat) (hb : ∀ b ∈ mem, b < 256)
    (h : read_byte_array mem = .ok ((data, length), rest)) :
    length = to_signed 32 (be_value (mem.take 4)) ∧ 0 ≤ length
      ∧ 4 + length.toNat ≤ mem.length
      ∧ rest = mem.drop (4 + length.toNat)
      ∧ data = (mem.drop 4).take length.toNat := by
  unfold read_byte_array at h
  by_cases hlen : mem.length < 4
  · simp [READ_GENERIC, hlen] at h
  · obtain ⟨hr, hv⟩ := read_array_header mem hlen
    rw [hr] at h
    simp only [hv] at h
    have hlt : be_value (mem.take 4) < 4294967296 := by
      have := be_value_lt (mem.take 4) (fun b hb1 => hb b (List.mem_of_mem_take hb1))
      have hl : (mem.take 4).length = 4 := by rw [List.length_take]; omega
      rw [hl] at this
      norm_num at this
      exact this
    obtain ⟨r1, r2⟩ := to_signed_32_range _ hlt
    generalize to_signed 32 (be_value (mem.take 4)) = len at h r1 r2 ⊢
    by_cases hneg : len < 0
    · rw [if_pos hneg] at h
      cases h
    · rw [if_neg hneg] at h
      have hs : to_size_t len = len.toNat := by
        have := to_size_t_natCast len.toNat (by omega)
        rwa [Int.toNat_of_nonneg (by omega)] at this
      rw [hs, READ_GENERIC_memscan_eq] at h
      by_cases hmal : malloc_fails len.toNat = true
      · rw [if_pos hmal] at h
        cases h
      · rw [if_neg hmal] at h
        by_cases hshort : (mem.drop 4).length < len.toNat
        · rw [if_pos hshort] at h
          cases h
        · rw [if_neg hshort] at h
          simp only [Except.ok.injEq, Prod.mk.injEq] at h
          obtain ⟨⟨hd, hl⟩, hrest⟩ := h
          rw [List.length_drop] at hshort
          refine ⟨hl.symm, by omega, by omega, ?_, ?_⟩
          · rw [← hrest, List.drop_drop, ← hl]
          · rw [← hd, ← hl]

theorem array_length_field (n : Nat) (hn : n < 2 ^ 31) :
    to_signed 32 n = (n : Int) ∧ ¬ ((n : Int) < 0) ∧ to_size_t (n : Int) = n := by
  refine ⟨?_, by omega, to_size_t_natCast n (by omega)⟩
  unfold to_signed
  rw [if_pos (by omega)]

/-- A memory that holds a length field below `2^29` and four bytes for every
element: `read_int_array` returns an array of that length and leaves the bytes
after the elements. -/
theorem read_int_array_succeeds (mem : List Nat) (n : Nat) (hn : n < 2 ^ 29)
    (hfield : be_value (mem.take 4) = n) (hmem : 4 + 4 * n ≤ mem.length) :
    ∃ data, read_int_array mem = .ok ((data, (n : Int)), mem.drop (4 + 4 * n)) := by
  obtain ⟨hr, hv⟩ := read_array_header mem (by omega)
  obtain ⟨e1, e2, e3⟩ := array_length_field n (by omega)
  have e4 : wrap_int32 (4 * (n : Int)) = ((4 * n : Nat) : Int) := by
    rw [wrap_int32_small _ (by omega) (by omega)]
    push_cast
    rfl
  have e5 : to_size_t ((4 * n : Nat) : Int) = 4 * n := to_size_t_natCast _ (by omega)
  have e6 : malloc_fails (4 * n) = false := by
    unfold malloc_fails
    exact decide_eq_false (by omega)
  unfold read_int_array
  rw [hr]
  simp only [hv, hfield, e1, if_neg e2, e3, e4, e5, e6, Bool.false_eq_true, if_false,
    READ_GENERIC_memscan_eq]
  rw [if_neg (by rw [List.length_drop]; omega)]
  simp only [Nat.lt_irrefl, if_false, List.drop_drop]
  exact ⟨_, rfl⟩

/-- A memory that holds a length field below `2^28` and eight bytes for every
element: `read_long_array` returns an array of that length and leaves the bytes
after the elements. -/
theorem read_long_array_succeeds (mem : List Nat) (n : Nat) (hn : n < 2 ^ 28)
    (hfield : be_value (mem.take 4) = n) (hmem : 4 + 8 * n ≤ mem.length) :
    ∃ data, read_long_array mem = .ok ((data, (n : Int)), mem.drop (4 + 8 * n)) := by
  obtain ⟨hr, hv⟩ := read_array_header mem (by omega)
  obtain ⟨e1, e2, e3⟩ := array_length_field n (by omega)
  have e4 : wrap_int32 (8 * (n : Int)) = ((8 * n : Nat) : Int) := by
    rw [wrap_int32_small _ (by omega) (by omega)]
    push_cast
    rfl
  have e5 : to_size_t ((8 * n : Nat) : Int) = 8 * n := to_size_t_natCast _ (by omega)
  have e6 : malloc_fails (8 * n) = false := by
    unfold malloc_fails
    exact decide_eq_false (by omega)
  unfold read_long_array
  rw [hr]
  simp only [hv, hfield, e1, if_neg e2, e3, e4, e5, e6, Bool.false_eq_true, if_false,
    READ_GENERIC_memscan_eq]
  rw [if_neg (by rw [List.length_drop]; omega)]
  simp only [Nat.lt_irrefl, if_false, List.drop_drop]
  exact ⟨_, rfl⟩

/-- A memory that holds a length field below `2^31` and a byte for every
element: `read_byte_array` returns an array of that length and leaves the bytes
after the elements. -/
theorem read_byte_array_succeeds (mem : List Nat) (n : Nat) (hn : n < 2 ^ 31)
    (hfield : be_value (mem.take 4) = n) (hmem : 4 + n ≤ mem.length) :
    ∃ data, read_byte_array mem = .ok ((data, (n : Int)), mem.drop (4 + n)) := by
  obtain ⟨hr, hv⟩ := read_array_header mem (by omega)
  obtain ⟨e1, e2, e3⟩ := array_length_field n hn
  have e6 : malloc_fails n = false := by
    unfold malloc_fails
    exact decide_eq_false (by omega)
  unfold read_byte_array
  rw [hr]
  simp only [hv, hfield, e1, if_neg e2, e3, e6, Bool.false_eq_true, if_false,
    READ_GENERIC_memscan_eq]
  rw [if_neg (by rw [List.length_drop]; omega)]
  simp only [List.drop_drop]
  exact ⟨_, rfl⟩

/-- C25. Decoding on the little-endian host, from a memory of bytes: the
elements that `read_int_array` returns are the big-endian two's complement
values of the consecutive groups of four bytes after the length field, as many
as the length field says; those of `read_long_array` the same with groups of
eight bytes; the bytes that `read_byte_array` returns are the bytes after the
length field as they stand. The macro `ntohll` reverses the eight bytes of the
bit pattern of its argument, and applied twice to an `int64_t`, negative or
not, gives it back. Decoding succeeds on every memory that holds a length field
below `2^29` for an IntArray, `2^28` for a LongArray and `2^31` for a
ByteArray, followed by the bytes of that many elements. -/
theorem array_element_byte_order :
    (∀ (mem : List Nat) (data : List Int) (length : Int) (rest : List Nat),
        (∀ b ∈ mem, b < 256) → read_int_array mem = .ok ((data, length), rest) →
        length = to_signed 32 (be_value (mem.take 4)) ∧ 0 ≤ length
          ∧ rest = mem.drop (4 + 4 * length.toNat)
          ∧ data.length = length.toNat
          ∧ data = (List.range length.toNat).map
              (fun i => to_signed 32 (be_value ((mem.drop (4 + 4 * i)).take 4))))
      ∧ (∀ (mem : List Nat) (data : List Int) (length : Int) (rest : List Nat),
          (∀ b ∈ mem, b < 256) → read_long_array mem = .ok ((data, length), rest) →
          length = to_signed 32 (be_value (mem.take 4)) ∧ 0 ≤ length
            ∧ rest = mem.drop (4 + 8 * length.toNat)
            ∧ data.length = length.toNat
            ∧ data = (List.range length.toNat).map
                (fun i => to_signed 64 (be_value ((mem.drop (4 + 8 * i)).take 8))))
      ∧ (∀ (mem : List Nat) (data : List Nat) (length : Int) (rest : List Nat),
          (∀ b ∈ mem, b < 256) → read_byte_array mem = .ok ((data, length), rest) →
          length = to_signed 32 (be_value (mem.take 4)) ∧ 0 ≤ length
            ∧ rest = mem.drop (4 + length.toNat)
            ∧ data.length = length.toNat
            ∧ data = (mem.drop 4).take length.toNat)
      ∧ (∀ x : Int, ntohll x = be_value (le_bytes 8 (to_unsigned 64 x)))
      ∧ (∀ v : Int, -9223372036854775808 ≤ v → v < 9223372036854775808 →
          to_signed 64 (ntohll (to_signed 64 (ntohll v))) = v)
      ∧ (∀ (mem : List Nat) (n : Nat), n < 2 ^ 29 → be_value (mem.take 4) = n →
          4 + 4 * n ≤ mem.length →
          ∃ data, read_int_array mem = .ok ((data, (n : Int)), mem.drop (4 + 4 * n)))
      ∧ (∀ (mem : List Nat) (n : Nat), n < 2 ^ 28 → be_value (mem.take 4) = n →
          4 + 8 * n ≤ mem.length →
          ∃ data, read_long_array mem = .ok ((data, (n : Int)), mem.drop (4 + 8 * n)))
      ∧ (∀ (mem : List Nat) (n : Nat), n < 2 ^ 31 → be_value (mem.take 4) = n →
          4 + n ≤ mem.length →
          ∃ data, read_byte_array mem = .ok ((data, (n : Int)), mem.drop (4 + n))) := by
  refine ⟨?_, ?_, ?_, ntohll_reverses, ntohll_ntohll, read_int_array_succeeds,
    read_long_array_succeeds, read_byte_array_succeeds⟩
  · intro mem data length rest hb h
    obtain ⟨h1, h2, _, h4, h5⟩ := read_int_array_elements mem data length rest hb h
    exact ⟨h1, h2, h4, by rw [h5]; simp, h5⟩
  · intro mem data length rest hb h
    obtain ⟨h1, h2, _, h4, h5⟩ := read_long_array_elements mem data length rest hb h
    exact ⟨h1, h2, h4, by rw [h5]; simp, h5⟩
  · intro mem data length rest hb h
    obtain ⟨h1, h2, h3, h4, h5⟩ := read_byte_array_elements mem data length rest hb h
    refine ⟨h1, h2, h4, ?_, h5⟩
    rw [h5, List.length_take, List.length_drop]
    omega

/-- C25, at an IntArray of the two elements 1 and -2, a LongArray of the one
element -2, and a ByteArray of two bytes, each followed by the byte 7. -/
theorem array_element_byte_order_witness :
    read_int_array [0, 0, 0, 2, 0, 0, 0, 1, 0xFF, 0xFF, 0xFF, 0xFE, 7] = .ok (([1, -2], 2), [7])
      ∧ [(1 : Int), -2] = (List.range (2 : Int).toNat).map
          (fun i => to_signed 32 (be_value
            (([0, 0, 0, 2, 0, 0, 0, 1, 0xFF, 0xFF, 0xFF, 0xFE, 7].drop (4 + 4 * i)).take 4)))
      ∧ read_long_array [0, 0, 0, 1, 0xFF, 0xFF, 0xFF, 0xFF, 0xFF, 0xFF, 0xFF, 0xFE, 7]
          = .ok (([-2], 1), [7])
      ∧ [(-2 : Int)] = (List.range (1 : Int).toNat).map
          (fun i => to_signed 64 (be_value
            (([0, 0, 0, 1, 0xFF, 0xFF, 0xFF, 0xFF, 0xFF, 0xFF, 0xFF, 0xFE, 7].drop
              (4 + 8 * i)).take 8)))
      ∧ read_byte_array [0, 0, 0, 2, 0xCA, 0xFE, 7] = .ok (([0xCA, 0xFE], 2), [7])
      ∧ ntohll (-2) = 0xFEFFFFFFFFFFFFFF :=
  ⟨by rfl,
    (array_element_byte_order.1 [0, 0, 0, 2, 0, 0, 0, 1, 0xFF, 0xFF, 0xFF, 0xFE, 7] [1, -2] 2 [7]
      (by decide) (by rfl)).2.2.2.2,
    by rfl,
    (array_element_byte_order.2.1
      [0, 0, 0, 1, 0xFF, 0xFF, 0xFF, 0xFF, 0xFF, 0xFF, 0xFF, 0xFE, 7] [-2] 1 [7]
      (by decide) (by rfl)).2.2.2.2,
    by rfl, by rfl⟩

/-! ## List counts that are not positive -/

/-- C26. A List payload whose header declares any kind byte `k` and a signed
32-bit count `c` that is zero or negative: `read_list` succeeds, consumes the
five bytes of the header and nothing more, and returns the kind `k` with no
children; `parse_unnamed_tag` turns it into a List without children whose kind
is Compound when `k` is 0 and `k` itself otherwise, whether or not `k` is one of
the twelve kinds. The same at the root of a document. -/
theorem nonpositive_list_count_accepted (fuel : Nat) (name : Option (List Nat)) (k : Nat)
    (c : Int) (hc1 : -2147483648 ≤ c) (hc2 : c ≤ 0) (rest : List Nat)
    (p : nbt_type → List Nat → Except Failure (nbt_node × List Nat)) :
    read_list p (k :: (be2ne (le_bytes 4 (to_unsigned 32 c)) ++ rest)) = .ok ((k, []), rest)
      ∧ parse_unnamed_tag (fuel + 1) TAG_LIST name
          (k :: (be2ne (le_bytes 4 (to_unsigned 32 c)) ++ rest))
        = .ok (nbt_node.tag_list name (if k = 0 then TAG_COMPOUND else k) [], rest)
      ∧ (∀ (mem n : List Nat),
          read_string mem = .ok (n, k :: (be2ne (le_bytes 4 (to_unsigned 32 c)) ++ rest)) →
          nbt_parse (TAG_LIST :: mem)
            = .ok (nbt_node.tag_list (some n) (if k = 0 then TAG_COMPOUND else k) [])) := by
  obtain ⟨hr, hv⟩ := length_field_32 c hc1 (by omega) rest
  have key : ∀ (p : nbt_type → List Nat → Except Failure (nbt_node × List Nat)),
      read_list p (k :: (be2ne (le_bytes 4 (to_unsigned 32 c)) ++ rest))
        = .ok ((k, []), rest) := by
    intro p
    have h0 : c.toNat = 0 := by omega
    have hh : list_is_homogenous k [] = if k = TAG_INVALID then k else k := by
      simp [list_is_homogenous, list_is_homogenous_loop]
    simp only [read_list, READ_GENERIC_one _ (Or.inr rfl), hr, hv, le_value_singleton, h0,
      read_list_elems, hh, ite_self]
  have key2 : ∀ (fuel : Nat) (name : Option (List Nat)),
      parse_unnamed_tag (fuel + 1) TAG_LIST name
          (k :: (be2ne (le_bytes 4 (to_unsigned 32 c)) ++ rest))
        = .ok (nbt_node.tag_list name (if k = 0 then TAG_COMPOUND else k) [], rest) := by
    intro fuel name
    rw [parse_unnamed_tag_list, key]
    simp [Except.map]
  refine ⟨key p, key2 fuel name, ?_⟩
  intro mem n h
  simp only [nbt_parse, READ_GENERIC_one _ (Or.inl rfl), h, le_value_singleton]
  rw [key2]
  rfl

/-- C26, at the kind 0 with the count -1 and at the kind 200 with the count
-2147483648, each followed by the byte 7. -/
theorem nonpositive_list_count_accepted_witness :
    (be2ne (le_bytes 4 (to_unsigned 32 (-1))) = [0xFF, 0xFF, 0xFF, 0xFF]
      ∧ parse_unnamed_tag (0 + 1) TAG_LIST none
          (0 :: (be2ne (le_bytes 4 (to_unsigned 32 (-1))) ++ [7]))
        = .ok (nbt_node.tag_list none (if 0 = 0 then TAG_COMPOUND else 0) [], [7]))
      ∧ (be2ne (le_bytes 4 (to_unsigned 32 (-2147483648))) = [0x80, 0, 0, 0]
        ∧ parse_unnamed_tag (0 + 1) TAG_LIST none
            (200 :: (be2ne (le_bytes 4 (to_unsigned 32 (-2147483648))) ++ [7]))
          = .ok (nbt_node.tag_list none (if 200 = 0 then TAG_COMPOUND else 200) [], [7])) :=
  ⟨⟨by decide,
      (nonpositive_list_count_accepted 0 none 0 (-1) (by decide) (by decide) [7]
        (fun _ _ => .error .undefined)).2.1⟩,
    ⟨by decide,
      (nonpositive_list_count_accepted 0 none 200 (-2147483648) (by decide) (by decide) [7]
        (fun _ _ => .error .undefined)).2.1⟩⟩

/-! ## The element kind the encoder writes -/

theorem list_is_homogenous_nonempty (declared k : nbt_type) (list : List nbt_node)
    (hne : list ≠ []) (hall : ∀ c ∈ list, c.type = k) :
    list_is_homogenous declared list = k ∧ 1 ≤ k ∧ k ≤ 12 := by
  cases list with
  | nil => exact absurd rfl hne
  | cons x xs =>
    have hk : 1 ≤ k ∧ k ≤ 12 := by
      rw [← hall x (by simp)]
      exact type_range x
    have hty : k ≠ TAG_INVALID := by
      intro h
      rw [h] at hk
      exact absurd hk.1 (by decide)
    have := (list_is_homogenous_loop_all k hty (x :: xs) hall).2 (by simp)
    exact ⟨by simp [list_is_homogenous, this, hty], hk⟩

/-- C27. A list that has children, all of one kind `k`, no more than
2147483647 of them, and whose children are encoded without type bytes as
`body`: `dump_list_binary` writes the byte `k`, the four big-endian bytes of the
number of children, and `body`; the declared kind of the list plays no part, so
the same bytes are written under every declared kind. On a list without
children it writes the declared kind, as a byte, followed by the count 0, unless
the declared kind is 0, which it refuses. -/
theorem list_kind_written (declared k : nbt_type) (list : List nbt_node) (body : List Nat)
    (hne : list ≠ []) (hall : ∀ c ∈ list, c.type = k) (hlen : list.length ≤ 2147483647)
    (hbody : dump_entries list false = .ok body) :
    dump_list_binary declared list (dump_entries list false)
        = .ok ([k] ++ be2ne (le_bytes 4 (to_unsigned 32 list.length)) ++ body)
      ∧ (∀ other, dump_list_binary other list (dump_entries list false)
          = dump_list_binary declared list (dump_entries list false))
      ∧ (∀ d, d ≠ TAG_INVALID →
          dump_list_binary d [] (dump_entries [] false) = .ok [d % 256, 0, 0, 0, 0])
      ∧ dump_list_binary TAG_INVALID [] (dump_entries [] false) = .error (.errno NBT_ERR) := by
  obtain ⟨hhom, hk1, hk2⟩ := list_is_homogenous_nonempty declared k list hne hall
  have hty : k ≠ TAG_INVALID := by
    intro h0
    rw [h0] at hk1
    exact absurd hk1 (by decide)
  have hform : ∀ (other : nbt_type) (b : Except Failure (List Nat)),
      dump_list_binary other list b
      = if list.length > 2147483647 then .error (.errno NBT_ERR)
        else match b with
          | .error err => .error err
          | .ok bytes =>
            .ok ([k] ++ be2ne (le_bytes 4 (to_unsigned 32 list.length)) ++ bytes) := by
    intro other b
    have hh := (list_is_homogenous_nonempty other k list hne hall).1
    unfold dump_list_binary
    simp only [hh, hty, if_false, type_byte k hk2]
    rfl
  refine ⟨?_, ?_, ?_, ?_⟩
  · rw [hform, if_neg (by omega), hbody]
  · intro other
    rw [hform, hform]
  · intro d hd
    have hd0 : ¬ (d = 0) := hd
    have : le_bytes 1 (to_unsigned 8 (d : Int)) = [d % 256] := by
      simp only [to_unsigned, le_bytes]
      norm_num
      omega
    simp [dump_list_binary, list_is_homogenous, list_is_homogenous_loop, hd0, dump_entries,
      this, be2ne, swap_bytes]
    decide
  · simp [dump_list_binary, list_is_homogenous, list_is_homogenous_loop]

/-- C27, at the list of the Bytes 1 and 2 declared as a list of Strings. -/
theorem list_kind_written_witness :
    dump_entries [nbt_node.tag_byte none 1, nbt_node.tag_byte none 2] false = .ok [1, 2]
      ∧ dump_list_binary TAG_STRING [nbt_node.tag_byte none 1, nbt_node.tag_byte none 2]
          (dump_entries [nbt_node.tag_byte none 1, nbt_node.tag_byte none 2] false)
        = .ok [1, 0, 0, 0, 2, 1, 2] :=
  ⟨by rfl,
    (list_kind_written TAG_STRING TAG_BYTE
      [nbt_node.tag_byte none 1, nbt_node.tag_byte none 2] [1, 2]
      (by simp) (by intro c hc; simp at hc; rcases hc with rfl | rfl <;> rfl) (by decide)
      (by rfl)).1.trans (by rfl)⟩

/-! ## The ASCII dumper: texts -/

theorem then_append_ok (a b : List Nat) : then_append (.ok a) (.ok b) = .ok (a ++ b) := rfl

theorem bprintf_ok (text : List Nat) (h : text.length < 2147483647) :
    bprintf text = .ok text := by
  unfold bprintf
  rw [if_neg (by omega)]

theorem bprintf_undefined (text : List Nat) (h : 2147483647 ≤ text.length) :
    bprintf text = .error .undefined := by
  unfold bprintf
  rw [if_pos h]

theorem indent_zero : indent 0 = .ok [] := rfl

/-- The digits that `decimal_digits` writes are decimal digits, and read as a
decimal numeral they give the number back. -/
theorem decimal_digits_value :
    ∀ (fuel n : Nat), n < 10 ^ fuel →
      (∀ d ∈ decimal_digits fuel n, 48 ≤ d ∧ d ≤ 57)
      ∧ (decimal_digits fuel n).foldl (fun a d => 10 * a + (d - 48)) 0 = n
      ∧ (decimal_digits fuel n).length ≤ fuel
      ∧ (0 < fuel → decimal_digits fuel n ≠ []) := by
  intro fuel
  induction fuel with
  | zero =>
    intro n h
    have h0 : n = 0 := by simpa using h
    subst h0
    simp [decimal_digits]
  | succ fuel ih =>
    intro n h
    by_cases h10 : n < 10
    · simp only [decimal_digits, h10, if_true]
      refine ⟨?_, ?_, ?_, ?_⟩
      · intro d hd
        simp at hd
        omega
      · simp
      · simp
      · simp
    · simp only [decimal_digits, h10, if_false]
      have hlt : n / 10 < 10 ^ fuel := by
        rw [pow_succ] at h
        omega
      obtain ⟨i1, i2, i3, _⟩ := ih (n / 10) hlt
      refine ⟨?_, ?_, ?_, ?_⟩
      · intro d hd
        rw [List.mem_append] at hd
        rcases hd with hd | hd
        · exact i1 d hd
        · simp at hd
          omega
      · rw [List.foldl_append, i2]
        simp
        omega
      · rw [List.length_append]
        simp
        omega
      · intro _
        simp

theorem printf_u_value (n : Nat) :
    (∀ d ∈ printf_u n, 48 ≤ d ∧ d ≤ 57)
      ∧ (printf_u n).foldl (fun a d => 10 * a + (d - 48)) 0 = n := by
  have h : n < 10 ^ (n + 1) := by
    calc n < 10 ^ n := Nat.lt_pow_self (by decide) n
      _ ≤ 10 ^ (n + 1) := Nat.pow_le_pow_right (by decide) (by omega)
  obtain ⟨h1, h2, _, _⟩ := decimal_digits_value (n + 1) n h
  exact ⟨h1, h2⟩

theorem scalar_line_length (kind : String) (name : Option (List Nat)) (value : List Nat) :
    (scalar_line kind name value).length
      = (c_string kind).length + (SAFE_NAME name).length + value.length + 7 := by
  have e1 : (c_string "(\"").length = 2 := by decide
  have e2 : (c_string "\"): ").length = 4 := by decide
  simp only [scalar_line, List.length_append, e1, e2, List.length_singleton]
  omega

/-- A node whose line is written by one `bprintf`, at the root. -/
theorem nbt_dump_ascii_scalar (float_text double_text : Nat → List Nat) (t : nbt_node)
    (line : List Nat) (hline : line.length < 2147483647)
    (h : __nbt_dump_ascii float_text double_text t 0 = then_append (indent 0) (bprintf line)) :
    nbt_dump_ascii float_text double_text (some t) = .ok line := by
  have hm : malloc_fails (line.length + 1) = false := by
    simp only [malloc_fails, decide_eq_false_iff_not]
    omega
  simp only [nbt_dump_ascii, h, indent_zero, bprintf_ok line hline, then_append_ok,
    List.nil_append, hm]
  rfl

/-- C23, as amended. The ASCII dump of no tree is the empty string. For a Byte,
Short, Int or Long at the root, with a name and a value whose texts together
stay below 2147483630 bytes, it is the one line `TAG_<Kind>("<name>"): <value>`
and a newline: the name up to its terminator, or `<null>` for a node without a
name, which is not what a node with the empty name gets; and the value in
decimal digits, after a minus sign when it is negative. -/
theorem ascii_scalar_lines (float_text double_text : Nat → List Nat)
    (name : Option (List Nat)) (v : Int)
    (hshort : (SAFE_NAME name).length + (printf_d v).length < 2147483630) :
    nbt_dump_ascii float_text double_text none = .ok []
      ∧ nbt_dump_ascii float_text double_text (some (nbt_node.tag_byte name v))
        = .ok (c_string "TAG_Byte(\"" ++ SAFE_NAME name ++ c_string "\"): " ++ printf_d v
            ++ c_string "\n")
      ∧ nbt_dump_ascii float_text double_text (some (nbt_node.tag_short name v))
        = .ok (c_string "TAG_Short(\"" ++ SAFE_NAME name ++ c_string "\"): " ++ printf_d v
            ++ c_string "\n")
      ∧ nbt_dump_ascii float_text double_text (some (nbt_node.tag_int name v))
        = .ok (c_string "TAG_Int(\"" ++ SAFE_NAME name ++ c_string "\"): " ++ printf_d v
            ++ c_string "\n")
      ∧ nbt_dump_ascii float_text double_text (some (nbt_node.tag_long name v))
        = .ok (c_string "TAG_Long(\"" ++ SAFE_NAME name ++ c_string "\"): " ++ printf_d v
            ++ c_string "\n")
      ∧ SAFE_NAME none = c_string "<null>"
      ∧ SAFE_NAME (some []) = c_string ""
      ∧ (∀ n, SAFE_NAME (some n) = n.take (strlen n))
      ∧ (0 ≤ v → (∀ d ∈ printf_d v, 48 ≤ d ∧ d ≤ 57)
          ∧ (((printf_d v).foldl (fun a d => 10 * a + (d - 48)) 0 : Nat) : Int) = v)
      ∧ (v < 0 → ∃ digits, printf_d v = c_string "-" ++ digits
          ∧ (∀ d ∈ digits, 48 ≤ d ∧ d ≤ 57)
          ∧ - ((digits.foldl (fun a d => 10 * a + (d - 48)) 0 : Nat) : Int) = v) := by
  have hk1 : (c_string "TAG_Byte").length = 8 := by decide
  have hk2 : (c_string "TAG_Short").length = 9 := by decide
  have hk3 : (c_string "TAG_Int").length = 7 := by decide
  have hk4 : (c_string "TAG_Long").length = 8 := by decide
  refine ⟨by rfl, ?_, ?_, ?_, ?_, by rfl, by rfl, fun _ => rfl, ?_, ?_⟩
  · exact nbt_dump_ascii_scalar _ _ _ (scalar_line "TAG_Byte" name (printf_d v))
      (by rw [scalar_line_length, hk1]; omega) rfl
  · exact nbt_dump_ascii_scalar _ _ _ (scalar_line "TAG_Short" name (printf_d v))
      (by rw [scalar_line_length, hk2]; omega) rfl
  · exact nbt_dump_ascii_scalar _ _ _ (scalar_line "TAG_Int" name (printf_d v))
      (by rw [scalar_line_length, hk3]; omega) rfl
  · exact nbt_dump_ascii_scalar _ _ _ (scalar_line "TAG_Long" name (printf_d v))
      (by rw [scalar_line_length, hk4]; omega) rfl
  · intro hv
    have e : printf_d v = printf_u v.toNat := by
      unfold printf_d
      rw [if_neg (by omega)]
    obtain ⟨h1, h2⟩ := printf_u_value v.toNat
    rw [e, h2]
    exact ⟨h1, by omega⟩
  · intro hv
    have e : printf_d v = 45 :: printf_u (-v).toNat := by
      unfold printf_d
      rw [if_pos hv]
    obtain ⟨h1, h2⟩ := printf_u_value (-v).toNat
    exact ⟨printf_u (-v).toNat, e, h1, by rw [h2]; omega⟩

/-- C23 (as amended), at the Byte -128 named "A", without a name, and with the
empty name. -/
theorem ascii_scalar_lines_witness :
    nbt_dump_ascii (fun _ => []) (fun _ => []) (some (nbt_node.tag_byte (some (c_string "A")) (-128)))
        = .ok (c_string "TAG_Byte(\"A\"): -128\n")
      ∧ nbt_dump_ascii (fun _ => []) (fun _ => []) (some (nbt_node.tag_byte none (-128)))
        = .ok (c_string "TAG_Byte(\"<null>\"): -128\n")
      ∧ nbt_dump_ascii (fun _ => []) (fun _ => []) (some (nbt_node.tag_byte (some []) (-128)))
        = .ok (c_string "TAG_Byte(\"\"): -128\n")
      ∧ nbt_dump_ascii (fun _ => []) (fun _ => [])
          (some (nbt_node.tag_long (some (c_string "A")) (-9223372036854775808)))
        = .ok (c_string "TAG_Long(\"A\"): -9223372036854775808\n") :=
  ⟨(ascii_scalar_lines (fun _ => []) (fun _ => []) (some (c_string "A")) (-128)
      (by decide)).2.1.trans (by rfl),
    (ascii_scalar_lines (fun _ => []) (fun _ => []) none (-128) (by decide)).2.1.trans
      (by rfl),
    (ascii_scalar_lines (fun _ => []) (fun _ => []) (some []) (-128) (by decide)).2.1.trans
      (by rfl),
    (ascii_scalar_lines (fun _ => []) (fun _ => []) (some (c_string "A"))
      (-9223372036854775808) (by decide)).2.2.2.2.1.trans (by rfl)⟩

theorem strlen_replicate (n b : Nat) (hb : b ≠ 0) :
    strlen (List.replicate n b) = n
      ∧ SAFE_NAME (some (List.replicate n b)) = List.replicate n b := by
  have h : strlen (List.replicate n b) = n := by
    unfold strlen
    induction n with
    | zero => rfl
    | succ n ih =>
      rw [List.replicate_succ, List.takeWhile_cons]
      have : (b != 0) = true := by simpa using hb
      rw [this]
      simp only [if_true, List.length_cons, ih]
  refine ⟨h, ?_⟩
  show (List.replicate n b).take (strlen (List.replicate n b)) = List.replicate n b
  rw [h]
  exact List.take_of_length_le (by rw [List.length_replicate])

theorem ascii_long_name (float_text double_text : Nat → List Nat) (n : Nat) (v : Int)
    (hn : 2147483647 ≤ n) :
    nbt_dump_ascii float_text double_text
        (some (nbt_node.tag_byte (some (List.replicate n 65)) v)) = .error .undefined := by
  have hl : 2147483647 ≤ (scalar_line "TAG_Byte" (some (List.replicate n 65))
      (printf_d v)).length := by
    rw [scalar_line_length, (strlen_replicate n 65 (by decide)).2, List.length_replicate]
    omega
  simp only [nbt_dump_ascii, __nbt_dump_ascii, indent_zero, bprintf_undefined _ hl]
  rfl

/-- C23 (as stated) fails: for the Byte 5 whose name is 2147483647 letters `A`,
the line is longer than the `int` of `bprintf` holds, and the dump is not the
line but undefined behaviour. -/
theorem ascii_name_too_long :
    strlen (List.replicate 2147483647 65) = 2147483647
      ∧ nbt_dump_ascii (fun _ => []) (fun _ => [])
          (some (nbt_node.tag_byte (some (List.replicate 2147483647 65)) 5))
        = .error .undefined :=
  ⟨(strlen_replicate 2147483647 65 (by decide)).1,
    ascii_long_name (fun _ => []) (fun _ => []) 2147483647 5 (Nat.le_refl _)⟩

/-! ## The ASCII dumper: arrays -/

/-- C22. The ASCII dump of a LongArray writes each element through the
conversion `%d`, which takes an `int`: of the elements 4294967296, 2147483648
and -1 it writes `0`, `-2147483648` and `-1`. A ByteArray and an IntArray are
written with the exact values of their elements, and an array without elements
as `[ ]`. -/
theorem ascii_long_array_truncated :
    nbt_dump_ascii (fun _ => []) (fun _ => [])
        (some (nbt_node.tag_long_array (some (c_string "L")) [4294967296, 2147483648, -1] 3))
        = .ok (c_string "TAG_Long_Array(\"L\"): [ 0 -2147483648 -1 ]\n")
      ∧ nbt_dump_ascii (fun _ => []) (fun _ => [])
          (some (nbt_node.tag_byte_array (some (c_string "B")) [0, 255] 2))
        = .ok (c_string "TAG_Byte_Array(\"B\"): [ 0 255 ]\n")
      ∧ nbt_dump_ascii (fun _ => []) (fun _ => [])
          (some (nbt_node.tag_int_array (some (c_string "I")) [-2147483648, 2147483647] 2))
        = .ok (c_string "TAG_Int_Array(\"I\"): [ -2147483648 2147483647 ]\n")
      ∧ nbt_dump_ascii (fun _ => []) (fun _ => [])
          (some (nbt_node.tag_long_array (some (c_string "L")) [] 0))
        = .ok (c_string "TAG_Long_Array(\"L\"): [ ]\n") := by
  refine ⟨by rfl, by rfl, by rfl, by rfl⟩

/-! ## Closing: the limit on the size -/

/-- A length that passes the check on the sectors without wrapping is no longer
than one `write` transfers; and a length that one `write` transfers does not
wrap. -/
theorem small_le_cap (len : Nat) :
    (chunkLenBlocks len ≤ 255 → len + 4100 < 2 ^ 32 → len ≤ MAX_RW_COUNT)
      ∧ (len ≤ MAX_RW_COUNT → len + 4100 < 2 ^ 32)
      ∧ (chunkLenBlocks len ≤ 255 → len ≤ MAX_RW_COUNT → len ≤ 1044475) := by
  have hc : MAX_RW_COUNT = 2147479552 := rfl
  refine ⟨?_, ?_, ?_⟩
  · intro hb hs
    unfold chunkLenBlocks at hb
    rw [Nat.mod_eq_of_lt (by omega)] at hb
    omega
  · intro h
    omega
  · intro hb h
    unfold chunkLenBlocks at hb
    rw [Nat.mod_eq_of_lt (by omega)] at hb
    omega

/-- The loop of `mcr_close` stops with `EFBIG` when a slot with data fails the
check on the sectors, on a file open for writing, with every slot's data stored
in full and no length that wraps in `len+4+4096`. -/
theorem mcr_close_chunks_efbig (chunk : Nat → Nat → MCRChunk) :
    ∀ (l : List (Nat × Nat)) (st : close_state),
      st.fd.access ≠ O_RDONLY →
      (∀ s ∈ l, ∀ d, (chunk s.1 s.2).data = some d →
        (chunk s.1 s.2).len ≤ d.length ∧ (chunk s.1 s.2).len + 4100 < 2 ^ 32) →
      (∃ s ∈ l, ∃ d, (chunk s.1 s.2).data = some d ∧ chunkLenBlocks (chunk s.1 s.2).len > 255) →
      ∃ fd, mcr_close_chunks chunk l st = .error (.err (some .EFBIG) fd) := by
  intro l
  induction l with
  | nil =>
    intro st _ _ h
    obtain ⟨s, hs, _⟩ := h
    cases hs
  | cons p rest ih =>
    intro st hacc hall hbig
    obtain ⟨x, z⟩ := p
    have hrest : ¬ (chunkLenBlocks (chunk x z).len > 255 ∧ (chunk x z).data ≠ none) →
        ∃ s ∈ rest, ∃ d, (chunk s.1 s.2).data = some d
          ∧ chunkLenBlocks (chunk s.1 s.2).len > 255 := by
      intro hnot
      obtain ⟨s, hs, d, hd, hb⟩ := hbig
      rcases List.mem_cons.mp hs with rfl | hs
      · exact absurd ⟨hb, by rw [hd]; simp⟩ hnot
      · exact ⟨s, hs, d, hd, hb⟩
    cases hd : (chunk x z).data with
    | none =>
      obtain ⟨fd, h1⟩ := ih st hacc (fun s hs => hall s (List.mem_cons_of_mem _ hs))
        (hrest (by rw [hd]; simp))
      refine ⟨fd, ?_⟩
      rw [mcr_close_chunks]
      simp only [hd]
      exact h1
    | some d0 =>
      by_cases hb : chunkLenBlocks (chunk x z).len > 255
      · refine ⟨st.fd, ?_⟩
        rw [mcr_close_chunks]
        simp only [hd]
        rw [if_pos hb]
      · obtain ⟨hfull, hsmall⟩ := hall (x, z) (List.mem_cons_self _ _) d0 hd
        obtain ⟨fd3, _, ha, hstep⟩ := mcr_close_chunks_step chunk x z rest st d0 hd hacc
          (by omega) hfull ((small_le_cap _).1 (by omega) hsmall)
        obtain ⟨fd, h1⟩ := ih
          { fd := fd3
            chunkLoc := set_entry st.chunkLoc (x + z * 32)
              ((((st.fd.pos / 4096) <<< 8) ||| chunkLenBlocks (chunk x z).len) % 2 ^ 32)
            chunkTime := set_entry st.chunkTime (x + z * 32) (chunk x z).timestamp }
          (by rw [ha]; exact hacc) (fun s hs => hall s (List.mem_cons_of_mem _ hs))
          (hrest (fun h => hb h.1))
        exact ⟨fd, by rw [hstep]; exact h1⟩

theorem mcr_close_efbig (m : MCR) (hro : m.readonly = false) (hacc : m.fd.access ≠ O_RDONLY)
    (hall : ∀ x z, x < 32 → z < 32 → ∀ d, (m.chunk x z).data = some d →
      (m.chunk x z).len ≤ d.length ∧ (m.chunk x z).len + 4100 < 2 ^ 32)
    (hbig : ∃ x z d, x < 32 ∧ z < 32 ∧ (m.chunk x z).data = some d
      ∧ chunkLenBlocks (m.chunk x z).len > 255) :
    ∃ r, mcr_close m = .ok r ∧ r.ret = -1 ∧ r.errno = some .EFBIG := by
  obtain ⟨x, z, d, hx, hz, hd, hb⟩ := hbig
  obtain ⟨fd, h⟩ := mcr_close_chunks_efbig m.chunk slot_order
    { fd := sys_lseek m.fd 8192, chunkLoc := fun _ => 0, chunkTime := fun _ => 0 }
    (by rw [(sys_lseek_bytes m.fd 8192).2]; exact hacc)
    (fun s hs d hd =>
      hall s.1 s.2 ((mem_slot_order s.1 s.2).mp hs).1 ((mem_slot_order s.1 s.2).mp hs).2 d hd)
    ⟨(x, z), (mem_slot_order x z).mpr ⟨hx, hz⟩, d, hd, hb⟩
  refine ⟨{ ret := -1, errno := some .EFBIG, file := fd.bytes }, ?_, rfl, rfl⟩
  unfold mcr_close
  rw [hro]
  simp only [Bool.false_eq_true, if_false]
  rw [h]

/-- C21, as amended. For a container that is not read-only, on a file open for
writing, whose slots with data hold it in full and have lengths `len` with
`len + 4100 < 2^32`: `mcr_close` returns -1 with `errno` at `EFBIG` exactly when
some slot with data has a length of 1044476 or more, which is when
`(len + 4) / 4096 + 1` is 256 or more, and returns 0 otherwise. -/
theorem close_size_limit (m : MCR) (hro : m.readonly = false)
    (hacc : m.fd.access ≠ O_RDONLY)
    (hall : ∀ x z, x < 32 → z < 32 → ∀ d, (m.chunk x z).data = some d →
      (m.chunk x z).len ≤ d.length ∧ (m.chunk x z).len + 4100 < 2 ^ 32) :
    ((∃ r, mcr_close m = .ok r ∧ r.ret = -1 ∧ r.errno = some .EFBIG)
        ↔ ∃ x z d, x < 32 ∧ z < 32 ∧ (m.chunk x z).data = some d
            ∧ 1044476 ≤ (m.chunk x z).len)
      ∧ ((¬ ∃ x z d, x < 32 ∧ z < 32 ∧ (m.chunk x z).data = some d
            ∧ 1044476 ≤ (m.chunk x z).len)
          → ∃ r, mcr_close m = .ok r ∧ r.ret = 0 ∧ r.errno = none)
      ∧ (∀ len, len + 4100 < 2 ^ 32 →
          (chunkLenBlocks len > 255 ↔ 1044476 ≤ len)
          ∧ (1044476 ≤ len ↔ 256 ≤ (len + 4) / 4096 + 1)) := by
  have hblocks : ∀ len, len + 4100 < 2 ^ 32 →
      (chunkLenBlocks len > 255 ↔ 1044476 ≤ len)
      ∧ (1044476 ≤ len ↔ 256 ≤ (len + 4) / 4096 + 1) := by
    intro len hl
    unfold chunkLenBlocks
    rw [Nat.mod_eq_of_lt hl]
    constructor <;> constructor <;> intro h <;> omega
  have hok : (¬ ∃ x z d, x < 32 ∧ z < 32 ∧ (m.chunk x z).data = some d
        ∧ 1044476 ≤ (m.chunk x z).len)
      → ∃ r, mcr_close m = .ok r ∧ r.ret = 0 ∧ r.errno = none := by
    intro hnone
    apply mcr_close_succeeds m hro hacc
    intro x z hx hz d hd
    obtain ⟨h1, h2⟩ := hall x z hx hz d hd
    have h3 : chunkLenBlocks (m.chunk x z).len ≤ 255 := by
      by_contra hb
      exact hnone ⟨x, z, d, hx, hz, hd, ((hblocks _ h2).1).mp (by omega)⟩
    exact ⟨h3, h1, (small_le_cap _).1 h3 h2⟩
  refine ⟨⟨?_, ?_⟩, hok, hblocks⟩
  · intro hfail
    by_contra hnone
    obtain ⟨r, h1, h2, _⟩ := hfail
    obtain ⟨r0, h3, h4, _⟩ := hok hnone
    rw [h1] at h3
    cases h3
    rw [h2] at h4
    exact absurd h4 (by decide)
  · intro hbig
    obtain ⟨x, z, d, hx, hz, hd, hb⟩ := hbig
    exact mcr_close_efbig m hro hacc hall
      ⟨x, z, d, hx, hz, hd, ((hblocks _ (hall x z hx hz d hd).2).1).mpr hb⟩

theorem single_slot_data (x z : Nat) (c : MCRChunk) (x1 z1 : Nat) (d1 : List Nat)
    (h : (set_chunk calloc_chunk x z c x1 z1).data = some d1) :
    x1 = x ∧ z1 = z ∧ set_chunk calloc_chunk x z c x1 z1 = c ∧ c.data = some d1 := by
  by_cases hp : (x1, z1) = (x, z)
  · obtain ⟨rfl, rfl⟩ : x1 = x ∧ z1 = z := by simpa using hp
    rw [set_chunk_same] at h ⊢
    exact ⟨rfl, rfl, rfl, h⟩
  · rw [set_chunk_other _ _ _ _ _ _ hp] at h
    cases h

/-- C21 (as amended), at a container whose slot (3, 4) holds 1044475 bytes: it
is closed. -/
theorem close_size_limit_witness :
    ∃ r, mcr_close
        { fd := { bytes := [], pos := 0, access := O_RDWR }, readonly := false,
          last_timestamp := 1,
          chunk := set_chunk calloc_chunk 3 4
            { timestamp := 1, len := 1044475, data := some (List.replicate 1044475 0) } }
        = .ok r
      ∧ r.ret = 0 ∧ r.errno = none :=
  (close_size_limit
    { fd := { bytes := [], pos := 0, access := O_RDWR }, readonly := false,
      last_timestamp := 1,
      chunk := set_chunk calloc_chunk 3 4
        { timestamp := 1, len := 1044475, data := some (List.replicate 1044475 0) } }
    rfl (by decide)
    (by
      intro x z _ _ d hd
      obtain ⟨_, _, h3, h4⟩ := single_slot_data 3 4 _ x z d hd
      dsimp only at hd h3 h4 ⊢
      rw [h3]
      cases h4
      exact ⟨by rw [List.length_replicate], by decide⟩)).2.1
    (by
      rintro ⟨x, z, d, _, _, hd, hb⟩
      obtain ⟨_, _, h3, _⟩ := single_slot_data 3 4 _ x z d hd
      dsimp only at hb h3
      rw [h3] at hb
      exact absurd hb (by decide))

/-- C21 (as stated) fails: a container whose slot (3, 4) holds 1044476 bytes,
which with the 4 bytes of the length are exactly 255 sectors, is refused with
`EFBIG`. -/
theorem close_rejects_255_full_sectors :
    1044476 + 4 = 255 * 4096
      ∧ (1044476 + 4 + 4095) / 4096 = 255
      ∧ chunkLenBlocks 1044476 = 256
      ∧ ∃ r, mcr_close
          { fd := { bytes := [], pos := 0, access := O_RDWR }, readonly := false,
            last_timestamp := 1,
            chunk := set_chunk calloc_chunk 3 4
              { timestamp := 1, len := 1044476, data := some (List.replicate 1044476 0) } }
          = .ok r
        ∧ r.ret = -1 ∧ r.errno = some .EFBIG := by
  refine ⟨by decide, by decide, by decide, ?_⟩
  apply mcr_close_efbig _ rfl (by decide)
  · intro x z _ _ d hd
    obtain ⟨_, _, h3, h4⟩ := single_slot_data 3 4 _ x z d hd
    dsimp only at hd h3 h4 ⊢
    rw [h3]
    cases h4
    exact ⟨by rw [List.length_replicate], by decide⟩
  · exact ⟨3, 4, List.replicate 1044476 0, by decide, by decide, rfl, by decide⟩

/-! ## Closing: the positions -/

/-- The loop of `mcr_close` over a list in two parts: the first part, then the
second from where the first left off. -/
theorem mcr_close_chunks_append (chunk : Nat → Nat → MCRChunk) :
    ∀ (l1 l2 : List (Nat × Nat)) (st : close_state),
      mcr_close_chunks chunk (l1 ++ l2) st
        = match mcr_close_chunks chunk l1 st with
          | .error e => .error e
          | .ok st1 => mcr_close_chunks chunk l2 st1 := by
  intro l1
  induction l1 with
  | nil =>
    intro l2 st
    rw [List.nil_append, mcr_close_chunks]
  | cons p rest ih =>
    intro l2 st
    obtain ⟨x, z⟩ := p
    rw [List.cons_append, mcr_close_chunks, mcr_close_chunks]
    cases hd : (chunk x z).data with
    | none =>
      simp only
      exact ih l2 st
    | some d =>
      simp only
      split
      · rfl
      · split
        · rfl
        · split
          · rfl
          · split
            · rfl
            · split
              · rfl
              · split
                · rfl
                · split
                  · rfl
                  · split
                    · rfl
                    · exact ih l2 _

/-- The arithmetic of the filling: it is the rest of the last sector, a whole
sector when the length and the data end on a sector boundary, and with it the
bytes of a slot make a whole number of sectors, which is the sector count
unless the sum `len+4+4096` wraps. -/
theorem fill_arith (len : Nat) :
    fill len = 4096 - (len + 4) % 4096 ∧ 1 ≤ fill len ∧ fill len ≤ 4096
      ∧ 4 + len + fill len = 4096 * ((len + 4) / 4096 + 1)
      ∧ (len + 4100 < 2 ^ 32 → 4 + len + fill len = 4096 * chunkLenBlocks len) := by
  have e : fill len = 4096 - (len + 4) % 4096 := by
    unfold fill
    have : (len + 4) % 2 ^ 32 % 4096 = (len + 4) % 4096 :=
      Nat.mod_mod_of_dvd _ (by decide)
    rw [this]
  refine ⟨e, by omega, by omega, by omega, ?_⟩
  intro h
  unfold chunkLenBlocks
  rw [Nat.mod_eq_of_lt h]
  omega

theorem close_span_aligned (c : MCRChunk) : close_span c % 4096 = 0 := by
  unfold close_span
  cases c.data with
  | none => rfl
  | some d =>
    have := (fill_arith c.len).2.2.2.1
    simp only
    omega

/-- The position of the file stays on a sector boundary through the loop of
`mcr_close`. -/
theorem mcr_close_chunks_aligned (chunk : Nat → Nat → MCRChunk) (l : List (Nat × Nat))
    (st st1 : close_state) (h : mcr_close_chunks chunk l st = .ok st1)
    (h0 : st.fd.pos % 4096 = 0) : st1.fd.pos % 4096 = 0 := by
  obtain ⟨_, hp, _⟩ := mcr_close_chunks_ok chunk l st st1 h
  have hsum : ∀ l : List (Nat × Nat),
      (l.map (fun s => close_span (chunk s.1 s.2))).sum % 4096 = 0 := by
    intro l
    induction l with
    | nil => rfl
    | cons p rest ih =>
      have := close_span_aligned (chunk p.1 p.2)
      simp only [List.map_cons, List.sum_cons]
      omega
  have := hsum l
  omega

theorem takeWhile_before (l post : List (Nat × Nat)) (t : Nat × Nat) (h : t ∉ l) :
    (l ++ t :: post).takeWhile (fun s => decide (s ≠ t)) = l := by
  induction l with
  | nil =>
    rw [List.nil_append, List.takeWhile_cons]
    simp
  | cons q rest ih =>
    have h1 : q ≠ t := fun e => h (by rw [e]; exact List.mem_cons_self _ _)
    have h2 : t ∉ rest := fun e => h (List.mem_cons_of_mem _ e)
    rw [List.cons_append, List.takeWhile_cons, ih h2]
    simp [h1]

/-- The loop of `mcr_close`, when it gets through: every slot that holds data is
no longer than one `write` transfers, so its length does not wrap in
`len+4+4096`. -/
theorem mcr_close_chunks_cap (chunk : Nat → Nat → MCRChunk) :
    ∀ (l : List (Nat × Nat)) (st st1 : close_state),
      mcr_close_chunks chunk l st = .ok st1 →
      ∀ s ∈ l, ∀ d, (chunk s.1 s.2).data = some d →
        (chunk s.1 s.2).len ≤ MAX_RW_COUNT ∧ (chunk s.1 s.2).len + 4100 < 2 ^ 32 := by
  intro l
  induction l with
  | nil =>
    intro st st1 _ s hs
    cases hs
  | cons p rest ih =>
    intro st st1 h s hs d hsd
    obtain ⟨x, z⟩ := p
    cases hd : (chunk x z).data with
    | none =>
      rw [mcr_close_chunks] at h
      simp only [hd] at h
      rcases List.mem_cons.mp hs with rfl | hs
      · rw [hd] at hsd
        cases hsd
      · exact ih st st1 h s hs d hsd
    | some d0 =>
      obtain ⟨hacc, hblocks, hlen⟩ := mcr_close_chunks_ok_head chunk x z rest st st1 d0 hd h
      have hcap := mcr_close_chunks_cap_head chunk x z rest st st1 d0 hd h
      rcases List.mem_cons.mp hs with rfl | hs
      · exact ⟨hcap, (small_le_cap _).2.1 hcap⟩
      · obtain ⟨fd3, _, _, hstep⟩ :=
          mcr_close_chunks_step chunk x z rest st d0 hd hacc hblocks hlen hcap
        rw [hstep] at h
        exact ih _ st1 h s hs d hsd

/-- A successful `mcr_close` of a container that is not read-only: no slot with
data has a length that wraps in `len+4+4096`. -/
theorem mcr_close_small (m : MCR) (hro : m.readonly = false) (r : close_result)
    (hclose : mcr_close m = .ok r) (hret : r.ret = 0) :
    ∀ x z, x < 32 → z < 32 → ∀ d, (m.chunk x z).data = some d →
      (m.chunk x z).len + 4100 < 2 ^ 32 := by
  obtain ⟨st1, hloop, _, _⟩ := mcr_close_file m hro r hclose hret
  intro x z hx hz d hd
  exact (mcr_close_chunks_cap m.chunk slot_order _ st1 hloop (x, z)
    ((mem_slot_order x z).mpr ⟨hx, hz⟩) d hd).2

/-- C24. In the loop of `mcr_close`, started at byte 8192, when it has got
through the slots before slot `(x, z)` and the slot holds data: the position
before the turn of the slot is a multiple of 4096, which is the first assertion,
and the filling is `4096 - (len + 4) % 4096` bytes, between 1 and 4096. When the
turn of the slot gets through, the length passed the check on the sectors,
`4 + len + fill` is 4096 times the sector count, and the position after the turn
is `(sector_offset + sector_count) * 4096`, which is the second assertion. On a
file open for writing, with the data stored in full, the turn gets through for
every length that passes the check without `len+4+4096` wrapping; a length that
passes the check because the sum wraps is longer than one `write` transfers, and
the loop is left through `goto err` before the filling and the second
assertion. -/
theorem close_alignment (m : MCR) (pre post : List (Nat × Nat)) (x z : Nat)
    (hsplit : slot_order = pre ++ (x, z) :: post) (before : close_state)
    (hpre : mcr_close_chunks m.chunk pre
      { fd := sys_lseek m.fd 8192, chunkLoc := fun _ => 0, chunkTime := fun _ => 0 }
      = .ok before)
    (d : List Nat) (hd : (m.chunk x z).data = some d) :
    before.fd.pos % 4096 = 0
      ∧ before.fd.pos = write_position m.chunk slot_order 8192 (x, z)
      ∧ fill (m.chunk x z).len = 4096 - ((m.chunk x z).len + 4) % 4096
      ∧ 1 ≤ fill (m.chunk x z).len ∧ fill (m.chunk x z).len ≤ 4096
      ∧ (∀ after, mcr_close_chunks m.chunk [(x, z)] before = .ok after →
          chunkLenBlocks (m.chunk x z).len ≤ 255
          ∧ 4 + (m.chunk x z).len + fill (m.chunk x z).len
              = 4096 * chunkLenBlocks (m.chunk x z).len
          ∧ after.fd.pos
              = before.fd.pos + (4 + (m.chunk x z).len + fill (m.chunk x z).len)
          ∧ after.fd.pos
              = (before.fd.pos / 4096 + chunkLenBlocks (m.chunk x z).len) * 4096
          ∧ mcr_close_chunks m.chunk slot_order
              { fd := sys_lseek m.fd 8192, chunkLoc := fun _ => 0, chunkTime := fun _ => 0 }
            = mcr_close_chunks m.chunk post after)
      ∧ (m.fd.access ≠ O_RDONLY → (m.chunk x z).len ≤ d.length →
          chunkLenBlocks (m.chunk x z).len ≤ 255 → (m.chunk x z).len + 4100 < 2 ^ 32 →
          ∃ after, mcr_close_chunks m.chunk [(x, z)] before = .ok after)
      ∧ (m.fd.access ≠ O_RDONLY → (m.chunk x z).len ≤ d.length →
          chunkLenBlocks (m.chunk x z).len ≤ 255 → 2 ^ 32 ≤ (m.chunk x z).len + 4100 →
          ∃ fd, mcr_close_chunks m.chunk [(x, z)] before = .error (.err none fd)) := by
  obtain ⟨f1, f2, f3, _, f5⟩ := fill_arith (m.chunk x z).len
  have hpos0 : (sys_lseek m.fd 8192).pos = 8192 := by simp [sys_lseek]
  have halign : before.fd.pos % 4096 = 0 :=
    mcr_close_chunks_aligned m.chunk pre _ before hpre (by rw [hpos0])
  obtain ⟨ha, hp, _⟩ := mcr_close_chunks_ok m.chunk pre _ before hpre
  dsimp only at ha hp
  have hnot : (x, z) ∉ pre := by
    have hnd := nodup_slot_order
    rw [hsplit] at hnd
    have := (List.nodup_append.mp hnd).2.2
    intro hmem
    exact this hmem (List.mem_cons_self _ _)
  have hwp : write_position m.chunk slot_order 8192 (x, z) = before.fd.pos := by
    rw [hp, hpos0, hsplit]
    unfold write_position
    congr 2
    rw [takeWhile_before pre post (x, z) hnot]
  have hspan : close_span (m.chunk x z)
      = 4 + (m.chunk x z).len + fill (m.chunk x z).len := by
    simp [close_span, hd]
  refine ⟨halign, hwp.symm, f1, f2, f3, ?_, ?_, ?_⟩
  · intro after hturn
    obtain ⟨hacc1, hcheck, hfull⟩ :=
      mcr_close_chunks_ok_head m.chunk x z [] before after d hd hturn
    have hcap := mcr_close_chunks_cap_head m.chunk x z [] before after d hd hturn
    have hsmall := (small_le_cap _).2.1 hcap
    obtain ⟨fd3, hp3, _, hstep⟩ :=
      mcr_close_chunks_step m.chunk x z [] before d hd hacc1 hcheck hfull hcap
    rw [mcr_close_chunks] at hstep
    rw [hstep] at hturn
    cases hturn
    dsimp only
    refine ⟨hcheck, f5 hsmall, ?_, ?_, ?_⟩
    · rw [hp3, hspan]
    · rw [hp3, hspan, f5 hsmall]
      have := Nat.div_add_mod before.fd.pos 4096
      rw [halign] at this
      rw [Nat.add_mul]
      omega
    · rw [hsplit, mcr_close_chunks_append, hpre]
      simp only
      have e : (x, z) :: post = [(x, z)] ++ post := rfl
      rw [e, mcr_close_chunks_append, hstep]
  · intro hacc hfull hcheck hsmall
    have hacc1 : before.fd.access ≠ O_RDONLY := by
      rw [ha, (sys_lseek_bytes m.fd 8192).2]
      exact hacc
    obtain ⟨fd3, _, _, hstep⟩ := mcr_close_chunks_step m.chunk x z [] before d hd hacc1
      hcheck hfull ((small_le_cap _).1 hcheck hsmall)
    rw [mcr_close_chunks] at hstep
    exact ⟨_, hstep⟩
  · intro hacc hfull hcheck hwrap
    have hacc1 : before.fd.access ≠ O_RDONLY := by
      rw [ha, (sys_lseek_bytes m.fd 8192).2]
      exact hacc
    exact mcr_close_chunks_cut m.chunk x z [] before d hd hacc1 hcheck hfull (by
      have hc : MAX_RW_COUNT = 2147479552 := rfl
      omega)

/-- C24, at a container whose slot (0, 0), the first of the loop, holds three
bytes: the filling is 4089 bytes and the turn leaves the position at byte
12288. -/
theorem close_alignment_witness :
    fill 3 = 4089 ∧ 4 + 3 + fill 3 = 4096 * chunkLenBlocks 3
      ∧ ∃ after, mcr_close_chunks
          (set_chunk calloc_chunk 0 0 { timestamp := 1, len := 3, data := some [2, 120, 156] })
          [(0, 0)]
          { fd := sys_lseek { bytes := [], pos := 0, access := O_RDWR } 8192,
            chunkLoc := fun _ => 0, chunkTime := fun _ => 0 } = .ok after
        ∧ after.fd.pos = 12288 := by
  obtain ⟨_, _, _, _, _, h6, h7, _⟩ := close_alignment
    { fd := { bytes := [], pos := 0, access := O_RDWR }, readonly := false,
      last_timestamp := 1,
      chunk := set_chunk calloc_chunk 0 0
        { timestamp := 1, len := 3, data := some [2, 120, 156] } }
    [] slot_order.tail 0 0 (by rfl)
    { fd := sys_lseek { bytes := [], pos := 0, access := O_RDWR } 8192,
      chunkLoc := fun _ => 0, chunkTime := fun _ => 0 }
    (by rfl) [2, 120, 156] (by rfl)
  obtain ⟨after, h1⟩ := h7 (by decide) (by decide) (by decide) (by decide)
  exact ⟨by decide, by decide, after, h1, (h6 after h1).2.2.2.1.trans (by decide)⟩

/-! ## Closing: the sectors given to the slots -/

theorem write_position_split (chunk : Nat → Nat → MCRChunk) (pre post : List (Nat × Nat))
    (t : Nat × Nat) (start : Nat) (h : t ∉ pre) :
    write_position chunk (pre ++ t :: post) start t
      = start + (pre.map (fun s => close_span (chunk s.1 s.2))).sum := by
  unfold write_position
  rw [takeWhile_before _ _ _ h]

theorem close_span_sectors (c : MCRChunk)
    (h : ∀ d, c.data = some d → c.len + 4100 < 2 ^ 32) :
    close_span c = 4096 * slot_sectors c := by
  unfold close_span slot_sectors
  cases hd : c.data with
  | none => rfl
  | some d => exact (fill_arith c.len).2.2.2.2 (h d hd)

theorem span_sum_sectors (chunk : Nat → Nat → MCRChunk) :
    ∀ l : List (Nat × Nat),
      (∀ s ∈ l, ∀ d, (chunk s.1 s.2).data = some d → (chunk s.1 s.2).len + 4100 < 2 ^ 32) →
      (l.map (fun s => close_span (chunk s.1 s.2))).sum
        = 4096 * (l.map (fun s => slot_sectors (chunk s.1 s.2))).sum := by
  intro l
  induction l with
  | nil => intro _; rfl
  | cons a t ih =>
    intro h
    rw [List.map_cons, List.sum_cons, List.map_cons, List.sum_cons,
      ih (fun s hs => h s (List.mem_cons_of_mem _ hs)),
      close_span_sectors _ (h a (List.mem_cons_self _ _)), Nat.mul_add]

theorem sectors_sum_le (chunk : Nat → Nat → MCRChunk) :
    ∀ l : List (Nat × Nat),
      (∀ s ∈ l, slot_sectors (chunk s.1 s.2) ≤ 255) →
      (l.map (fun s => slot_sectors (chunk s.1 s.2))).sum ≤ l.length * 255 := by
  intro l
  induction l with
  | nil => intro _; simp
  | cons a t ih =>
    intro h
    have h1 := ih (fun s hs => h s (List.mem_cons_of_mem _ hs))
    have h2 := h a (List.mem_cons_self _ _)
    rw [List.map_cons, List.sum_cons, List.length_cons, Nat.succ_mul]
    omega

theorem sectors_sum_absent (chunk : Nat → Nat → MCRChunk) :
    ∀ l : List (Nat × Nat),
      (∀ s ∈ l, (chunk s.1 s.2).data = none) →
      (l.map (fun s => slot_sectors (chunk s.1 s.2))).sum = 0 := by
  intro l
  induction l with
  | nil => intro _; rfl
  | cons a t ih =>
    intro h
    have h1 := ih (fun s hs => h s (List.mem_cons_of_mem _ hs))
    have h2 : slot_sectors (chunk a.1 a.2) = 0 := by
      unfold slot_sectors
      rw [h a (List.mem_cons_self _ _)]
    rw [List.map_cons, List.sum_cons, h1, h2]

theorem not_mem_before (pre post : List (Nat × Nat)) (t : Nat × Nat)
    (h : (pre ++ t :: post).Nodup) : t ∉ pre := by
  intro hp
  have := (List.nodup_append.mp h).2.2
  exact this hp (List.mem_cons_self _ _)

theorem slot_order_length : slot_order.length = 1024 := by
  unfold slot_order
  rw [List.length_flatMap]
  have e : ∀ n : Nat, (List.map (fun x : Nat => (List.map (fun z => (x, z)) (List.range 32)).length)
      (List.range n)).sum = n * 32 := by
    intro n
    simp only [List.length_map, List.length_range, List.map_const', List.sum_replicate]
    simp
  exact e 32

/-- The position of the file when the loop of `mcr_close` reaches a slot, all
slots with data before it having lengths that do not wrap: the two sectors of
the header and the sectors of the slots before it. -/
theorem write_position_sectors (chunk : Nat → Nat → MCRChunk) (pre post : List (Nat × Nat))
    (t : Nat × Nat) (hsplit : slot_order = pre ++ t :: post)
    (hsmall : ∀ x z, x < 32 → z < 32 → ∀ d, (chunk x z).data = some d →
      (chunk x z).len + 4100 < 2 ^ 32) :
    write_position chunk slot_order 8192 t
      = 4096 * (2 + (pre.map (fun s => slot_sectors (chunk s.1 s.2))).sum) := by
  have hn : t ∉ pre := not_mem_before pre post t (hsplit ▸ nodup_slot_order)
  rw [hsplit, write_position_split _ _ _ _ _ hn, span_sum_sectors]
  · omega
  · intro s hs d hd
    have hm : (s.1, s.2) ∈ slot_order := by
      rw [hsplit]
      exact List.mem_append_left _ hs
    obtain ⟨h1, h2⟩ := (mem_slot_order s.1 s.2).mp hm
    exact hsmall s.1 s.2 h1 h2 d hd

/-- C28. A successful `mcr_close` of a container that is not read-only. For a
slot `(x, z)` with data, `pre` being the slots the loop visits before it: the
length of the slot does not wrap in `len+4+4096`; the loop reaches the slot,
and the position of the file is
then 4096 times the sector offset, which is 2 plus the sector counts of the
slots with data before it. The offset is 2 when no slot before it holds data; it
is the offset of the previous slot with data plus that slot's sector count; the
sectors of every earlier slot with data end at or before it, and none lies in
the two sectors of the header; the offset is at most `2 + 1023 * 255`, below
`2^24`, and the count is between 1 and 255. The location entry of the file holds
the two, and `_mcr_read_chunk` recovers them from the header. -/
theorem close_sector_allocation (m : MCR) (hro : m.readonly = false) (r : close_result)
    (hclose : mcr_close m = .ok r) (hret : r.ret = 0)
    (pre post : List (Nat × Nat)) (x z : Nat) (hsplit : slot_order = pre ++ (x, z) :: post)
    (d : List Nat) (hd : (m.chunk x z).data = some d) :
    (m.chunk x z).len + 4100 < 2 ^ 32
      ∧ (∃ before, mcr_close_chunks m.chunk pre
          { fd := sys_lseek m.fd 8192, chunkLoc := fun _ => 0, chunkTime := fun _ => 0 }
          = .ok before
          ∧ before.fd.pos = write_position m.chunk slot_order 8192 (x, z))
      ∧ write_position m.chunk slot_order 8192 (x, z)
          = 4096 * (write_position m.chunk slot_order 8192 (x, z) / 4096)
      ∧ write_position m.chunk slot_order 8192 (x, z) / 4096
          = 2 + (pre.map (fun s => slot_sectors (m.chunk s.1 s.2))).sum
      ∧ ((∀ s ∈ pre, (m.chunk s.1 s.2).data = none) →
          write_position m.chunk slot_order 8192 (x, z) / 4096 = 2)
      ∧ (∀ pre1 mid x1 z1 d1, pre = pre1 ++ (x1, z1) :: mid →
          (m.chunk x1 z1).data = some d1 → (∀ s ∈ mid, (m.chunk s.1 s.2).data = none) →
          write_position m.chunk slot_order 8192 (x, z) / 4096
            = write_position m.chunk slot_order 8192 (x1, z1) / 4096
              + chunkLenBlocks (m.chunk x1 z1).len)
      ∧ (∀ x1 z1 d1, (x1, z1) ∈ pre → (m.chunk x1 z1).data = some d1 →
          2 ≤ write_position m.chunk slot_order 8192 (x1, z1) / 4096
          ∧ write_position m.chunk slot_order 8192 (x1, z1) / 4096
              + chunkLenBlocks (m.chunk x1 z1).len
            ≤ write_position m.chunk slot_order 8192 (x, z) / 4096)
      ∧ 2 ≤ write_position m.chunk slot_order 8192 (x, z) / 4096
      ∧ write_position m.chunk slot_order 8192 (x, z) / 4096 ≤ 2 + 1023 * 255
      ∧ 2 + 1023 * 255 < 2 ^ 24
      ∧ 1 ≤ chunkLenBlocks (m.chunk x z).len
      ∧ chunkLenBlocks (m.chunk x z).len ≤ 255
      ∧ location_entry r.file x z
          = be_bytes 4 (((write_position m.chunk slot_order 8192 (x, z) / 4096) <<< 8)
              ||| chunkLenBlocks (m.chunk x z).len)
      ∧ sector_offset (location_entry r.file x z)
          = write_position m.chunk slot_order 8192 (x, z) / 4096
      ∧ sector_count (location_entry r.file x z) = chunkLenBlocks (m.chunk x z).len
      ∧ chunk_offset ((r.file.take 8192).drop (4 * (x % 32 + z % 32 * 32)))
          = write_position m.chunk slot_order 8192 (x, z) / 4096
      ∧ chunk_nsect ((r.file.take 8192).drop (4 * (x % 32 + z % 32 * 32)))
          = chunkLenBlocks (m.chunk x z).len := by
  have hsmall := mcr_close_small m hro r hclose hret
  obtain ⟨hacc, hlen, hchecks, hentries⟩ := mcr_close_header m hro r hclose hret
  obtain ⟨st1, _, hloop, _, _⟩ := (mcr_close_writable m hro).1 r hclose hret
  have hmem : (x, z) ∈ slot_order := by
    rw [hsplit]
    exact List.mem_append_right _ (List.mem_cons_self _ _)
  obtain ⟨hx, hz⟩ := (mem_slot_order x z).mp hmem
  have hpos := write_position_sectors m.chunk pre post (x, z) hsplit hsmall
  have hoff : write_position m.chunk slot_order 8192 (x, z) / 4096
      = 2 + (pre.map (fun s => slot_sectors (m.chunk s.1 s.2))).sum := by
    rw [hpos]
    exact Nat.mul_div_cancel_left _ (by decide)
  have hcount : ∀ s ∈ slot_order, slot_sectors (m.chunk s.1 s.2) ≤ 255 := by
    intro s hs
    obtain ⟨h1, h2⟩ := (mem_slot_order s.1 s.2).mp hs
    unfold slot_sectors
    cases hc : (m.chunk s.1 s.2).data with
    | none => exact Nat.zero_le _
    | some d1 => exact (hchecks s.1 s.2 h1 h2 d1 hc).1
  have hprelen : pre.length ≤ 1023 := by
    have := slot_order_length
    rw [hsplit, List.length_append, List.length_cons] at this
    omega
  have hsum := sectors_sum_le m.chunk pre (fun s hs => hcount s (by
    rw [hsplit]
    exact List.mem_append_left _ hs))
  have hbound : write_position m.chunk slot_order 8192 (x, z) / 4096 ≤ 2 + 1023 * 255 := by
    rw [hoff]
    have : pre.length * 255 ≤ 1023 * 255 := Nat.mul_le_mul_right _ hprelen
    omega
  have hblocks := (hchecks x z hx hz d hd).1
  have hone : 1 ≤ chunkLenBlocks (m.chunk x z).len := by
    have := hsmall x z hx hz d hd
    unfold chunkLenBlocks
    rw [Nat.mod_eq_of_lt (by omega)]
    omega
  have hentry : location_entry r.file x z
      = be_bytes 4 (((write_position m.chunk slot_order 8192 (x, z) / 4096) <<< 8)
          ||| chunkLenBlocks (m.chunk x z).len) := by
    have := (hentries x z hx hz).1
    rw [hd] at this
    exact this
  obtain ⟨hsc, hso⟩ := sector_count_be_bytes
    (write_position m.chunk slot_order 8192 (x, z) / 4096) _ hblocks
  rw [Nat.mod_eq_of_lt (by omega)] at hso
  obtain ⟨b0, b1, b2, b3, rest, rest1, _, hhdr, hloc, _⟩ := header_entry r.file hlen x z hx hz
  have hb : ∀ b ∈ [b0, b1, b2, b3], b < 256 := by
    intro b hb
    rw [← hloc, hentry] at hb
    unfold be_bytes at hb
    exact le_bytes_lt _ _ _ (List.mem_reverse.mp hb)
  obtain ⟨hco, hcn⟩ := chunk_offset_cons b0 b1 b2 b3 rest1 (hb b1 (by simp)) (hb b2 (by simp))
  rw [← hloc, hentry] at hco hcn
  refine ⟨hsmall x z hx hz d hd, ?_, ?_, hoff, ?_, ?_, ?_, by omega, hbound, by decide, hone,
    hblocks, hentry, ?_, ?_, ?_, ?_⟩
  · have happ := mcr_close_chunks_append m.chunk pre ((x, z) :: post)
      { fd := sys_lseek m.fd 8192, chunkLoc := fun _ => 0, chunkTime := fun _ => 0 }
    rw [← hsplit, hloop] at happ
    cases hb : mcr_close_chunks m.chunk pre
        { fd := sys_lseek m.fd 8192, chunkLoc := fun _ => 0, chunkTime := fun _ => 0 } with
    | error e =>
      rw [hb] at happ
      cases happ
    | ok before =>
      refine ⟨before, rfl, ?_⟩
      have h2 := (mcr_close_chunks_ok m.chunk pre _ before hb).2.1
      have hn : (x, z) ∉ pre := not_mem_before pre post (x, z) (hsplit ▸ nodup_slot_order)
      rw [h2, hsplit, write_position_split _ _ _ _ _ hn]
      simp [sys_lseek]
  · rw [hpos, Nat.mul_div_cancel_left _ (by decide : 0 < 4096)]
  · intro habs
    rw [hoff, sectors_sum_absent m.chunk pre habs]
  · intro pre1 mid x1 z1 d1 hpre hd1 habs
    have hsplit1 : slot_order = pre1 ++ (x1, z1) :: (mid ++ (x, z) :: post) := by
      rw [hsplit, hpre, List.append_assoc, List.cons_append]
    have hpos1 := write_position_sectors m.chunk pre1 _ (x1, z1) hsplit1 hsmall
    rw [hoff, hpos1, Nat.mul_div_cancel_left _ (by decide : 0 < 4096), hpre, List.map_append,
      List.sum_append, List.map_cons, List.sum_cons, sectors_sum_absent m.chunk mid habs]
    have e : slot_sectors (m.chunk x1 z1) = chunkLenBlocks (m.chunk x1 z1).len := by
      unfold slot_sectors
      rw [hd1]
    simp only [e]
    omega
  · intro x1 z1 d1 hin hd1
    obtain ⟨pre1, mid, hpre⟩ := List.append_of_mem hin
    have hsplit1 : slot_order = pre1 ++ (x1, z1) :: (mid ++ (x, z) :: post) := by
      rw [hsplit, hpre, List.append_assoc, List.cons_append]
    have hpos1 := write_position_sectors m.chunk pre1 _ (x1, z1) hsplit1 hsmall
    rw [hoff, hpos1, Nat.mul_div_cancel_left _ (by decide : 0 < 4096), hpre, List.map_append,
      List.sum_append, List.map_cons, List.sum_cons]
    have e : slot_sectors (m.chunk x1 z1) = chunkLenBlocks (m.chunk x1 z1).len := by
      unfold slot_sectors
      rw [hd1]
    simp only [e]
    omega
  · rw [hentry]
    exact hso
  · rw [hentry]
    exact hsc
  · rw [hhdr]
    exact hco.trans hso
  · rw [hhdr]
    exact hcn.trans hsc

theorem two_slot_data (c0 c1 : MCRChunk) (x1 z1 : Nat) (d1 : List Nat)
    (h : (set_chunk (set_chunk calloc_chunk 0 0 c0) 0 1 c1 x1 z1).data = some d1) :
    (set_chunk (set_chunk calloc_chunk 0 0 c0) 0 1 c1 x1 z1 = c0 ∧ c0.data = some d1)
      ∨ (set_chunk (set_chunk calloc_chunk 0 0 c0) 0 1 c1 x1 z1 = c1 ∧ c1.data = some d1) := by
  unfold set_chunk at h ⊢
  by_cases h1 : x1 = 0 ∧ z1 = 1
  · rw [if_pos h1] at h ⊢
    exact Or.inr ⟨rfl, h⟩
  · rw [if_neg h1] at h ⊢
    by_cases h0 : x1 = 0 ∧ z1 = 0
    · rw [if_pos h0] at h ⊢
      exact Or.inl ⟨rfl, h⟩
    · rw [if_neg h0] at h
      cases h

theorem slot_order_two : ∃ t, slot_order = (0, 0) :: (0, 1) :: t :=
  ⟨slot_order.drop 2, by rfl⟩

/-- A container that holds data in the slots (0, 0) and (0, 1) only, both
passing the checks of the loop and no longer than one `write` transfers, on a
file open for writing: `mcr_close` returns 0, and the two location entries of
the file. -/
theorem two_slot_close (fd : file_desc) (hacc : fd.access ≠ O_RDONLY) (lt : Nat)
    (c0 c1 : MCRChunk) (d0 d1 : List Nat) (h0 : c0.data = some d0) (h1 : c1.data = some d1)
    (hb0 : chunkLenBlocks c0.len ≤ 255) (hb1 : chunkLenBlocks c1.len ≤ 255)
    (hl0 : c0.len ≤ d0.length) (hl1 : c1.len ≤ d1.length)
    (hc0 : c0.len ≤ MAX_RW_COUNT) (hc1 : c1.len ≤ MAX_RW_COUNT) :
    ∃ r, mcr_close { fd := fd, readonly := false, last_timestamp := lt,
                     chunk := set_chunk (set_chunk calloc_chunk 0 0 c0) 0 1 c1 } = .ok r
      ∧ r.ret = 0
      ∧ location_entry r.file 0 0 = be_bytes 4 ((2 <<< 8) ||| chunkLenBlocks c0.len)
      ∧ location_entry r.file 0 1
          = be_bytes 4 ((((8192 + (4 + c0.len + fill c0.len)) / 4096) <<< 8)
              ||| chunkLenBlocks c1.len) := by
  have e0 : set_chunk (set_chunk calloc_chunk 0 0 c0) 0 1 c1 0 0 = c0 := by
    rw [set_chunk_other _ _ _ _ _ _ (by decide), set_chunk_same]
  have e1 : set_chunk (set_chunk calloc_chunk 0 0 c0) 0 1 c1 0 1 = c1 := set_chunk_same _ _ _ _
  obtain ⟨r, hr, hret, _⟩ := mcr_close_succeeds
    { fd := fd, readonly := false, last_timestamp := lt,
      chunk := set_chunk (set_chunk calloc_chunk 0 0 c0) 0 1 c1 } rfl hacc (by
      intro x z _ _ d hd
      dsimp only at hd ⊢
      rcases two_slot_data c0 c1 x z d hd with ⟨e, hc⟩ | ⟨e, hc⟩
      · rw [e]
        rw [h0] at hc
        cases hc
        exact ⟨hb0, hl0, hc0⟩
      · rw [e]
        rw [h1] at hc
        cases hc
        exact ⟨hb1, hl1, hc1⟩)
  obtain ⟨_, _, _, hentries⟩ := mcr_close_header _ rfl r hr hret
  obtain ⟨t, ht⟩ := slot_order_two
  have p0 := (hentries 0 0 (by decide) (by decide)).1
  have p1 := (hentries 0 1 (by decide) (by decide)).1
  dsimp only at p0 p1
  rw [e0, h0, ht, write_position_head] at p0
  rw [e1, h1, ht, write_position_tail _ _ _ _ _ (by decide), write_position_head, e0] at p1
  refine ⟨r, hr, hret, p0, ?_⟩
  rw [p1]
  simp only [close_span, h0]

/-- C28, at a container with three bytes in slot (0, 0) and two in slot (0, 1):
slot (0, 1) gets the sector offset `2 + 1` and the count 1. -/
theorem close_sector_allocation_witness :
    ∃ r, mcr_close
        { fd := { bytes := [], pos := 0, access := O_RDWR }, readonly := false,
          last_timestamp := 1,
          chunk := set_chunk (set_chunk calloc_chunk 0 0
              { timestamp := 1, len := 3, data := some [2, 120, 156] }) 0 1
            { timestamp := 1, len := 2, data := some [2, 7] } } = .ok r
      ∧ r.ret = 0
      ∧ sector_offset (location_entry r.file 0 1) = 3
      ∧ sector_count (location_entry r.file 0 1) = 1
      ∧ chunk_offset ((r.file.take 8192).drop (4 * (0 % 32 + 1 % 32 * 32))) = 3 := by
  obtain ⟨r, hr, hret, _⟩ := two_slot_close { bytes := [], pos := 0, access := O_RDWR }
    (by decide) 1 { timestamp := 1, len := 3, data := some [2, 120, 156] }
    { timestamp := 1, len := 2, data := some [2, 7] } [2, 120, 156] [2, 7] rfl rfl
    (by decide) (by decide) (by decide) (by decide) (by decide) (by decide)
  obtain ⟨_, _, _, h3, _, _, _, _, _, _, _, _, _, h13, h14, h15, _⟩ := close_sector_allocation
    { fd := { bytes := [], pos := 0, access := O_RDWR }, readonly := false,
      last_timestamp := 1,
      chunk := set_chunk (set_chunk calloc_chunk 0 0
          { timestamp := 1, len := 3, data := some [2, 120, 156] }) 0 1
        { timestamp := 1, len := 2, data := some [2, 7] } } rfl r hr hret
    [(0, 0)] (slot_order.drop 2) 0 1 (by rfl) [2, 7] (by rfl)
  refine ⟨r, hr, hret, h13.trans (h3.trans (by decide)), h14.trans (by decide),
    h15.trans (h3.trans (by decide))⟩

/-! ## Closing: the bytes of the slots in the file -/

theorem take_keeps (B seg t : List Nat) (pos : Nat) (hp : B.length + seg.length ≤ pos) :
    (B ++ seg ++ t).take pos = B ++ seg ++ t.take (pos - (B.length + seg.length)) := by
  rw [List.take_append_eq_append_take, List.take_of_length_le (by
    rw [List.length_append]; exact hp), List.length_append]

theorem hole_length (bytes : List Nat) (pos : Nat) :
    (bytes.take pos ++ List.replicate (pos - bytes.length) 0).length = pos := by
  rw [List.length_append, List.length_take, List.length_replicate]
  omega

/-- A call of `write` right after a segment of the file, for no more bytes than
one call transfers. -/
theorem sys_write_at (fd : file_desc) (buf B seg t : List Nat) (hacc : fd.access ≠ O_RDONLY)
    (hb : fd.bytes = B ++ seg ++ t) (hp : B.length + seg.length = fd.pos)
    (hcap : buf.length ≤ MAX_RW_COUNT) :
    ∃ fd1, sys_write fd buf = some (fd1, buf.length) ∧ fd1.pos = fd.pos + buf.length
      ∧ fd1.access = fd.access
      ∧ fd1.bytes = B ++ (seg ++ buf) ++ t.drop buf.length := by
  obtain ⟨fd1, w1, p1, a1, b1⟩ := sys_write_some fd buf hacc hcap
  refine ⟨fd1, w1, p1, a1, ?_⟩
  have hl : (B ++ seg).length = fd.pos := by rw [List.length_append]; exact hp
  have e1 : fd.bytes.take fd.pos = B ++ seg := by
    rw [hb]
    exact List.take_left' hl
  have e2 : fd.pos - fd.bytes.length = 0 := by
    rw [hb, List.length_append, hl]
    omega
  have e3 : fd.bytes.drop (fd.pos + buf.length) = t.drop buf.length := by
    rw [hb, ← hl]
    exact List.drop_append _
  rw [b1, e1, e2, e3, List.replicate_zero, List.append_nil, List.append_assoc B seg buf]

theorem slot_bytes_length (len : Nat) (d : List Nat) (h : len ≤ d.length) :
    (slot_bytes len d).length = 4 + len + fill len := by
  unfold slot_bytes
  rw [List.length_append, List.length_append, le_bytes_length, List.length_take,
    List.length_replicate, Nat.min_eq_left h]
  omega

/-- One turn of the loop of `mcr_close` on a slot that holds data, passes the
checks and is no longer than one `write` transfers, on a file open for writing:
the bytes of the slot are in the file from the position on, after what the
file held before the position. -/
theorem mcr_close_chunks_step_bytes (chunk : Nat → Nat → MCRChunk) (x z : Nat)
    (rest : List (Nat × Nat)) (st : close_state) (d : List Nat)
    (hd : (chunk x z).data = some d) (hacc : st.fd.access ≠ O_RDONLY)
    (hblocks : chunkLenBlocks (chunk x z).len ≤ 255) (hlen : (chunk x z).len ≤ d.length)
    (hcap : (chunk x z).len ≤ MAX_RW_COUNT) :
    ∃ (fd3 : file_desc) (t : List Nat),
      fd3.pos = st.fd.pos + close_span (chunk x z) ∧ fd3.access = st.fd.access
      ∧ fd3.bytes
          = st.fd.bytes.take st.fd.pos ++ List.replicate (st.fd.pos - st.fd.bytes.length) 0
              ++ slot_bytes (chunk x z).len d ++ t
      ∧ mcr_close_chunks chunk ((x, z) :: rest) st
        = mcr_close_chunks chunk rest
            { fd := fd3
              chunkLoc := set_entry st.chunkLoc (x + z * 32)
                ((((st.fd.pos / 4096) <<< 8) ||| chunkLenBlocks (chunk x z).len) % 2 ^ 32)
              chunkTime := set_entry st.chunkTime (x + z * 32) (chunk x z).timestamp } := by
  have hl2 : (d.take (chunk x z).len).length = (chunk x z).len := by
    rw [List.length_take, Nat.min_eq_left hlen]
  obtain ⟨fd1, w1, p1, a1, b1⟩ := sys_write_some st.fd (le_bytes 4 (ntohl (chunk x z).len)) hacc
    (by rw [le_bytes_length]; decide)
  have hh := hole_length st.fd.bytes st.fd.pos
  obtain ⟨fd2, w2, p2, a2, b2⟩ := sys_write_at fd1 (d.take (chunk x z).len)
    (st.fd.bytes.take st.fd.pos ++ List.replicate (st.fd.pos - st.fd.bytes.length) 0)
    (le_bytes 4 (ntohl (chunk x z).len)) _ (by rw [a1]; exact hacc) b1
    (by rw [hh, p1]) (by rw [hl2]; exact hcap)
  obtain ⟨fd3, w3, p3, a3, b3⟩ := sys_write_at fd2 (List.replicate (fill (chunk x z).len) 0)
    _ _ _ (by rw [a2, a1]; exact hacc) b2
    (by rw [hh, p2, p1, List.length_append]; omega) (fill_le _)
  refine ⟨fd3, List.drop (List.replicate (fill (chunk x z).len) 0).length
    (List.drop (List.take (chunk x z).len d).length
      (List.drop (st.fd.pos + (le_bytes 4 (ntohl (chunk x z).len)).length) st.fd.bytes)),
    ?_, ?_, ?_, ?_⟩
  · rw [p3, p2, p1, le_bytes_length, List.length_take, List.length_replicate,
      Nat.min_eq_left hlen]
    simp only [close_span, hd]
    omega
  · rw [a3, a2, a1]
  · rw [b3]
    unfold slot_bytes
    rw [List.append_assoc (le_bytes 4 (ntohl (chunk x z).len))]
  · rw [mcr_close_chunks]
    simp only [hd]
    rw [if_neg (by omega), w1]
    simp only
    rw [if_neg (by rw [le_bytes_length]; decide), if_neg (by omega), w2]
    simp only
    rw [if_neg (by rw [hl2]; exact fun h => h rfl), w3]
    simp only
    rw [if_neg (by rw [List.length_replicate]; exact fun h => h rfl)]

/-- The loop of `mcr_close`, when it gets through: a segment of the file that
ends at or before the position is still there afterwards, and the bytes of every
slot with data are in the file at the position the loop had when it reached the
slot. -/
theorem mcr_close_chunks_bytes (chunk : Nat → Nat → MCRChunk) :
    ∀ (l : List (Nat × Nat)) (st st1 : close_state),
      mcr_close_chunks chunk l st = .ok st1 →
      (∀ B seg t, st.fd.bytes = B ++ seg ++ t → B.length + seg.length ≤ st.fd.pos →
        ∃ t1, st1.fd.bytes = B ++ seg ++ t1)
      ∧ (l.Nodup → ∀ s ∈ l, ∀ d, (chunk s.1 s.2).data = some d →
          ∃ B t, st1.fd.bytes = B ++ slot_bytes (chunk s.1 s.2).len d ++ t
            ∧ B.length = write_position chunk l st.fd.pos s) := by
  intro l
  induction l with
  | nil =>
    intro st st1 h
    rw [mcr_close_chunks] at h
    cases h
    exact ⟨fun B seg t hb _ => ⟨t, hb⟩, fun _ s hs => absurd hs (List.not_mem_nil s)⟩
  | cons p rest ih =>
    obtain ⟨x, z⟩ := p
    intro st st1 h
    cases hd0 : (chunk x z).data with
    | none =>
      rw [mcr_close_chunks] at h
      simp only [hd0] at h
      obtain ⟨hk, hw⟩ := ih st st1 h
      refine ⟨hk, ?_⟩
      intro hn s hs d hd
      have hne : (x, z) ≠ s := by
        intro e
        rw [← e, hd0] at hd
        cases hd
      have hin : s ∈ rest := by
        rcases List.mem_cons.mp hs with e | e
        · exact absurd e.symm hne
        · exact e
      obtain ⟨B, t, hb, hl⟩ := hw (List.nodup_cons.mp hn).2 s hin d hd
      refine ⟨B, t, hb, ?_⟩
      rw [hl, write_position_tail _ _ _ _ _ hne]
      simp only [close_span, hd0, Nat.add_zero]
    | some d0 =>
      obtain ⟨hacc, hblocks, hlen⟩ := mcr_close_chunks_ok_head chunk x z rest st st1 d0 hd0 h
      have hcap := mcr_close_chunks_cap_head chunk x z rest st st1 d0 hd0 h
      obtain ⟨fd3, t3, hp3, _, hb3, heq⟩ :=
        mcr_close_chunks_step_bytes chunk x z rest st d0 hd0 hacc hblocks hlen hcap
      rw [heq] at h
      obtain ⟨hk, hw⟩ := ih _ st1 h
      dsimp only at hk hw
      constructor
      · intro B seg t hb hp
        have e := take_keeps B seg t st.fd.pos hp
        rw [← hb] at e
        rw [e] at hb3
        exact hk B seg (List.take (st.fd.pos - (B.length + seg.length)) t
            ++ (List.replicate (st.fd.pos - st.fd.bytes.length) 0
              ++ (slot_bytes (chunk x z).len d0 ++ t3))) (by
          rw [hb3]
          simp only [List.append_assoc]) (by rw [hp3]; omega)
      · intro hn s hs d hd
        by_cases hs0 : s = (x, z)
        · subst hs0
          dsimp only at hd
          rw [hd0] at hd
          cases hd
          obtain ⟨t1, ht1⟩ := hk _ (slot_bytes (chunk x z).len d0) t3 hb3 (by
            rw [hole_length, slot_bytes_length _ _ hlen, hp3]
            simp only [close_span, hd0]
            omega)
          exact ⟨_, t1, ht1, by rw [hole_length, write_position_head]⟩
        · have hin : s ∈ rest := by
            rcases List.mem_cons.mp hs with e | e
            · exact absurd e hs0
            · exact e
          obtain ⟨B, t, hb, hl⟩ := hw (List.nodup_cons.mp hn).2 s hin d hd
          refine ⟨B, t, hb, ?_⟩
          rw [hl, hp3, write_position_tail _ _ _ _ _ (fun e => hs0 e.symm)]

/-- A successful `mcr_close` of a container that is not read-only: the bytes of
every slot with data are in the file, at the position the loop had when it
reached the slot. -/
theorem mcr_close_payload (m : MCR) (hro : m.readonly = false) (r : close_result)
    (h : mcr_close m = .ok r) (hret : r.ret = 0) (x z : Nat) (hx : x < 32) (hz : z < 32)
    (d : List Nat) (hd : (m.chunk x z).data = some d) :
    ∃ B t, r.file = B ++ (slot_bytes (m.chunk x z).len d ++ t)
      ∧ B.length = write_position m.chunk slot_order 8192 (x, z) := by
  obtain ⟨st1, hloop, _, hfile⟩ := mcr_close_file m hro r h hret
  obtain ⟨B, t, hb, hl⟩ := (mcr_close_chunks_bytes m.chunk slot_order _ st1 hloop).2
    nodup_slot_order (x, z) ((mem_slot_order x z).mpr ⟨hx, hz⟩) d hd
  have hpos : (sys_lseek m.fd 8192).pos = 8192 := by simp [sys_lseek]
  dsimp only at hl hb
  rw [hpos] at hl
  have hge : 8192 ≤ B.length := by
    rw [hl]
    unfold write_position
    exact Nat.le_add_right _ _
  refine ⟨table_bytes st1.chunkLoc ++ (table_bytes st1.chunkTime ++ B.drop 8192), t, ?_, ?_⟩
  · rw [hfile, hb, List.append_assoc B, List.drop_append_of_le_length hge]
    simp only [List.append_assoc]
  · rw [List.length_append, List.length_append, table_bytes_length, table_bytes_length,
      List.length_drop, ← hl]
    omega

/-- What `_mcr_read_chunk` makes of a location entry that holds an offset below
`2^24` and a count of at most 255. -/
theorem entry_read (file : List Nat) (hlen : 8192 ≤ file.length) (x z : Nat) (hx : x < 32)
    (hz : z < 32) (off c : Nat) (hoff : off < 2 ^ 24) (hc : c ≤ 255)
    (hentry : location_entry file x z = be_bytes 4 ((off <<< 8) ||| c)) :
    chunk_offset ((file.take 8192).drop (4 * (x % 32 + z % 32 * 32))) = off
      ∧ chunk_nsect ((file.take 8192).drop (4 * (x % 32 + z % 32 * 32))) = c := by
  obtain ⟨hsc, hso⟩ := sector_count_be_bytes off c hc
  rw [Nat.mod_eq_of_lt hoff] at hso
  obtain ⟨b0, b1, b2, b3, rest, rest1, _, hhdr, hloc, _⟩ := header_entry file hlen x z hx hz
  have hb : ∀ b ∈ [b0, b1, b2, b3], b < 256 := by
    intro b hb
    rw [← hloc, hentry] at hb
    unfold be_bytes at hb
    exact le_bytes_lt _ _ _ (List.mem_reverse.mp hb)
  obtain ⟨hco, hcn⟩ := chunk_offset_cons b0 b1 b2 b3 rest1 (hb b1 (by simp)) (hb b2 (by simp))
  rw [← hloc, hentry] at hco hcn
  rw [hhdr]
  exact ⟨hco.trans hso, hcn.trans hsc⟩

/-- The slot that `mcr_open` loads from a file whose location entry holds a
sector offset that is not 0 and below 524288, the file holding four bytes of
length at that sector. -/
theorem reopen_slot (file : List Nat) (mode : Nat) (hmode : mode = O_RDONLY ∨ mode = O_RDWR)
    (hlen : 8192 ≤ file.length) (x z : Nat) (hx : x < 32) (hz : z < 32) (off : Nat)
    (hoff : chunk_offset ((file.take 8192).drop (4 * (x % 32 + z % 32 * 32))) = off)
    (h0 : off ≠ 0) (hsmall : off < 524288)
    (B lb rest : List Nat) (hfile : file = B ++ (lb ++ rest)) (hB : B.length = off * 4096)
    (hlb : lb.length = 4) (hcap : (ntohl (le_value lb) + 1) % 2 ^ 32 ≤ MAX_RW_COUNT) :
    ∃ m2, mcr_open (some file) mode = (some m2, none)
      ∧ (m2.chunk x z).len = (ntohl (le_value lb) + 1) % 2 ^ 32
      ∧ (m2.chunk x z).data
          = if (rest.take ((ntohl (le_value lb) + 1) % 2 ^ 32)).length
                < ((ntohl (le_value lb) + 1) % 2 ^ 32 + 2 ^ 32 - 1) % 2 ^ 32 then none
            else some (rest.take ((ntohl (le_value lb) + 1) % 2 ^ 32)) := by
  obtain ⟨m2, hopen, _, _, _, hslots⟩ := mcr_open_existing file mode hmode hlen
  obtain ⟨mp, hbytes, haccess, _, hm⟩ := hslots x z hx hz
  have hmode2 : mode ≠ O_WRONLY := by
    rcases hmode with e | e <;> rw [e] <;> decide
  have hread := read_chunk_data_at B lb rest (off * 4096) mode hB hmode2 hlb hcap
  rw [_mcr_read_chunk_slot, hoff, if_neg (fun h => h0 h.1), sys_lseek_small _ _ hsmall, hbytes,
    haccess, hfile, hread] at hm
  exact ⟨m2, hopen, by rw [hm], by rw [hm]⟩

/-- The data that the second `read` of `_mcr_read_chunk` takes from the bytes
that `mcr_close` wrote after the length: the data and one byte of the filling. -/
theorem payload_and_filling (len : Nat) (d t : List Nat) (h : len ≤ d.length) :
    ((d.take len ++ List.replicate (fill len) 0) ++ t).take (len + 1) = d.take len ++ [0] := by
  obtain ⟨_, h1, _⟩ := fill_arith len
  obtain ⟨k, hk⟩ : ∃ k, fill len = k + 1 := ⟨fill len - 1, by omega⟩
  have hl : (d.take len).length = len := by
    rw [List.length_take, Nat.min_eq_left h]
  rw [hk, List.replicate_succ, List.append_assoc, List.take_append_eq_append_take, hl,
    List.take_of_length_le (by rw [hl]; omega)]
  have e : len + 1 - len = 1 := by omega
  rw [e]
  rfl

/-- A successful `mcr_close` of a container that is not read-only: the position
of the file when the loop reaches a slot with data is a whole number of
sectors, at least 2 and at most `2 + 1023 * 255`, and `_mcr_read_chunk` reads
that number from the header. -/
theorem close_offset_read (m : MCR) (hro : m.readonly = false) (r : close_result)
    (hclose : mcr_close m = .ok r) (hret : r.ret = 0)
    (x z : Nat) (hx : x < 32) (hz : z < 32) (d : List Nat)
    (hd : (m.chunk x z).data = some d) :
    write_position m.chunk slot_order 8192 (x, z)
        = write_position m.chunk slot_order 8192 (x, z) / 4096 * 4096
      ∧ 2 ≤ write_position m.chunk slot_order 8192 (x, z) / 4096
      ∧ write_position m.chunk slot_order 8192 (x, z) / 4096 ≤ 2 + 1023 * 255
      ∧ chunk_offset ((r.file.take 8192).drop (4 * (x % 32 + z % 32 * 32)))
          = write_position m.chunk slot_order 8192 (x, z) / 4096 := by
  have hsmall := mcr_close_small m hro r hclose hret
  obtain ⟨_, hlen, hchecks, hentries⟩ := mcr_close_header m hro r hclose hret
  obtain ⟨pre, post, hsplit⟩ := List.append_of_mem ((mem_slot_order x z).mpr ⟨hx, hz⟩)
  have hpos := write_position_sectors m.chunk pre post (x, z) hsplit hsmall
  have hoff : write_position m.chunk slot_order 8192 (x, z) / 4096
      = 2 + (pre.map (fun s => slot_sectors (m.chunk s.1 s.2))).sum := by
    rw [hpos]
    exact Nat.mul_div_cancel_left _ (by decide)
  have hcount : ∀ s ∈ pre, slot_sectors (m.chunk s.1 s.2) ≤ 255 := by
    intro s hs
    have hm : (s.1, s.2) ∈ slot_order := by
      rw [hsplit]
      exact List.mem_append_left _ hs
    obtain ⟨h1, h2⟩ := (mem_slot_order s.1 s.2).mp hm
    unfold slot_sectors
    cases hc : (m.chunk s.1 s.2).data with
    | none => exact Nat.zero_le _
    | some d1 => exact (hchecks s.1 s.2 h1 h2 d1 hc).1
  have hprelen : pre.length ≤ 1023 := by
    have := slot_order_length
    rw [hsplit, List.length_append, List.length_cons] at this
    omega
  have hsum := sectors_sum_le m.chunk pre hcount
  have hbound : write_position m.chunk slot_order 8192 (x, z) / 4096 ≤ 2 + 1023 * 255 := by
    rw [hoff]
    have : pre.length * 255 ≤ 1023 * 255 := Nat.mul_le_mul_right _ hprelen
    omega
  have hentry := (hentries x z hx hz).1
  rw [hd] at hentry
  refine ⟨?_, by omega, hbound, ?_⟩
  · rw [hpos, Nat.mul_div_cancel_left _ (by decide : 0 < 4096), Nat.mul_comm]
  · exact (entry_read r.file hlen x z hx hz _ _ (by omega) (hchecks x z hx hz d hd).1 hentry).1

/-- C29. A successful `mcr_close` of a container that is not read-only, and the
file opened again for reading, or for reading and writing: the slot `(x, z)`,
which held the `len` bytes `d.take len`, holds after reopening those bytes
followed by one byte 0, and its length is `len + 1`. -/
theorem reopened_payload_grows (m : MCR) (hro : m.readonly = false) (r : close_result)
    (hclose : mcr_close m = .ok r) (hret : r.ret = 0)
    (mode : Nat) (hmode : mode = O_RDONLY ∨ mode = O_RDWR)
    (x z : Nat) (hx : x < 32) (hz : z < 32) (d : List Nat)
    (hd : (m.chunk x z).data = some d) :
    ∃ m2, mcr_open (some r.file) mode = (some m2, none)
      ∧ (d.take (m.chunk x z).len).length = (m.chunk x z).len
      ∧ (m2.chunk x z).data = some (d.take (m.chunk x z).len ++ [0])
      ∧ (m2.chunk x z).len = (m.chunk x z).len + 1
      ∧ (d.take (m.chunk x z).len ++ [0]).length = (m2.chunk x z).len := by
  obtain ⟨_, hlen, hchecks, _⟩ := mcr_close_header m hro r hclose hret
  obtain ⟨h1, h2, h3, h4⟩ := close_offset_read m hro r hclose hret x z hx hz d hd
  obtain ⟨B, t, hfile, hB⟩ := mcr_close_payload m hro r hclose hret x z hx hz d hd
  have hfull := (hchecks x z hx hz d hd).2
  have hs := mcr_close_small m hro r hclose hret x z hx hz d hd
  have hsize := (small_le_cap _).1 (hchecks x z hx hz d hd).1 hs
  have e1 : ntohl (le_value (le_bytes 4 (ntohl (m.chunk x z).len))) = (m.chunk x z).len := by
    rw [le_value_le_bytes,
      Nat.mod_eq_of_lt (Nat.lt_of_lt_of_le (ntohl_lt _) (by decide)), ntohl_ntohl _ (by omega)]
  have e2 : ((m.chunk x z).len + 1) % 2 ^ 32 = (m.chunk x z).len + 1 :=
    Nat.mod_eq_of_lt (by omega)
  have hsmaller := (small_le_cap _).2.2 (hchecks x z hx hz d hd).1 hsize
  obtain ⟨m2, hopen, hl, hdata⟩ := reopen_slot r.file mode hmode hlen x z hx hz _ h4
    (by omega) (by omega) B (le_bytes 4 (ntohl (m.chunk x z).len))
    ((d.take (m.chunk x z).len ++ List.replicate (fill (m.chunk x z).len) 0) ++ t)
    (by
      rw [hfile]
      unfold slot_bytes
      simp only [List.append_assoc])
    (by rw [hB]; exact h1) (le_bytes_length _ _)
    (by
      rw [e1, e2]
      exact Nat.le_trans (Nat.succ_le_succ hsmaller) (by decide))
  have hlt : (d.take (m.chunk x z).len).length = (m.chunk x z).len := by
    rw [List.length_take, Nat.min_eq_left hfull]
  rw [e1, e2] at hl hdata
  rw [payload_and_filling _ _ _ hfull, if_neg (by
    rw [List.length_append, hlt, List.length_singleton]
    omega)] at hdata
  exact ⟨m2, hopen, hlt, hdata, hl, by rw [hl, List.length_append, hlt, List.length_singleton]⟩

/-- C29, at a container whose slot (3, 4) holds the three bytes 2, 120, 156:
after closing and reopening it holds 2, 120, 156, 0 and the length 4. -/
theorem reopened_payload_grows_witness :
    ∃ r m2, mcr_close
        { fd := { bytes := [], pos := 0, access := O_RDWR }, readonly := false,
          last_timestamp := 1,
          chunk := set_chunk calloc_chunk 3 4
            { timestamp := 1, len := 3, data := some [2, 120, 156] } } = .ok r
      ∧ r.ret = 0
      ∧ mcr_open (some r.file) O_RDONLY = (some m2, none)
      ∧ (m2.chunk 3 4).data = some [2, 120, 156, 0]
      ∧ (m2.chunk 3 4).len = 4 := by
  obtain ⟨r, hr, hret, _⟩ := single_slot_close { bytes := [], pos := 0, access := O_RDWR }
    (by decide) 1 3 4 (by decide) (by decide)
    { timestamp := 1, len := 3, data := some [2, 120, 156] } [2, 120, 156] rfl
    (by decide) (by decide) (by decide)
  obtain ⟨m2, hopen, _, hdata, hl, _⟩ := reopened_payload_grows
    { fd := { bytes := [], pos := 0, access := O_RDWR }, readonly := false,
      last_timestamp := 1,
      chunk := set_chunk calloc_chunk 3 4
        { timestamp := 1, len := 3, data := some [2, 120, 156] } } rfl r hr hret
    O_RDONLY (Or.inl rfl) 3 4 (by decide) (by decide) [2, 120, 156] (by rfl)
  exact ⟨r, m2, hr, hret, hopen, hdata.trans (by rfl), hl.trans (by rfl)⟩

end CNBT
